import Mathlib

/-!
# FEAST: weighted CMIM and weighted DISR feature selection

A shallow embedding of `src/WeightedCMIM.c` and `src/WeightedDISR.c`.

* C `double` values are modelled by `Dbl`: a rational, one of the two infinities, or NaN.
  Finite arithmetic is exact (rounding is not modelled) and the sign of zero is ignored, so
  the sign of an infinite quotient by zero may differ from C; no statement depends on it.
* C arrays are maps from an index to a value (`Nat → α`); a `calloc`ed array starts as the
  constant-zero map. An access outside an array is undefined in C; the embedding leaves the
  array unchanged on a write at a negative index.
* The MIToolbox routines (`discAndCalcWeightedMutualInformation`, ...) are not part of the two
  source files; they are taken as parameters, collected in `Oracle`.
* Every state carries a ghost `trace` of the oracle evaluations and cache writes, most recent
  first. The trace is never read by the algorithms.
-/

/-! ## Doubles -/

/-- Values of the C type `double`. -/
inductive Dbl
  | nan
  | ninf
  | fin (q : ℚ)
  | pinf
  deriving DecidableEq

namespace Dbl

/-- C comparison `a > b`; false as soon as one side is NaN. -/
def gt : Dbl → Dbl → Bool
  | fin a, fin b => decide (b < a)
  | pinf, fin _ => true
  | pinf, ninf => true
  | fin _, ninf => true
  | _, _ => false

/-- C comparison `a == b`; NaN is equal to nothing. -/
def eq : Dbl → Dbl → Bool
  | nan, _ => false
  | _, nan => false
  | a, b => decide (a = b)

/-- C comparison `a >= b`. -/
def ge (a b : Dbl) : Bool := gt a b || eq a b

/-- C addition `a + b`. -/
def add : Dbl → Dbl → Dbl
  | fin a, fin b => fin (a + b)
  | fin _, pinf => pinf
  | pinf, fin _ => pinf
  | pinf, pinf => pinf
  | fin _, ninf => ninf
  | ninf, fin _ => ninf
  | ninf, ninf => ninf
  | _, _ => nan

/-- C division `a / b`. `Dbl` has one zero: where C divides by `+0.0` or `-0.0` the result
is NaN or an infinity here as in C, but the sign of the infinity is that of `a` alone. -/
def div : Dbl → Dbl → Dbl
  | fin a, fin b =>
    if b = 0 then (if a = 0 then nan else if 0 < a then pinf else ninf) else fin (a / b)
  | fin _, pinf => fin 0
  | fin _, ninf => fin 0
  | pinf, fin b => if b < 0 then ninf else pinf
  | ninf, fin b => if b < 0 then pinf else ninf
  | _, _ => nan

/-- Conversion `int → double` of an assignment such as `outputFeatures[0] = maxMICounter`. -/
def ofInt (i : Int) : Dbl := fin i

/-- The cast `(int) d`: truncation towards zero (the cast of a NaN or an infinity is
undefined in C; the embedding returns 0 there). -/
def toInt : Dbl → Int
  | fin q => Int.tdiv q.num q.den
  | _ => 0

end Dbl

/-! ## Inputs and collaborators -/

/-- The MIToolbox routines called by the two selectors. -/
structure Oracle where
  /-- `discAndCalcWeightedMutualInformation(firstVector, secondVector, weightVector, vectorLength)` -/
  discAndCalcWeightedMutualInformation : List Dbl → List Dbl → List Dbl → Int → Dbl
  /-- `discAndCalcWeightedConditionalMutualInformation(firstVector, targetVector, conditionVector,
  weightVector, vectorLength)` -/
  discAndCalcWeightedConditionalMutualInformation :
    List Dbl → List Dbl → List Dbl → List Dbl → Int → Dbl
  /-- `normaliseArray(inputVector, outputVector, vectorLength)`, returning `outputVector`. -/
  normaliseArray : List Dbl → Int → List Int
  /-- `discAndMergeArrays(firstVector, secondVector, outputVector, vectorLength)`, returning
  `outputVector`. -/
  discAndMergeArrays : List Dbl → List Dbl → Int → List Int
  /-- `calcWeightedMutualInformation(firstVector, secondVector, weightVector, vectorLength)` -/
  calcWeightedMutualInformation : List Int → List Int → List Dbl → Int → Dbl
  /-- `calcWeightedJointEntropy(firstVector, secondVector, weightVector, vectorLength)` -/
  calcWeightedJointEntropy : List Int → List Int → List Dbl → Int → Dbl

/-- The arguments of `WeightedCMIM` and `WeightedDISR` other than the output buffer. -/
structure Args where
  k : Int
  noOfSamples : Int
  noOfFeatures : Int
  featureMatrix : List Dbl
  classColumn : List Dbl
  weightVector : List Dbl

/-- The column `feature2D[j] = featureMatrix + j*noOfSamples`, read over `noOfSamples` cells. -/
def feature2D (a : Args) (j : Int) : List Dbl :=
  if 0 ≤ j then (a.featureMatrix.drop (j.toNat * a.noOfSamples.toNat)).take a.noOfSamples.toNat
  else []

/-- Ghost events recorded by the embedding. -/
inductive Event
  /-- Round 0 evaluated `discAndCalcWeightedMutualInformation` for feature `j`. -/
  | mutualInformation (j : Nat)
  /-- CMIM round `i` read `outputFeatures[m]`, found `currentFeature` there and evaluated the
  conditional mutual information of feature `j` given that feature. -/
  | conditionalMI (i j m : Nat) (currentFeature : Int)
  /-- CMIM line 113 replaced `classMI[j] = old` by `new`. -/
  | classMIWrite (j : Nat) (old new : Dbl)
  /-- DISR round `i` ran merge + mutual information + joint entropy for the cache cell
  `(x, j)`, pairing feature `j` with the feature `selected` read from `outputFeatures[x]`. -/
  | relevance (i x j : Nat) (selected : Int)
  /-- DISR line 148 replaced `featureMIMatrix[arrayPosition] = old` by `new`. -/
  | cacheWrite (arrayPosition : Nat) (old new : Dbl)
  deriving DecidableEq

/-- Assignment `arr[i] = v` for an `int` index; nothing is written at a negative index. -/
def setAt {α : Type} (arr : Nat → α) (i : Int) (v : α) : Nat → α :=
  if 0 ≤ i then Function.update arr i.toNat v else arr

/-! ## WeightedCMIM -/

/-- The local variables of `WeightedCMIM`, the output buffer and the ghost trace. -/
structure CMIMState where
  classMI : Nat → Dbl
  lastUsedFeature : Nat → Nat
  outputFeatures : Nat → Dbl
  score : Dbl
  maxMI : Dbl
  maxMICounter : Int
  trace : List Event

namespace CMIM

/-- The value `discAndCalcWeightedMutualInformation(feature2D[j], classColumn, ...)`. -/
def mi (O : Oracle) (a : Args) (j : Nat) : Dbl :=
  O.discAndCalcWeightedMutualInformation (feature2D a j) a.classColumn a.weightVector
    a.noOfSamples

/-- The value `discAndCalcWeightedConditionalMutualInformation(feature2D[j], classColumn,
feature2D[currentFeature], ...)`. -/
def cmi (O : Oracle) (a : Args) (j : Nat) (currentFeature : Int) : Dbl :=
  O.discAndCalcWeightedConditionalMutualInformation (feature2D a j) a.classColumn
    (feature2D a currentFeature) a.weightVector a.noOfSamples

/-- State after the declarations (lines 62-74): `calloc`ed arrays, `maxMI = 0.0`,
`maxMICounter = -1`. -/
def init (outputFeatures : Nat → Dbl) : CMIMState :=
  { classMI := fun _ => Dbl.fin 0
    lastUsedFeature := fun _ => 0
    outputFeatures := outputFeatures
    score := Dbl.fin 0
    maxMI := Dbl.fin 0
    maxMICounter := -1
    trace := [] }

/-- One iteration of the loop of lines 81-90. -/
def fillStep (O : Oracle) (a : Args) (s : CMIMState) (i : Nat) : CMIMState :=
  let s1 : CMIMState :=
    { s with classMI := Function.update s.classMI i (mi O a i)
             trace := Event.mutualInformation i :: s.trace }
  if Dbl.gt (s1.classMI i) s1.maxMI then
    { s1 with maxMI := s1.classMI i, maxMICounter := i }
  else s1

/-- The body of the `while` loop of lines 106-117, for round `i` and feature `j`. -/
def whileBody (O : Oracle) (a : Args) (i j : Nat) (s : CMIMState) : CMIMState :=
  let currentFeature := Dbl.toInt (s.outputFeatures (s.lastUsedFeature j))
  let conditionalInfo := cmi O a j currentFeature
  let s1 : CMIMState :=
    { s with trace := Event.conditionalMI i j (s.lastUsedFeature j) currentFeature :: s.trace }
  let s2 : CMIMState :=
    if Dbl.gt (s1.classMI j) conditionalInfo then
      { s1 with classMI := Function.update s1.classMI j conditionalInfo
                trace := Event.classMIWrite j (s1.classMI j) conditionalInfo :: s1.trace }
    else s1
  { s2 with lastUsedFeature := Function.update s2.lastUsedFeature j (s2.lastUsedFeature j + 1) }

/-- The loop condition of line 106. -/
def whileCond (i j : Nat) (s : CMIMState) : Bool :=
  Dbl.gt (s.classMI j) s.score && decide (s.lastUsedFeature j < i)

/-- The `while` loop of lines 106-117, with a bound on the number of iterations. -/
def whileLoop (O : Oracle) (a : Args) (i j : Nat) : Nat → CMIMState → CMIMState
  | 0, s => s
  | fuel + 1, s =>
    if whileCond i j s then whileLoop O a i j fuel (whileBody O a i j s) else s

/-- The body of the `for j` loop of lines 104-123. Each iteration of the `while` loop
increments `lastUsedFeature[j]`, which stays below `i`, so `i` iterations are enough. -/
def featureStep (O : Oracle) (a : Args) (i : Nat) (s : CMIMState) (j : Nat) : CMIMState :=
  let s1 := whileLoop O a i j i s
  if Dbl.gt (s1.classMI j) s1.score then
    { s1 with score := s1.classMI j
              outputFeatures := Function.update s1.outputFeatures i (Dbl.ofInt j) }
  else s1

/-- The body of the `for i` loop of lines 100-124: round `i`. -/
def round (O : Oracle) (a : Args) (s : CMIMState) (i : Nat) : CMIMState :=
  (List.range a.noOfFeatures.toNat).foldl (featureStep O a i) { s with score := Dbl.fin 0 }

/-- State after line 92: `classMI` filled and `outputFeatures[0]` written. -/
def round0 (O : Oracle) (a : Args) (outputFeatures : Nat → Dbl) : CMIMState :=
  let s := (List.range a.noOfFeatures.toNat).foldl (fillStep O a) (init outputFeatures)
  { s with outputFeatures := Function.update s.outputFeatures 0 (Dbl.ofInt s.maxMICounter) }

/-- State after the rounds `1, ..., n`. -/
def rounds (O : Oracle) (a : Args) (outputFeatures : Nat → Dbl) (n : Nat) : CMIMState :=
  (List.range' 1 n).foldl (round O a) (round0 O a outputFeatures)

end CMIM

/-- The function `WeightedCMIM`; the returned buffer is the field `outputFeatures` of the
final state. -/
def WeightedCMIM (O : Oracle) (a : Args) (outputFeatures : Nat → Dbl) : CMIMState :=
  CMIM.rounds O a outputFeatures (a.k.toNat - 1)

/-! ## WeightedDISR -/

/-- The local variables of `WeightedDISR`, the output buffer and the ghost trace. -/
structure DISRState where
  classMI : Nat → Dbl
  selectedFeatures : Nat → Bool
  featureMIMatrix : Nat → Dbl
  outputFeatures : Nat → Dbl
  maxMI : Dbl
  maxMICounter : Int
  score : Dbl
  currentScore : Dbl
  currentHighestFeature : Nat
  trace : List Event

namespace DISR

/-- The value `discAndCalcWeightedMutualInformation(feature2D[j], classColumn, ...)`. -/
def mi (O : Oracle) (a : Args) (j : Nat) : Dbl :=
  O.discAndCalcWeightedMutualInformation (feature2D a j) a.classColumn a.weightVector
    a.noOfSamples

/-- The array `labelColumn` after `normaliseArray(classColumn, labelColumn, noOfSamples)`. -/
def labelColumn (O : Oracle) (a : Args) : List Int :=
  O.normaliseArray a.classColumn a.noOfSamples

/-- The array `mergedVector` after `discAndMergeArrays(feature2D[selected], feature2D[j], ...)`. -/
def mergedVector (O : Oracle) (a : Args) (selected : Int) (j : Nat) : List Int :=
  O.discAndMergeArrays (feature2D a selected) (feature2D a j) a.noOfSamples

/-- The quotient `mi / tripEntropy` of lines 144-148 for the pair `(selected, j)`. -/
def relevance (O : Oracle) (a : Args) (selected : Int) (j : Nat) : Dbl :=
  let mi := O.calcWeightedMutualInformation (mergedVector O a selected j) (labelColumn O a)
    a.weightVector a.noOfSamples
  let tripEntropy := O.calcWeightedJointEntropy (mergedVector O a selected j) (labelColumn O a)
    a.weightVector a.noOfSamples
  Dbl.div mi tripEntropy

/-- State after lines 60-95: `calloc`ed arrays, `maxMI = -1.0`, `maxMICounter = -1`, and the
first `sizeOfMatrix = k*noOfFeatures` cells of `featureMIMatrix` blanked to `-1`. -/
def init (a : Args) (outputFeatures : Nat → Dbl) : DISRState :=
  { classMI := fun _ => Dbl.fin 0
    selectedFeatures := fun _ => false
    featureMIMatrix := fun p =>
      if (p : Int) < a.k * a.noOfFeatures then Dbl.fin (-1) else Dbl.fin 0
    outputFeatures := outputFeatures
    maxMI := Dbl.fin (-1)
    maxMICounter := -1
    score := Dbl.fin 0
    currentScore := Dbl.fin 0
    currentHighestFeature := 0
    trace := [] }

/-- One iteration of the loop of lines 98-110. -/
def fillStep (O : Oracle) (a : Args) (s : DISRState) (i : Nat) : DISRState :=
  let s1 : DISRState :=
    { s with classMI := Function.update s.classMI i (mi O a i)
             trace := Event.mutualInformation i :: s.trace }
  if Dbl.gt (s1.classMI i) s1.maxMI then
    { s1 with maxMI := s1.classMI i, maxMICounter := i }
  else s1

/-- The body of the `for x` loop of lines 134-151, for round `i` and feature `j`. -/
def cellStep (O : Oracle) (a : Args) (i j : Nat) (s : DISRState) (x : Nat) : DISRState :=
  let arrayPosition := x * a.noOfFeatures.toNat + j
  let s1 : DISRState :=
    if Dbl.eq (s.featureMIMatrix arrayPosition) (Dbl.fin (-1)) then
      let selected := Dbl.toInt (s.outputFeatures x)
      { s with featureMIMatrix :=
                 Function.update s.featureMIMatrix arrayPosition (relevance O a selected j)
               trace := Event.cacheWrite arrayPosition (s.featureMIMatrix arrayPosition)
                          (relevance O a selected j)
                        :: Event.relevance i x j selected :: s.trace }
    else s
  { s1 with currentScore := Dbl.add s1.currentScore (s1.featureMIMatrix arrayPosition) }

/-- The body of the `for j` loop of lines 127-159. -/
def featureStep (O : Oracle) (a : Args) (i : Nat) (s : DISRState) (j : Nat) : DISRState :=
  if s.selectedFeatures j = false then
    let s1 := (List.range i).foldl (cellStep O a i j) { s with currentScore := Dbl.fin 0 }
    if Dbl.gt s1.currentScore s1.score then
      { s1 with score := s1.currentScore, currentHighestFeature := j }
    else s1
  else s

/-- Lines 123-159 of round `i`: the three resets and the `for j` loop. -/
def scan (O : Oracle) (a : Args) (s : DISRState) (i : Nat) : DISRState :=
  (List.range a.noOfFeatures.toNat).foldl (featureStep O a i)
    { s with score := Dbl.fin 0, currentHighestFeature := 0, currentScore := Dbl.fin 0 }

/-- The body of the `for i` loop of lines 121-164: round `i`. -/
def round (O : Oracle) (a : Args) (s : DISRState) (i : Nat) : DISRState :=
  let s1 := scan O a s i
  { s1 with selectedFeatures := Function.update s1.selectedFeatures s1.currentHighestFeature true
            outputFeatures :=
              Function.update s1.outputFeatures i (Dbl.ofInt s1.currentHighestFeature) }

/-- State after line 113: `classMI` filled, the first feature marked and written. -/
def round0 (O : Oracle) (a : Args) (outputFeatures : Nat → Dbl) : DISRState :=
  let s := (List.range a.noOfFeatures.toNat).foldl (fillStep O a) (init a outputFeatures)
  { s with selectedFeatures := setAt s.selectedFeatures s.maxMICounter true
           outputFeatures := Function.update s.outputFeatures 0 (Dbl.ofInt s.maxMICounter) }

/-- State after the rounds `1, ..., n`. -/
def rounds (O : Oracle) (a : Args) (outputFeatures : Nat → Dbl) (n : Nat) : DISRState :=
  (List.range' 1 n).foldl (round O a) (round0 O a outputFeatures)

end DISR

/-- The function `WeightedDISR`; the returned buffer is the field `outputFeatures` of the
final state. -/
def WeightedDISR (O : Oracle) (a : Args) (outputFeatures : Nat → Dbl) : DISRState :=
  DISR.rounds O a outputFeatures (a.k.toNat - 1)

/-! ## Specification-side definitions -/

/-- The exact maximisation that a scan with a strict `>` performs over the candidates
`0, ..., n-1`: with no winner every candidate fails to exceed `base` and `score = base`; the
winner `w` is a candidate whose value exceeds `base`, that no candidate exceeds, and that no
candidate of lower index equals. -/
def ScanSpec (cand : Nat → Prop) (e : Nat → Dbl) (base : Dbl) (n : Nat) (score : Dbl) :
    Option Nat → Prop
  | none => score = base ∧ ∀ j, j < n → cand j → Dbl.gt (e j) base = false
  | some w =>
    w < n ∧ cand w ∧ score = e w ∧ Dbl.gt (e w) base = true ∧
      (∀ j, j < n → cand j → Dbl.gt (e j) (e w) = false) ∧
      (∀ j, j < w → cand j → e j ≠ e w)

/-- Encoding of a scan's winner in an `int` variable initialised to `-1`. -/
def winnerCode : Option Nat → Int
  | none => -1
  | some w => (w : Int)

/-- The contract of §3 on the output sequence: `outputFeatures[0..k)` holds feature indices
in `[0, noOfFeatures)` that are pairwise distinct. -/
def ValidSelection (noOfFeatures k : Int) (outputFeatures : Nat → Dbl) : Prop :=
  (∀ i : Nat, (i : Int) < k →
      ∃ j : Nat, (j : Int) < noOfFeatures ∧ outputFeatures i = Dbl.ofInt j) ∧
    (∀ x y : Nat, x < y → (y : Int) < k → outputFeatures x ≠ outputFeatures y)

/-- The smaller of two values as lines 111-114 compute it: `c` when `acc > c`, else `acc`. -/
def Dbl.min (acc c : Dbl) : Dbl := if Dbl.gt acc c then c else acc

namespace CMIM

/-- The mutual information of feature `j` with the class, tightened by the conditional
mutual information given each of the features found in `out[0], ..., out[m-1]`. -/
def partialScore (O : Oracle) (a : Args) (out : Nat → Dbl) (j m : Nat) : Dbl :=
  (List.range m).foldl (fun acc x => Dbl.min acc (cmi O a j (Dbl.toInt (out x)))) (mi O a j)

/-- The exact CMIM score of round `i`:
`s_i(j) = min(MI(feature_j, class), min over m < i of CMI(feature_j, class | feature_out[m]))`. -/
def exactScore (O : Oracle) (a : Args) (out : Nat → Dbl) (i j : Nat) : Dbl :=
  partialScore O a out j i

/-- Round `i` of the naive selector: every `s_i(j)` is recomputed from scratch and the
features are scanned with a strict `>` from the score 0. Returns the best score and the
winner, if any. -/
def naiveRound (O : Oracle) (a : Args) (out : Nat → Dbl) (i : Nat) : Dbl × Option Nat :=
  (List.range a.noOfFeatures.toNat).foldl
    (fun p j => if Dbl.gt (exactScore O a out i j) p.1 then (exactScore O a out i j, some j) else p)
    (Dbl.fin 0, none)

/-- The values taken by `classMI[j]` from its initialisation in round 0 on, most recent
first, as recorded by the trace. -/
def classMIHistory (O : Oracle) (a : Args) (j : Nat) : List Event → List Dbl
  | [] => [mi O a j]
  | Event.classMIWrite j' _ new :: t =>
    if j' = j then new :: classMIHistory O a j t else classMIHistory O a j t
  | _ :: t => classMIHistory O a j t

/-- Invariant of the rounds of `WeightedCMIM`, at any point of round `i`: no counter
exceeds `i`, and `classMI[j]` is the mutual information of feature `j` tightened by the
first `lastUsedFeature[j]` selected features. -/
def Inv (O : Oracle) (a : Args) (i : Nat) (s : CMIMState) : Prop :=
  (∀ j, s.lastUsedFeature j ≤ i) ∧
    ∀ j, j < a.noOfFeatures.toNat →
      s.classMI j = partialScore O a s.outputFeatures j (s.lastUsedFeature j)

end CMIM

namespace CMIM

/-- Invariant of the trace of `WeightedCMIM` once round 0 is over: for each feature the
recorded history starts at the current `classMI[j]` and decreases strictly with time, and
every recorded write replaced a value by a smaller one. -/
def TraceInv (O : Oracle) (a : Args) (s : CMIMState) : Prop :=
  (∀ j, j < a.noOfFeatures.toNat →
      (classMIHistory O a j s.trace).head? = some (s.classMI j) ∧
      List.Chain' (fun newer older => Dbl.gt older newer = true) (classMIHistory O a j s.trace)) ∧
    ∀ j old new, Event.classMIWrite j old new ∈ s.trace → Dbl.gt old new = true

end CMIM

namespace DISR

/-- The summed relevance of feature `j` in round `i`, every term computed from scratch:
`S_i(j) = sum over x < i of MI(merge(feature_out[x], feature_j), label) /
JointEntropy(merge(feature_out[x], feature_j), label)`. -/
def summedRelevance (O : Oracle) (a : Args) (out : Nat → Dbl) (i j : Nat) : Dbl :=
  (List.range i).foldl (fun acc x => Dbl.add acc (relevance O a (Dbl.toInt (out x)) j))
    (Dbl.fin 0)

/-- Feature `j` is not among `out[0], ..., out[i-1]`. -/
def notYetSelected (out : Nat → Dbl) (i j : Nat) : Prop :=
  ∀ x, x < i → out x ≠ Dbl.ofInt j

instance (out : Nat → Dbl) (i j : Nat) : Decidable (notYetSelected out i j) := by
  unfold notYetSelected
  infer_instance

/-- Round `i` of the uncached selector: `S_i(j)` is recomputed from scratch for every
feature that is not yet selected, and these features are scanned with a strict `>` from the
score 0 and the default winner 0. Returns the best score and the winner. -/
def uncachedRound (O : Oracle) (a : Args) (out : Nat → Dbl) (i : Nat) : Dbl × Nat :=
  (List.range a.noOfFeatures.toNat).foldl
    (fun p j =>
      if notYetSelected out i j then
        (if Dbl.gt (summedRelevance O a out i j) p.1 then (summedRelevance O a out i j, j) else p)
      else p)
    (Dbl.fin 0, 0)

/-- Invariant of the relevance cache when the slots `out[0..i)` are written: a cell `(x, j)`
of the `k` rows is blank, or its row is below `i` and it holds the relevance of its pair. -/
def CacheInv (O : Oracle) (a : Args) (out : Nat → Dbl) (i : Nat) (cache : Nat → Dbl) : Prop :=
  ∀ x j : Nat, j < a.noOfFeatures.toNat → (x : Int) < a.k →
    cache (x * a.noOfFeatures.toNat + j) = Dbl.fin (-1) ∨
    (x < i ∧ cache (x * a.noOfFeatures.toNat + j) = relevance O a (Dbl.toInt (out x)) j)

/-- Invariant of `WeightedDISR` between the rounds, when the slots `out[0..i)` are written:
the mask marks the features found in these slots, and the cache is consistent. -/
def Inv (O : Oracle) (a : Args) (i : Nat) (s : DISRState) : Prop :=
  (∀ j, s.selectedFeatures j = true ↔ ∃ x, x < i ∧ s.outputFeatures x = Dbl.ofInt j) ∧
    CacheInv O a s.outputFeatures i s.featureMIMatrix

end DISR

/-- The state `s` with the output buffer `o` in place of its own. -/
def DISR.withOut (s : DISRState) (o : Nat → Dbl) : DISRState :=
  { s with outputFeatures := o }

/-- Two states that differ in their output buffers only, and there only from the slot `n` on. -/
def DISR.Sim (n : Nat) (s t : DISRState) : Prop :=
  ∃ o, t = DISR.withOut s o ∧ ∀ x, x < n → s.outputFeatures x = o x

namespace DISR

/-- The cache cells `(x, j)` for which the trace records a run of merge + mutual
information + joint entropy, most recent first. -/
def evaluatedCells : List Event → List (Nat × Nat)
  | [] => []
  | Event.relevance _ x j _ :: t => (x, j) :: evaluatedCells t
  | _ :: t => evaluatedCells t

/-- Invariant of the trace of `WeightedDISR` up to round `n`: the evaluated cells lie in the
rows below `n`, hold a value other than the blank `-1`, were evaluated once, and every
write to the cache replaced a blank by a value other than the blank. -/
def TraceInv (a : Args) (n : Nat) (s : DISRState) : Prop :=
  (∀ x j, (x, j) ∈ evaluatedCells s.trace →
      x < n ∧ j < a.noOfFeatures.toNat ∧
      Dbl.eq (s.featureMIMatrix (x * a.noOfFeatures.toNat + j)) (Dbl.fin (-1)) = false) ∧
    (evaluatedCells s.trace).Nodup ∧
    ∀ p old new, Event.cacheWrite p old new ∈ s.trace →
      old = Dbl.fin (-1) ∧ Dbl.eq new (Dbl.fin (-1)) = false

end DISR

/-- The features for which the trace records an evaluation of the mutual information with
the class, most recent first. -/
def miEvaluations : List Event → List Nat
  | [] => []
  | Event.mutualInformation j :: t => j :: miEvaluations t
  | _ :: t => miEvaluations t

/-- The pairs (feature `j`, slot `m`) for which the trace records an evaluation of the
conditional mutual information of feature `j` given the feature read from
`outputFeatures[m]`, most recent first. -/
def CMIM.cmiPairs : List Event → List (Nat × Nat)
  | [] => []
  | Event.conditionalMI _ j m _ :: t => (j, m) :: CMIM.cmiPairs t
  | _ :: t => CMIM.cmiPairs t

namespace CMIM

/-- The state of `WeightedCMIM` in round `i ≥ 1`, at line 106 for the feature `m`, when the
`while` loop of that feature has run `f` times or, if it takes fewer iterations, has been
left: the rounds `1, ..., i-1` are over, `score` is reset and the features below `m` are
done. With `m` ranging over the features and `f` over the natural numbers these are all the
states that the call takes at line 106 in round `i`. -/
def point (O : Oracle) (a : Args) (out : Nat → Dbl) (i m f : Nat) : CMIMState :=
  whileLoop O a i m f
    ((List.range m).foldl (featureStep O a i) { rounds O a out (i - 1) with score := Dbl.fin 0 })

/-- Round `m` stored a feature index in `outputFeatures[m]`: round 0 found a feature with a
mutual information above 0, so that line 92 stores an index rather than `-1`; a later round
ended with `score > 0`, so that its test of line 118 passed and line 121 was executed. -/
def slotWritten (O : Oracle) (a : Args) (out : Nat → Dbl) (m : Nat) : Prop :=
  (m = 0 ∧ ∃ j, j < a.noOfFeatures.toNat ∧ Dbl.gt (mi O a j) (Dbl.fin 0) = true) ∨
    (1 ≤ m ∧ Dbl.gt (rounds O a out m).score (Dbl.fin 0) = true)

end CMIM

/-- Invariant of the trace of `WeightedCMIM`: the evaluations of the conditional mutual
information recorded for feature `j` are those of the slots below `lastUsedFeature[j]`, one
for each slot. -/
def CMIM.PairInv (a : Args) (s : CMIMState) : Prop :=
  (∀ j m, (j, m) ∈ CMIM.cmiPairs s.trace →
      j < a.noOfFeatures.toNat ∧ m < s.lastUsedFeature j) ∧
    (CMIM.cmiPairs s.trace).Nodup ∧
    ∀ j, (CMIM.cmiPairs s.trace).countP (fun p => decide (p.1 = j)) = s.lastUsedFeature j

namespace CMIM

/-- The slot `x` of the output buffer holds a feature index. -/
def Good (a : Args) (s : CMIMState) (x : Nat) : Prop :=
  ∃ c : Nat, c < a.noOfFeatures.toNat ∧ s.outputFeatures x = Dbl.ofInt c

/-- Some feature still has a bound `classMI[j]` above 0. -/
def Alive (a : Args) (s : CMIMState) : Prop :=
  ∃ j, j < a.noOfFeatures.toNat ∧ Dbl.gt (s.classMI j) (Dbl.fin 0) = true

/-- Invariant for the reads of the output buffer, in or after round `r`, when the slots
below `i` are settled: every recorded evaluation of the conditional mutual information was
made in a round `i' ≤ r`, read a slot `m < i'` and found there a feature index `c`, which the
slot still holds and which round `m` stored (`W m`); and as long as some bound is above 0,
every settled slot holds a feature index stored by its round. -/
def SafeInv (a : Args) (W : Nat → Prop) (r i : Nat) (s : CMIMState) : Prop :=
  (∀ (i' j m : Nat) (c : Int), Event.conditionalMI i' j m c ∈ s.trace →
      m < i' ∧ i' ≤ r ∧ 0 ≤ c ∧ c < a.noOfFeatures ∧ s.outputFeatures m = Dbl.ofInt c ∧ W m) ∧
    (Alive a s → ∀ x, x < i → Good a s x ∧ W x)

end CMIM

/-! ## Concrete inputs -/

/-- An oracle whose statistics do not depend on the data: mutual information `m`,
conditional mutual information `c`, mutual information of a merged pair `r`, joint
entropy `h`. With `m = c = r = 0` these are the true statistics of any data set whose class
column is constant. -/
def constantOracle (m c r h : Dbl) : Oracle :=
  { discAndCalcWeightedMutualInformation := fun _ _ _ _ => m
    discAndCalcWeightedConditionalMutualInformation := fun _ _ _ _ _ => c
    normaliseArray := fun _ _ => []
    discAndMergeArrays := fun _ _ _ => []
    calcWeightedMutualInformation := fun _ _ _ _ => r
    calcWeightedJointEntropy := fun _ _ _ _ => h }

/-- One feature, two samples, constant class, `k = 1`. -/
def oneFeature : Args :=
  { k := 1, noOfSamples := 2, noOfFeatures := 1
    featureMatrix := [Dbl.fin 0, Dbl.fin 1]
    classColumn := [Dbl.fin 0, Dbl.fin 0]
    weightVector := [Dbl.fin 1, Dbl.fin 1] }

/-- Two features, two samples, constant class, `k` features to select. -/
def twoFeatures (k : Int) : Args :=
  { k := k, noOfSamples := 2, noOfFeatures := 2
    featureMatrix := [Dbl.fin 0, Dbl.fin 1, Dbl.fin 1, Dbl.fin 0]
    classColumn := [Dbl.fin 0, Dbl.fin 0]
    weightVector := [Dbl.fin 1, Dbl.fin 1] }

/-- Three features, two samples, `k` features to select. -/
def threeFeatures (k : Int) : Args :=
  { k := k, noOfSamples := 2, noOfFeatures := 3
    featureMatrix := [Dbl.fin 2, Dbl.fin 1, Dbl.fin 3, Dbl.fin 2, Dbl.fin 1, Dbl.fin 1]
    classColumn := [Dbl.fin 0, Dbl.fin 1]
    weightVector := [Dbl.fin 1, Dbl.fin 1] }

/-- An oracle that reads its statistics off the cells of the columns: the mutual
information of a column with the class is its first cell, its conditional mutual information
given another column is its second cell (0 given itself), the mutual information of a merged
pair is the first cell of its second column, and the joint entropy is 2. -/
def cellOracle : Oracle :=
  { discAndCalcWeightedMutualInformation := fun v _ _ _ => v.headD (Dbl.fin 0)
    discAndCalcWeightedConditionalMutualInformation := fun v _ c _ _ =>
      if v = c then Dbl.fin 0 else v.getD 1 (Dbl.fin 0)
    normaliseArray := fun _ _ => []
    discAndMergeArrays := fun v1 v2 _ =>
      [Dbl.toInt (v1.headD (Dbl.fin 0)), Dbl.toInt (v2.headD (Dbl.fin 0))]
    calcWeightedMutualInformation := fun m _ _ _ => Dbl.ofInt (m.getD 1 0)
    calcWeightedJointEntropy := fun _ _ _ _ => Dbl.fin 2 }

/-- Two constant features, two samples, constant class, `k` features to select: every
statistic of this data set is 0, the joint entropies included. -/
def constantFeatures (k : Int) : Args :=
  { k := k, noOfSamples := 2, noOfFeatures := 2
    featureMatrix := [Dbl.fin 0, Dbl.fin 0, Dbl.fin 0, Dbl.fin 0]
    classColumn := [Dbl.fin 0, Dbl.fin 0]
    weightVector := [Dbl.fin 1, Dbl.fin 1] }

/-- An oracle that tells the features apart by the first cell of their column: the mutual
information with the class is that cell, the other statistics are constant. -/
def firstCellOracle : Oracle :=
  { discAndCalcWeightedMutualInformation := fun v _ _ _ => v.headD (Dbl.fin 0)
    discAndCalcWeightedConditionalMutualInformation := fun _ _ _ _ _ => Dbl.fin 0
    normaliseArray := fun _ _ => []
    discAndMergeArrays := fun _ _ _ => []
    calcWeightedMutualInformation := fun _ _ _ _ => Dbl.fin 1
    calcWeightedJointEntropy := fun _ _ _ _ => Dbl.fin 2 }

/-! ## Lemmas on doubles -/

namespace Dbl

theorem gt_irrefl (a : Dbl) : gt a a = false := by
  cases a <;> simp [gt]

theorem gt_trans {a b c : Dbl} (h1 : gt a b = true) (h2 : gt b c = true) : gt a c = true := by
  cases a <;> cases b <;> cases c <;> simp_all [gt]
  exact lt_trans h2 h1

theorem gt_asymm {a b : Dbl} (h : gt a b = true) : gt b a = false := by
  cases a <;> cases b <;> simp_all [gt]
  exact le_of_lt h

theorem ne_of_gt {a b : Dbl} (h : gt a b = true) : a ≠ b := by
  intro e
  rw [e, gt_irrefl] at h
  exact Bool.false_ne_true h

theorem ne_nan_of_ge {a c : Dbl} (h : ge a c = true) : a ≠ nan := by
  intro e
  subst e
  cases c <;> simp [ge, gt, eq] at h

theorem ne_nan_of_gt {a c : Dbl} (h : gt a c = true) : a ≠ nan := by
  intro e
  subst e
  cases c <;> simp [gt] at h

/-- Two values other than NaN compare. -/
theorem trichotomy {a b : Dbl} (ha : a ≠ nan) (hb : b ≠ nan) :
    gt a b = true ∨ a = b ∨ gt b a = true := by
  cases a <;> cases b <;> simp_all [gt]
  rename_i x y
  rcases lt_trichotomy x y with h | h | h
  · right; right; exact h
  · right; left; exact h
  · left; exact h

theorem ge_of_not_gt {a b : Dbl} (ha : a ≠ nan) (hb : b ≠ nan)
    (h : gt b a = false) : ge a b = true := by
  rcases trichotomy ha hb with h1 | h1 | h1
  · simp [ge, h1]
  · subst h1
    cases a <;> simp_all [ge, gt, eq]
  · rw [h] at h1
    exact absurd h1 Bool.false_ne_true

theorem toInt_ofInt (i : Int) : toInt (ofInt i) = i := by
  simp [toInt, ofInt]

theorem ofInt_injective {i j : Int} (h : ofInt i = ofInt j) : i = j := by
  have := congrArg toInt h
  simpa [toInt_ofInt] using this

/-- The quotient of two non-negative values is never the sentinel `-1`. -/
theorem div_ne_sentinel {a b : Dbl} (ha : ge a (fin 0) = true) (hb : ge b (fin 0) = true) :
    eq (div a b) (fin (-1)) = false := by
  cases a <;> cases b <;> simp_all [ge, gt, eq, div]
  · rename_i x y
    split_ifs <;> simp
    intro h
    have : 0 ≤ x / y := div_nonneg (by rcases ha with h | h; exact le_of_lt h; exact h ▸ le_refl _)
      (by rcases hb with h | h; exact le_of_lt h; exact h ▸ le_refl _)
    rw [h] at this
    norm_num at this
  · split_ifs <;> simp

end Dbl

/-! ## Loops -/

theorem foldl_range'_induction {σ : Type} (f : σ → Nat → σ) (P : Nat → σ → Prop) :
    ∀ (n b : Nat) (s : σ), P b s →
      (∀ i t, b ≤ i → i < b + n → P i t → P (i + 1) (f t i)) →
      P (b + n) ((List.range' b n).foldl f s)
  | 0, b, s, h0, _ => by simpa using h0
  | n + 1, b, s, h0, hs => by
    rw [List.range'_succ, List.foldl_cons]
    have h1 : P (b + 1) (f s b) := hs b s (Nat.le_refl b) (by omega) h0
    have h2 := foldl_range'_induction f P n (b + 1) (f s b) h1
      (fun i t hi hlt hp => hs i t (by omega) (by omega) hp)
    have e : b + (n + 1) = b + 1 + n := by omega
    rw [e]
    exact h2

theorem foldl_range_induction {σ : Type} (f : σ → Nat → σ) (P : Nat → σ → Prop)
    (n : Nat) (s : σ) (h0 : P 0 s)
    (hs : ∀ i t, i < n → P i t → P (i + 1) (f t i)) :
    P n ((List.range n).foldl f s) := by
  have h := foldl_range'_induction f P n 0 s h0 (fun i t _ hlt hp => hs i t (by omega) hp)
  rw [List.range_eq_range']
  simpa using h

/-! ## Scans with a strict comparison -/

theorem ScanSpec.init (cand : Nat → Prop) (e : Nat → Dbl) (base : Dbl) :
    ScanSpec cand e base 0 base none :=
  ⟨rfl, fun _ h _ => absurd h (Nat.not_lt_zero _)⟩

/-- The running score of a scan is `base` or exceeds it. -/
theorem ScanSpec.score_gt {cand : Nat → Prop} {e : Nat → Dbl} {base score v : Dbl} {n : Nat}
    {w : Option Nat} (h : ScanSpec cand e base n score w) (hv : Dbl.gt v score = true) :
    Dbl.gt v base = true := by
  cases w with
  | none => rw [← h.1]; exact hv
  | some w =>
    obtain ⟨_, _, hs, hb, _, _⟩ := h
    rw [hs] at hv
    exact Dbl.gt_trans hv hb

theorem ScanSpec.skip {cand : Nat → Prop} {e : Nat → Dbl} {base score : Dbl} {n : Nat}
    {w : Option Nat} (h : ScanSpec cand e base n score w) (hc : ¬ cand n) :
    ScanSpec cand e base (n + 1) score w := by
  cases w with
  | none =>
    refine ⟨h.1, fun j hj hcj => ?_⟩
    rcases Nat.lt_succ_iff_lt_or_eq.mp hj with h1 | h1
    · exact h.2 j h1 hcj
    · subst h1; exact absurd hcj hc
  | some w =>
    obtain ⟨hw, hcw, hs, hb, hmax, hlow⟩ := h
    refine ⟨Nat.lt_succ_of_lt hw, hcw, hs, hb, fun j hj hcj => ?_, hlow⟩
    rcases Nat.lt_succ_iff_lt_or_eq.mp hj with h1 | h1
    · exact hmax j h1 hcj
    · subst h1; exact absurd hcj hc

theorem ScanSpec.keep {cand : Nat → Prop} {e : Nat → Dbl} {base score : Dbl} {n : Nat}
    {w : Option Nat} (h : ScanSpec cand e base n score w) (hv : Dbl.gt (e n) score = false) :
    ScanSpec cand e base (n + 1) score w := by
  cases w with
  | none =>
    refine ⟨h.1, fun j hj hcj => ?_⟩
    rcases Nat.lt_succ_iff_lt_or_eq.mp hj with h1 | h1
    · exact h.2 j h1 hcj
    · subst h1; rw [← h.1]; exact hv
  | some w =>
    obtain ⟨hw, hcw, hs, hb, hmax, hlow⟩ := h
    refine ⟨Nat.lt_succ_of_lt hw, hcw, hs, hb, fun j hj hcj => ?_, hlow⟩
    rcases Nat.lt_succ_iff_lt_or_eq.mp hj with h1 | h1
    · exact hmax j h1 hcj
    · subst h1; rw [← hs]; exact hv

theorem ScanSpec.take {cand : Nat → Prop} {e : Nat → Dbl} {base score : Dbl} {n : Nat}
    {w : Option Nat} (h : ScanSpec cand e base n score w) (hc : cand n)
    (hv : Dbl.gt (e n) score = true) :
    ScanSpec cand e base (n + 1) (e n) (some n) := by
  have hprev : ∀ j, j < n → cand j → Dbl.gt (e j) score = false := by
    intro j hj hcj
    cases w with
    | none => rw [h.1]; exact h.2 j hj hcj
    | some w =>
      obtain ⟨_, _, hs, _, hmax, _⟩ := h
      rw [hs]; exact hmax j hj hcj
  refine ⟨Nat.lt_succ_self n, hc, rfl, h.score_gt hv, fun j hj hcj => ?_, fun j hj hcj he => ?_⟩
  · rcases Nat.lt_succ_iff_lt_or_eq.mp hj with h1 | h1
    · cases hg : Dbl.gt (e j) (e n) with
      | false => rfl
      | true =>
        have := Dbl.gt_trans hg hv
        rw [hprev j h1 hcj] at this
        exact absurd this Bool.false_ne_true
    · subst h1; exact Dbl.gt_irrefl _
  · have := hprev j hj hcj
    rw [he, hv] at this
    exact absurd this.symm Bool.false_ne_true

/-- A scan has one outcome only. -/
theorem ScanSpec.unique {cand : Nat → Prop} {e : Nat → Dbl} {base s1 s2 : Dbl} {n : Nat}
    {w1 w2 : Option Nat} (h1 : ScanSpec cand e base n s1 w1)
    (h2 : ScanSpec cand e base n s2 w2) : w1 = w2 ∧ s1 = s2 := by
  cases w1 with
  | none =>
    cases w2 with
    | none => exact ⟨rfl, h1.1.trans h2.1.symm⟩
    | some w =>
      obtain ⟨hw, hcw, _, hb, _, _⟩ := h2
      have := h1.2 w hw hcw
      rw [hb] at this
      exact absurd this.symm Bool.false_ne_true
  | some v =>
    cases w2 with
    | none =>
      obtain ⟨hw, hcw, _, hb, _, _⟩ := h1
      have := h2.2 v hw hcw
      rw [hb] at this
      exact absurd this.symm Bool.false_ne_true
    | some w =>
      obtain ⟨hv, hcv, hsv, hbv, hmaxv, hlowv⟩ := h1
      obtain ⟨hw, hcw, hsw, hbw, hmaxw, hloww⟩ := h2
      have hvw : v = w := by
        rcases Nat.lt_trichotomy v w with h | h | h
        · exfalso
          rcases Dbl.trichotomy (Dbl.ne_nan_of_gt hbv) (Dbl.ne_nan_of_gt hbw) with t | t | t
          · rw [hmaxw v hv hcv] at t; exact Bool.false_ne_true t
          · exact hloww v h hcv t
          · rw [hmaxv w hw hcw] at t; exact Bool.false_ne_true t
        · exact h
        · exfalso
          rcases Dbl.trichotomy (Dbl.ne_nan_of_gt hbv) (Dbl.ne_nan_of_gt hbw) with t | t | t
          · rw [hmaxw v hv hcv] at t; exact Bool.false_ne_true t
          · exact hlowv w h hcw t.symm
          · rw [hmaxv w hw hcw] at t; exact Bool.false_ne_true t
      subst hvw
      exact ⟨rfl, hsv.trans hsw.symm⟩

/-! ## Round 0 -/

theorem CMIM.fillStep_classMI (O : Oracle) (a : Args) (s : CMIMState) (i : Nat) :
    (fillStep O a s i).classMI = Function.update s.classMI i (mi O a i) := by
  unfold fillStep
  simp only
  split_ifs <;> rfl

theorem CMIM.fillStep_lastUsedFeature (O : Oracle) (a : Args) (s : CMIMState) (i : Nat) :
    (fillStep O a s i).lastUsedFeature = s.lastUsedFeature := by
  unfold fillStep
  simp only
  split_ifs <;> rfl

theorem CMIM.fillStep_outputFeatures (O : Oracle) (a : Args) (s : CMIMState) (i : Nat) :
    (fillStep O a s i).outputFeatures = s.outputFeatures := by
  unfold fillStep
  simp only
  split_ifs <;> rfl

theorem CMIM.fillStep_scan (O : Oracle) (a : Args) (s : CMIMState) (i : Nat) (base : Dbl)
    (h : ∃ w, ScanSpec (fun _ => True) (mi O a) base i s.maxMI w ∧
      s.maxMICounter = winnerCode w) :
    ∃ w, ScanSpec (fun _ => True) (mi O a) base (i + 1) (fillStep O a s i).maxMI w ∧
      (fillStep O a s i).maxMICounter = winnerCode w := by
  obtain ⟨w, hw, hc⟩ := h
  unfold fillStep
  simp only [Function.update_same]
  by_cases hg : Dbl.gt (mi O a i) s.maxMI = true
  · rw [if_pos hg]
    exact ⟨some i, hw.take trivial hg, rfl⟩
  · rw [if_neg hg]
    exact ⟨w, hw.keep (by simpa using hg), hc⟩

/-- The loop of lines 81-90 over the features `0, ..., n-1`. -/
theorem CMIM.fill_spec (O : Oracle) (a : Args) (out : Nat → Dbl) (n : Nat) :
    (∃ w, ScanSpec (fun _ => True) (mi O a) (Dbl.fin 0) n
        ((List.range n).foldl (fillStep O a) (init out)).maxMI w ∧
      ((List.range n).foldl (fillStep O a) (init out)).maxMICounter = winnerCode w) ∧
    (∀ j, j < n → ((List.range n).foldl (fillStep O a) (init out)).classMI j = mi O a j) ∧
    ((List.range n).foldl (fillStep O a) (init out)).lastUsedFeature = (fun _ => 0) ∧
    ((List.range n).foldl (fillStep O a) (init out)).outputFeatures = out := by
  refine foldl_range_induction (fillStep O a)
    (fun m s => (∃ w, ScanSpec (fun _ => True) (mi O a) (Dbl.fin 0) m s.maxMI w ∧
        s.maxMICounter = winnerCode w) ∧
      (∀ j, j < m → s.classMI j = mi O a j) ∧
      s.lastUsedFeature = (fun _ => 0) ∧ s.outputFeatures = out) n (init out) ?_ ?_
  · exact ⟨⟨none, ScanSpec.init _ _ _, rfl⟩, fun _ h => absurd h (Nat.not_lt_zero _), rfl, rfl⟩
  · rintro i t _ ⟨h1, h2, h3, h4⟩
    refine ⟨fillStep_scan O a t i _ h1, fun j hj => ?_, ?_, ?_⟩
    · rw [fillStep_classMI]
      rcases Nat.lt_succ_iff_lt_or_eq.mp hj with h | h
      · rw [Function.update_noteq (Nat.ne_of_lt h)]; exact h2 j h
      · subst h; exact Function.update_same _ _ _
    · rw [fillStep_lastUsedFeature]; exact h3
    · rw [fillStep_outputFeatures]; exact h4

theorem DISR.fillStep_classMI_disr (O : Oracle) (a : Args) (s : DISRState) (i : Nat) :
    (fillStep O a s i).classMI = Function.update s.classMI i (mi O a i) := by
  unfold fillStep
  simp only
  split_ifs <;> rfl

theorem DISR.fillStep_frame (O : Oracle) (a : Args) (s : DISRState) (i : Nat) :
    (fillStep O a s i).selectedFeatures = s.selectedFeatures ∧
    (fillStep O a s i).featureMIMatrix = s.featureMIMatrix ∧
    (fillStep O a s i).outputFeatures = s.outputFeatures := by
  unfold fillStep
  simp only
  split_ifs <;> exact ⟨rfl, rfl, rfl⟩

theorem DISR.fillStep_scan_disr (O : Oracle) (a : Args) (s : DISRState) (i : Nat) (base : Dbl)
    (h : ∃ w, ScanSpec (fun _ => True) (mi O a) base i s.maxMI w ∧
      s.maxMICounter = winnerCode w) :
    ∃ w, ScanSpec (fun _ => True) (mi O a) base (i + 1) (fillStep O a s i).maxMI w ∧
      (fillStep O a s i).maxMICounter = winnerCode w := by
  obtain ⟨w, hw, hc⟩ := h
  unfold fillStep
  simp only [Function.update_same]
  by_cases hg : Dbl.gt (mi O a i) s.maxMI = true
  · rw [if_pos hg]
    exact ⟨some i, hw.take trivial hg, rfl⟩
  · rw [if_neg hg]
    exact ⟨w, hw.keep (by simpa using hg), hc⟩

/-- The loop of lines 98-110 over the features `0, ..., n-1`. -/
theorem DISR.fill_spec_disr (O : Oracle) (a : Args) (out : Nat → Dbl) (n : Nat) :
    (∃ w, ScanSpec (fun _ => True) (mi O a) (Dbl.fin (-1)) n
        ((List.range n).foldl (fillStep O a) (init a out)).maxMI w ∧
      ((List.range n).foldl (fillStep O a) (init a out)).maxMICounter = winnerCode w) ∧
    ((List.range n).foldl (fillStep O a) (init a out)).selectedFeatures = (fun _ => false) ∧
    ((List.range n).foldl (fillStep O a) (init a out)).featureMIMatrix
      = (init a out).featureMIMatrix ∧
    ((List.range n).foldl (fillStep O a) (init a out)).outputFeatures = out := by
  refine foldl_range_induction (fillStep O a)
    (fun m s => (∃ w, ScanSpec (fun _ => True) (mi O a) (Dbl.fin (-1)) m s.maxMI w ∧
        s.maxMICounter = winnerCode w) ∧
      s.selectedFeatures = (fun _ => false) ∧
      s.featureMIMatrix = (init a out).featureMIMatrix ∧ s.outputFeatures = out)
    n (init a out) ?_ ?_
  · exact ⟨⟨none, ScanSpec.init _ _ _, rfl⟩, rfl, rfl, rfl⟩
  · rintro i t _ ⟨h1, h2, h3, h4⟩
    obtain ⟨f1, f2, f3⟩ := fillStep_frame O a t i
    exact ⟨fillStep_scan_disr O a t i _ h1, f1.trans h2, f2.trans h3, f3.trans h4⟩

/-- With a non-negative mutual information and at least one feature, the scan of round 0
has a winner. -/
theorem DISR.fill_winner (O : Oracle) (a : Args) (score : Dbl) (n : Nat) (w : Option Nat)
    (hn : 0 < n) (hpos : ∀ j, j < n → Dbl.ge (mi O a j) (Dbl.fin 0) = true)
    (h : ScanSpec (fun _ => True) (mi O a) (Dbl.fin (-1)) n score w) :
    ∃ v, w = some v := by
  cases w with
  | some v => exact ⟨v, rfl⟩
  | none =>
    exfalso
    have h0 := h.2 0 hn trivial
    have h1 := hpos 0 hn
    revert h0 h1
    cases mi O a 0 <;> simp [Dbl.ge, Dbl.gt, Dbl.eq]
    intro h2
    constructor
    · linarith
    · intro h3
      rw [h3] at h2
      norm_num at h2

/-! ## Claims on the first selected feature and on the output contract -/

/-- C1, at a failing input: one feature whose mutual information with the class is zero
and `k = 1`. `WeightedCMIM` stores `-1` in `outputFeatures[0]`, so the output is not a
sequence of feature indices in `[0, noOfFeatures)`. -/
theorem WeightedCMIM_output_not_valid :
    (WeightedCMIM (constantOracle (Dbl.fin 0) (Dbl.fin 0) (Dbl.fin 0) (Dbl.fin 1)) oneFeature
        (fun _ => Dbl.fin 0)).outputFeatures 0 = Dbl.fin (-1) ∧
      ¬ ValidSelection oneFeature.noOfFeatures oneFeature.k
        (WeightedCMIM (constantOracle (Dbl.fin 0) (Dbl.fin 0) (Dbl.fin 0) (Dbl.fin 1)) oneFeature
          (fun _ => Dbl.fin 0)).outputFeatures := by
  have h0 : (WeightedCMIM (constantOracle (Dbl.fin 0) (Dbl.fin 0) (Dbl.fin 0) (Dbl.fin 1))
      oneFeature (fun _ => Dbl.fin 0)).outputFeatures 0 = Dbl.fin (-1) := by decide
  refine ⟨h0, fun h => ?_⟩
  obtain ⟨j, _, hj⟩ := h.1 0 (by decide)
  rw [h0] at hj
  have h1 : Dbl.ofInt (-1) = Dbl.ofInt (j : Int) := by
    rw [← hj]; simp [Dbl.ofInt]
  have := Dbl.ofInt_injective h1
  omega

/-- C2, at a failing input: two features, a constant class (every mutual information is
zero, the joint entropy is not) and `k = 2`. `WeightedDISR` returns feature 0 twice. -/
theorem WeightedDISR_output_not_valid :
    (WeightedDISR (constantOracle (Dbl.fin 0) (Dbl.fin 0) (Dbl.fin 0) (Dbl.fin 1))
        (twoFeatures 2) (fun _ => Dbl.fin 0)).outputFeatures 0 = Dbl.ofInt 0 ∧
      (WeightedDISR (constantOracle (Dbl.fin 0) (Dbl.fin 0) (Dbl.fin 0) (Dbl.fin 1))
        (twoFeatures 2) (fun _ => Dbl.fin 0)).outputFeatures 1 = Dbl.ofInt 0 ∧
      ¬ ValidSelection (twoFeatures 2).noOfFeatures (twoFeatures 2).k
        (WeightedDISR (constantOracle (Dbl.fin 0) (Dbl.fin 0) (Dbl.fin 0) (Dbl.fin 1))
          (twoFeatures 2) (fun _ => Dbl.fin 0)).outputFeatures := by
  have h0 : (WeightedDISR (constantOracle (Dbl.fin 0) (Dbl.fin 0) (Dbl.fin 0) (Dbl.fin 1))
      (twoFeatures 2) (fun _ => Dbl.fin 0)).outputFeatures 0 = Dbl.ofInt 0 := by
    with_unfolding_all decide
  have h1 : (WeightedDISR (constantOracle (Dbl.fin 0) (Dbl.fin 0) (Dbl.fin 0) (Dbl.fin 1))
      (twoFeatures 2) (fun _ => Dbl.fin 0)).outputFeatures 1 = Dbl.ofInt 0 := by
    with_unfolding_all decide
  refine ⟨h0, h1, fun h => ?_⟩
  exact h.2 0 1 (by decide) (by decide) (h0.trans h1.symm)

/-- C3, at a failing input: two features whose mutual information with the class is zero
and `k = 1`. The maximum of the mutual information is attained at index 0, and
`WeightedCMIM` stores `-1` in `outputFeatures[0]`. -/
theorem WeightedCMIM_first_feature_missing :
    (∀ j : Nat, Dbl.ge
      (CMIM.mi (constantOracle (Dbl.fin 0) (Dbl.fin 0) (Dbl.fin 0) (Dbl.fin 1)) (twoFeatures 1) 0)
      (CMIM.mi (constantOracle (Dbl.fin 0) (Dbl.fin 0) (Dbl.fin 0) (Dbl.fin 1)) (twoFeatures 1) j)
        = true) ∧
    (WeightedCMIM (constantOracle (Dbl.fin 0) (Dbl.fin 0) (Dbl.fin 0) (Dbl.fin 1))
        (twoFeatures 1) (fun _ => Dbl.fin 0)).outputFeatures 0 = Dbl.ofInt (-1) ∧
    (WeightedCMIM (constantOracle (Dbl.fin 0) (Dbl.fin 0) (Dbl.fin 0) (Dbl.fin 1))
        (twoFeatures 1) (fun _ => Dbl.fin 0)).outputFeatures 0 ≠ Dbl.ofInt 0 := by
  refine ⟨fun j => ?_, by decide, by decide⟩
  show Dbl.ge (Dbl.fin 0) (Dbl.fin 0) = true
  decide

/-- C4: with at least one feature, `k = 1` and a non-negative mutual information,
`WeightedDISR` writes to `outputFeatures[0]` a feature index `w` in `[0, noOfFeatures)` whose
mutual information with the class is at least that of every feature and exceeds that of
every feature of lower index. -/
theorem WeightedDISR_first_feature (O : Oracle) (a : Args) (out : Nat → Dbl)
    (hF : 1 ≤ a.noOfFeatures) (hk : a.k = 1)
    (hpos : ∀ j : Nat, (j : Int) < a.noOfFeatures →
      Dbl.ge (DISR.mi O a j) (Dbl.fin 0) = true) :
    ∃ w : Nat, (w : Int) < a.noOfFeatures ∧
      (WeightedDISR O a out).outputFeatures 0 = Dbl.ofInt w ∧
      (∀ j : Nat, (j : Int) < a.noOfFeatures →
        Dbl.ge (DISR.mi O a w) (DISR.mi O a j) = true) ∧
      (∀ j : Nat, j < w → Dbl.gt (DISR.mi O a w) (DISR.mi O a j) = true) := by
  have hpos' : ∀ j, j < a.noOfFeatures.toNat → Dbl.ge (DISR.mi O a j) (Dbl.fin 0) = true :=
    fun j hj => hpos j (by omega)
  obtain ⟨⟨w, hw, hc⟩, _, _, _⟩ := DISR.fill_spec_disr O a out a.noOfFeatures.toNat
  obtain ⟨v, rfl⟩ := DISR.fill_winner O a _ _ w (by omega) hpos' hw
  obtain ⟨hv, _, _, _, hmax, hlow⟩ := hw
  refine ⟨v, by omega, ?_, fun j hj => ?_, fun j hj => ?_⟩
  · simp only [WeightedDISR, hk, DISR.rounds, DISR.round0]
    simp [hc, winnerCode]
  · have hj' : j < a.noOfFeatures.toNat := by omega
    exact Dbl.ge_of_not_gt (Dbl.ne_nan_of_ge (hpos' v hv)) (Dbl.ne_nan_of_ge (hpos' j hj'))
      (hmax j hj' trivial)
  · have hj' : j < a.noOfFeatures.toNat := by omega
    rcases Dbl.trichotomy (Dbl.ne_nan_of_ge (hpos' v hv)) (Dbl.ne_nan_of_ge (hpos' j hj'))
      with t | t | t
    · exact t
    · exact absurd t.symm (hlow j hj trivial)
    · rw [hmax j hj' trivial] at t; exact absurd t Bool.false_ne_true

/-- Witness of C4: two features with mutual information 0 and 1. -/
theorem WeightedDISR_first_feature_witness :
    (1 ≤ (twoFeatures 1).noOfFeatures ∧ (twoFeatures 1).k = 1 ∧
      ∀ j : Nat, (j : Int) < (twoFeatures 1).noOfFeatures →
        Dbl.ge (DISR.mi firstCellOracle (twoFeatures 1) j) (Dbl.fin 0) = true) ∧
    ∃ w : Nat, (w : Int) < (twoFeatures 1).noOfFeatures ∧
      (WeightedDISR firstCellOracle (twoFeatures 1) (fun _ => Dbl.fin 0)).outputFeatures 0
        = Dbl.ofInt w ∧
      (∀ j : Nat, (j : Int) < (twoFeatures 1).noOfFeatures →
        Dbl.ge (DISR.mi firstCellOracle (twoFeatures 1) w)
          (DISR.mi firstCellOracle (twoFeatures 1) j) = true) ∧
      (∀ j : Nat, j < w → Dbl.gt (DISR.mi firstCellOracle (twoFeatures 1) w)
          (DISR.mi firstCellOracle (twoFeatures 1) j) = true) := by
  have hpos : ∀ j : Nat, (j : Int) < (twoFeatures 1).noOfFeatures →
      Dbl.ge (DISR.mi firstCellOracle (twoFeatures 1) j) (Dbl.fin 0) = true := by
    intro j hj
    have h2 : j = 0 ∨ j = 1 := by
      have : (j : Int) < 2 := hj
      omega
    rcases h2 with h | h <;> subst h <;> decide
  exact ⟨⟨by decide, rfl, hpos⟩,
    WeightedDISR_first_feature firstCellOracle (twoFeatures 1) (fun _ => Dbl.fin 0)
      (by decide) rfl hpos⟩

/-- C7, at a failing input: two features whose mutual information with the class is zero
and `k = 2`. No feature wins round 1, `outputFeatures[1]` is not written and keeps what the
caller's buffer held, so two calls with the same arguments return different sequences. -/
theorem WeightedCMIM_output_depends_on_buffer :
    (WeightedCMIM (constantOracle (Dbl.fin 0) (Dbl.fin 0) (Dbl.fin 0) (Dbl.fin 1))
        (twoFeatures 2) (fun _ => Dbl.fin 5)).outputFeatures 1 = Dbl.fin 5 ∧
    (WeightedCMIM (constantOracle (Dbl.fin 0) (Dbl.fin 0) (Dbl.fin 0) (Dbl.fin 1))
        (twoFeatures 2) (fun _ => Dbl.fin 7)).outputFeatures 1 = Dbl.fin 7 ∧
    (WeightedCMIM (constantOracle (Dbl.fin 0) (Dbl.fin 0) (Dbl.fin 0) (Dbl.fin 1))
        (twoFeatures 2) (fun _ => Dbl.fin 5)).outputFeatures 1 ≠
      (WeightedCMIM (constantOracle (Dbl.fin 0) (Dbl.fin 0) (Dbl.fin 0) (Dbl.fin 1))
        (twoFeatures 2) (fun _ => Dbl.fin 7)).outputFeatures 1 := by
  refine ⟨by decide, by decide, by decide⟩

/-! ## The rounds of WeightedCMIM -/

theorem Dbl.min_le (acc c : Dbl) : Dbl.min acc c = acc ∨ Dbl.gt acc (Dbl.min acc c) = true := by
  unfold Dbl.min
  by_cases h : Dbl.gt acc c = true
  · rw [if_pos h]; exact Or.inr h
  · rw [if_neg h]; exact Or.inl rfl

theorem CMIM.whileBody_classMI (O : Oracle) (a : Args) (i j : Nat) (s : CMIMState) :
    (whileBody O a i j s).classMI = Function.update s.classMI j
      (Dbl.min (s.classMI j) (cmi O a j (Dbl.toInt (s.outputFeatures (s.lastUsedFeature j))))) := by
  unfold whileBody Dbl.min
  simp only
  split_ifs
  · rfl
  · exact (Function.update_eq_self j s.classMI).symm

theorem CMIM.whileBody_lastUsedFeature (O : Oracle) (a : Args) (i j : Nat) (s : CMIMState) :
    (whileBody O a i j s).lastUsedFeature
      = Function.update s.lastUsedFeature j (s.lastUsedFeature j + 1) := by
  unfold whileBody
  simp only
  split_ifs <;> rfl

theorem CMIM.whileBody_frame (O : Oracle) (a : Args) (i j : Nat) (s : CMIMState) :
    (whileBody O a i j s).outputFeatures = s.outputFeatures ∧
      (whileBody O a i j s).score = s.score := by
  unfold whileBody
  simp only
  split_ifs <;> exact ⟨rfl, rfl⟩

/-- A property kept by the body of the `while` loop holds when the loop is left. -/
theorem CMIM.whileLoop_induction (O : Oracle) (a : Args) (i j : Nat) (Q : CMIMState → Prop)
    (hb : ∀ t, Q t → whileCond i j t = true → Q (whileBody O a i j t)) :
    ∀ (fuel : Nat) (s : CMIMState), Q s → Q (whileLoop O a i j fuel s)
  | 0, s, h => h
  | fuel + 1, s, h => by
    unfold whileLoop
    by_cases hc : whileCond i j s = true
    · rw [if_pos hc]
      exact CMIM.whileLoop_induction O a i j Q hb fuel _ (hb s h hc)
    · rw [if_neg hc]
      exact h

/-- The bound on the iterations is never reached: the loop is left because its condition
is false. -/
theorem CMIM.whileLoop_exit (O : Oracle) (a : Args) (i j : Nat) :
    ∀ (fuel : Nat) (s : CMIMState), i - s.lastUsedFeature j ≤ fuel →
      whileCond i j (whileLoop O a i j fuel s) = false
  | 0, s, h => by
    unfold whileLoop whileCond
    have : ¬ s.lastUsedFeature j < i := by omega
    simp [this]
  | fuel + 1, s, h => by
    unfold whileLoop
    by_cases hc : whileCond i j s = true
    · rw [if_pos hc]
      apply CMIM.whileLoop_exit O a i j fuel
      rw [CMIM.whileBody_lastUsedFeature, Function.update_same]
      omega
    · rw [if_neg hc]
      simpa using hc

/-- Induction over one round: `P j` is what holds before feature `j` is examined. -/
theorem CMIM.round_induction (O : Oracle) (a : Args) (i : Nat) (P : Nat → CMIMState → Prop)
    (s : CMIMState) (h0 : P 0 { s with score := Dbl.fin 0 })
    (hbody : ∀ j t, j < a.noOfFeatures.toNat → P j t → whileCond i j t = true →
      P j (whileBody O a i j t))
    (hsel : ∀ j t, j < a.noOfFeatures.toNat → P j t → whileCond i j t = false →
      Dbl.gt (t.classMI j) t.score = true →
      P (j + 1) { t with score := t.classMI j
                         outputFeatures := Function.update t.outputFeatures i (Dbl.ofInt j) })
    (hkeep : ∀ j t, j < a.noOfFeatures.toNat → P j t → whileCond i j t = false →
      Dbl.gt (t.classMI j) t.score = false → P (j + 1) t) :
    P a.noOfFeatures.toNat (round O a s i) := by
  unfold round
  refine foldl_range_induction (featureStep O a i) P _ _ h0 ?_
  intro j t hj hP
  have h1 : P j (whileLoop O a i j i t) :=
    CMIM.whileLoop_induction O a i j (P j) (fun u hu hc => hbody j u hj hu hc) i t hP
  have h2 : whileCond i j (whileLoop O a i j i t) = false :=
    CMIM.whileLoop_exit O a i j i t (by omega)
  unfold featureStep
  simp only
  by_cases hg : Dbl.gt ((whileLoop O a i j i t).classMI j) (whileLoop O a i j i t).score = true
  · rw [if_pos hg]
    exact hsel j _ hj h1 h2 hg
  · rw [if_neg hg]
    exact hkeep j _ hj h1 h2 (by simpa using hg)

theorem CMIM.rounds_zero (O : Oracle) (a : Args) (out : Nat → Dbl) :
    rounds O a out 0 = round0 O a out := rfl

theorem CMIM.rounds_succ (O : Oracle) (a : Args) (out : Nat → Dbl) (n : Nat) :
    rounds O a out (n + 1) = round O a (rounds O a out n) (n + 1) := by
  unfold rounds
  rw [List.range'_1_concat, List.foldl_append]
  simp [Nat.add_comm]

theorem CMIM.partialScore_succ (O : Oracle) (a : Args) (out : Nat → Dbl) (j m : Nat) :
    partialScore O a out j (m + 1)
      = Dbl.min (partialScore O a out j m) (cmi O a j (Dbl.toInt (out m))) := by
  unfold partialScore
  rw [List.range_succ, List.foldl_append]
  rfl

/-- The partial score reads the output buffer below `m` only. -/
theorem CMIM.partialScore_congr (O : Oracle) (a : Args) (out out' : Nat → Dbl) (j : Nat) :
    ∀ m, (∀ x, x < m → out x = out' x) → partialScore O a out j m = partialScore O a out' j m
  | 0, _ => rfl
  | m + 1, h => by
    rw [CMIM.partialScore_succ, CMIM.partialScore_succ, h m (Nat.lt_succ_self m),
      CMIM.partialScore_congr O a out out' j m (fun x hx => h x (Nat.lt_succ_of_lt hx))]

/-- Folding more selected features in never raises the partial score. -/
theorem CMIM.partialScore_mono (O : Oracle) (a : Args) (out : Nat → Dbl) (j m : Nat) :
    ∀ d, partialScore O a out j (m + d) = partialScore O a out j m ∨
      Dbl.gt (partialScore O a out j m) (partialScore O a out j (m + d)) = true
  | 0 => Or.inl rfl
  | d + 1 => by
    have e : m + (d + 1) = (m + d) + 1 := by omega
    rw [e, CMIM.partialScore_succ]
    rcases CMIM.partialScore_mono O a out j m d with h | h
    · rcases Dbl.min_le (partialScore O a out j (m + d))
        (cmi O a j (Dbl.toInt (out (m + d)))) with h2 | h2
      · left; rw [h2, h]
      · right; rw [h] at h2 ⊢; exact h2
    · rcases Dbl.min_le (partialScore O a out j (m + d))
        (cmi O a j (Dbl.toInt (out (m + d)))) with h2 | h2
      · right; rw [h2]; exact h
      · right; exact Dbl.gt_trans h h2

theorem CMIM.Inv_mono (O : Oracle) (a : Args) (i i' : Nat) (s : CMIMState) (h : Inv O a i s)
    (hi : i ≤ i') : Inv O a i' s :=
  ⟨fun j => Nat.le_trans (h.1 j) hi, h.2⟩

theorem CMIM.Inv_round0 (O : Oracle) (a : Args) (out : Nat → Dbl) :
    Inv O a 0 (round0 O a out) := by
  obtain ⟨_, h2, h3, _⟩ := CMIM.fill_spec O a out a.noOfFeatures.toNat
  unfold round0
  refine ⟨fun j => ?_, fun j hj => ?_⟩
  · simp only [h3]; exact Nat.le_refl 0
  · simp only [h3]
    exact h2 j hj

theorem CMIM.Inv_whileBody (O : Oracle) (a : Args) (i j : Nat) (s : CMIMState)
    (h : Inv O a i s) (hj : j < a.noOfFeatures.toNat) (hc : whileCond i j s = true) :
    Inv O a i (whileBody O a i j s) := by
  have hlt : s.lastUsedFeature j < i := by
    unfold whileCond at hc
    simp at hc
    exact hc.2
  refine ⟨fun j' => ?_, fun j' hj' => ?_⟩
  · rw [CMIM.whileBody_lastUsedFeature]
    by_cases e : j' = j
    · subst e; rw [Function.update_same]; omega
    · rw [Function.update_noteq e]; exact h.1 j'
  · rw [CMIM.whileBody_classMI, CMIM.whileBody_lastUsedFeature, (CMIM.whileBody_frame O a i j s).1]
    by_cases e : j' = j
    · subst e
      rw [Function.update_same, Function.update_same, CMIM.partialScore_succ, ← h.2 j' hj]
    · rw [Function.update_noteq e, Function.update_noteq e]
      exact h.2 j' hj'

theorem CMIM.Inv_select (O : Oracle) (a : Args) (i : Nat) (s : CMIMState) (v sc : Dbl)
    (h : Inv O a i s) :
    Inv O a i { s with score := sc, outputFeatures := Function.update s.outputFeatures i v } := by
  refine ⟨h.1, fun j hj => ?_⟩
  show s.classMI j = partialScore O a (Function.update s.outputFeatures i v) j (s.lastUsedFeature j)
  rw [h.2 j hj]
  apply CMIM.partialScore_congr
  intro x hx
  have : x ≠ i := by have := h.1 j; omega
  rw [Function.update_noteq this]

/-- What one round does: the invariant is kept, only `outputFeatures[i]` may change, and the
final score and the slot `i` are those of an exact scan of the scores `s_i(j)`. -/
theorem CMIM.round_spec (O : Oracle) (a : Args) (i : Nat) (s : CMIMState) (h : Inv O a i s) :
    Inv O a i (round O a s i) ∧
    (∀ x, x ≠ i → (round O a s i).outputFeatures x = s.outputFeatures x) ∧
    ∃ w, ScanSpec (fun _ => True) (exactScore O a s.outputFeatures i) (Dbl.fin 0)
        a.noOfFeatures.toNat (round O a s i).score w ∧
      (∀ v, w = some v → (round O a s i).outputFeatures i = Dbl.ofInt v) ∧
      (w = none → (round O a s i).outputFeatures i = s.outputFeatures i) := by
  refine CMIM.round_induction O a i
    (fun j t => Inv O a i t ∧ (∀ x, x ≠ i → t.outputFeatures x = s.outputFeatures x) ∧
      ∃ w, ScanSpec (fun _ => True) (exactScore O a s.outputFeatures i) (Dbl.fin 0) j t.score w ∧
        (∀ v, w = some v → t.outputFeatures i = Dbl.ofInt v) ∧
        (w = none → t.outputFeatures i = s.outputFeatures i)) s ?_ ?_ ?_ ?_
  · exact ⟨⟨h.1, h.2⟩, fun _ _ => rfl, none, ScanSpec.init _ _ _,
      ⟨fun _ hv => Option.noConfusion hv, fun _ => rfl⟩⟩
  · rintro j t hj ⟨hI, hF, w, hS, hW, hN⟩ hc
    obtain ⟨f1, f2⟩ := CMIM.whileBody_frame O a i j t
    refine ⟨CMIM.Inv_whileBody O a i j t hI hj hc, ?_, w, ?_, ?_, ?_⟩
    · intro x hx; rw [f1]; exact hF x hx
    · rw [f2]; exact hS
    · intro v hv; rw [f1]; exact hW v hv
    · intro hn; rw [f1]; exact hN hn
  · rintro j t hj ⟨hI, hF, w, hS, hW, hN⟩ hc hg
    have hlu : t.lastUsedFeature j = i := by
      unfold whileCond at hc
      rw [hg] at hc
      simp at hc
      have := hI.1 j
      omega
    have hval : t.classMI j = exactScore O a s.outputFeatures i j := by
      rw [hI.2 j hj, hlu]
      exact CMIM.partialScore_congr O a _ _ j i (fun x hx => hF x (Nat.ne_of_lt hx))
    refine ⟨CMIM.Inv_select O a i t _ _ hI, ?_, some j, ?_, ?_, ?_⟩
    · intro x hx
      show Function.update t.outputFeatures i (Dbl.ofInt j) x = s.outputFeatures x
      rw [Function.update_noteq hx]; exact hF x hx
    · show ScanSpec _ _ _ (j + 1) (t.classMI j) (some j)
      rw [hval]
      exact hS.take trivial (by rw [← hval]; exact hg)
    · intro v hv
      cases hv
      show Function.update t.outputFeatures i (Dbl.ofInt j) i = Dbl.ofInt j
      exact Function.update_same _ _ _
    · intro hn; cases hn
  · rintro j t hj ⟨hI, hF, w, hS, hW, hN⟩ _ hg
    refine ⟨hI, hF, w, hS.keep ?_, hW, hN⟩
    have hle : t.lastUsedFeature j ≤ i := hI.1 j
    have hcl : t.classMI j = partialScore O a s.outputFeatures j (t.lastUsedFeature j) := by
      rw [hI.2 j hj]
      exact CMIM.partialScore_congr O a _ _ j _ (fun x hx => hF x (by omega))
    have hmono := CMIM.partialScore_mono O a s.outputFeatures j (t.lastUsedFeature j)
      (i - t.lastUsedFeature j)
    have e : t.lastUsedFeature j + (i - t.lastUsedFeature j) = i := by omega
    rw [e, ← hcl] at hmono
    cases hx : Dbl.gt (exactScore O a s.outputFeatures i j) t.score with
    | false => rfl
    | true =>
      exfalso
      unfold exactScore at hx
      rcases hmono with h1 | h1
      · rw [h1, hg] at hx; exact Bool.false_ne_true hx
      · have := Dbl.gt_trans h1 hx
        rw [hg] at this; exact Bool.false_ne_true this

theorem CMIM.Inv_rounds (O : Oracle) (a : Args) (out : Nat → Dbl) :
    ∀ n, Inv O a n (rounds O a out n)
  | 0 => CMIM.Inv_round0 O a out
  | n + 1 => by
    rw [CMIM.rounds_succ]
    exact (CMIM.round_spec O a (n + 1) _
      (CMIM.Inv_mono O a n (n + 1) _ (CMIM.Inv_rounds O a out n) (Nat.le_succ n))).1

/-- A round leaves the slots of the earlier rounds alone. -/
theorem CMIM.rounds_stable (O : Oracle) (a : Args) (out : Nat → Dbl) (n x : Nat) (hx : x ≤ n) :
    ∀ d, (rounds O a out (n + d)).outputFeatures x = (rounds O a out n).outputFeatures x
  | 0 => rfl
  | d + 1 => by
    have e : n + (d + 1) = (n + d) + 1 := by omega
    rw [e, CMIM.rounds_succ]
    have h := (CMIM.round_spec O a (n + d + 1) _
      (CMIM.Inv_mono O a (n + d) (n + d + 1) _ (CMIM.Inv_rounds O a out (n + d))
        (Nat.le_succ _))).2.1 x (by omega)
    rw [h]
    exact CMIM.rounds_stable O a out n x hx d

/-- The naive round is an exact scan of the scores `s_i(j)`. -/
theorem CMIM.naiveRound_spec (O : Oracle) (a : Args) (out : Nat → Dbl) (i : Nat) :
    ScanSpec (fun _ => True) (exactScore O a out i) (Dbl.fin 0) a.noOfFeatures.toNat
      (naiveRound O a out i).1 (naiveRound O a out i).2 := by
  unfold naiveRound
  refine foldl_range_induction _
    (fun (m : Nat) (p : Dbl × Option Nat) =>
      ScanSpec (fun _ => True) (exactScore O a out i) (Dbl.fin 0) m p.1 p.2)
    _ _ (ScanSpec.init _ _ _) ?_
  intro j p _ hp
  by_cases hg : Dbl.gt (exactScore O a out i j) p.1 = true
  · simp only [if_pos hg]
    exact hp.take trivial hg
  · simp only [if_neg hg]
    exact hp.keep (by simpa using hg)

/-- Round `i` of `WeightedCMIM`, read on the final output buffer. -/
theorem CMIM.final_round_spec (O : Oracle) (a : Args) (out : Nat → Dbl) (i : Nat)
    (hi : 1 ≤ i) (hik : (i : Int) < a.k) :
    ∃ sc w, ScanSpec (fun _ => True) (exactScore O a (WeightedCMIM O a out).outputFeatures i)
        (Dbl.fin 0) a.noOfFeatures.toNat sc w ∧
      (∀ v, w = some v → (WeightedCMIM O a out).outputFeatures i = Dbl.ofInt v) ∧
      (w = none → (WeightedCMIM O a out).outputFeatures i = out i) := by
  obtain ⟨n, rfl⟩ : ∃ n, i = n + 1 := ⟨i - 1, by omega⟩
  obtain ⟨d, hd⟩ : ∃ d, a.k.toNat - 1 = (n + 1) + d := ⟨a.k.toNat - 1 - (n + 1), by omega⟩
  have hfin : ∀ x, x ≤ n + 1 →
      (WeightedCMIM O a out).outputFeatures x = (rounds O a out (n + 1)).outputFeatures x := by
    intro x hx
    unfold WeightedCMIM
    rw [hd]
    exact CMIM.rounds_stable O a out (n + 1) x hx d
  have hI := CMIM.Inv_mono O a n (n + 1) _ (CMIM.Inv_rounds O a out n) (Nat.le_succ n)
  obtain ⟨_, hF, w, hS, hW, hN⟩ := CMIM.round_spec O a (n + 1) _ hI
  rw [← CMIM.rounds_succ] at hF hS hW hN
  have he : exactScore O a (WeightedCMIM O a out).outputFeatures (n + 1)
      = exactScore O a (rounds O a out n).outputFeatures (n + 1) := by
    funext j
    apply CMIM.partialScore_congr
    intro x hx
    rw [hfin x (by omega), hF x (by omega)]
  refine ⟨(rounds O a out (n + 1)).score, w, ?_, ?_, ?_⟩
  · rw [he]; exact hS
  · intro v hv; rw [hfin _ (Nat.le_refl _)]; exact hW v hv
  · intro hn
    rw [hfin _ (Nat.le_refl _), hN hn]
    have : ∀ m, (rounds O a out m).outputFeatures (n + 1) = out (n + 1) ∨ n + 1 ≤ m := by
      intro m
      induction m with
      | zero =>
        left
        obtain ⟨_, _, _, h4⟩ := CMIM.fill_spec O a out a.noOfFeatures.toNat
        rw [CMIM.rounds_zero]
        unfold round0
        simp only
        rw [Function.update_noteq (by omega), h4]
      | succ m ih =>
        by_cases hm : n + 1 ≤ m + 1
        · exact Or.inr hm
        · left
          rw [CMIM.rounds_succ]
          have h := (CMIM.round_spec O a (m + 1) _
            (CMIM.Inv_mono O a m (m + 1) _ (CMIM.Inv_rounds O a out m)
              (Nat.le_succ _))).2.1 (n + 1) (by omega)
          rw [h]
          rcases ih with h1 | h1
          · exact h1
          · omega
    rcases this n with h1 | h1
    · exact h1
    · omega

/-- C5: in every round `i` with `1 ≤ i < k` in which some feature has an exact score
`s_i(j) > 0`, the lazy selector `WeightedCMIM` leaves in `outputFeatures[i]` the winner of
the naive round that recomputes every `s_i(j)` from scratch: a feature `w` with `s_i(w) > 0`
that no feature exceeds and that no feature of lower index equals. -/
theorem WeightedCMIM_refines_naive (O : Oracle) (a : Args) (out : Nat → Dbl) (i : Nat)
    (hi : 1 ≤ i) (hik : (i : Int) < a.k)
    (hpos : ∃ j : Nat, (j : Int) < a.noOfFeatures ∧
      Dbl.gt (CMIM.exactScore O a (WeightedCMIM O a out).outputFeatures i j) (Dbl.fin 0) = true) :
    ∃ w : Nat, (w : Int) < a.noOfFeatures ∧
      (WeightedCMIM O a out).outputFeatures i = Dbl.ofInt w ∧
      (CMIM.naiveRound O a (WeightedCMIM O a out).outputFeatures i).2 = some w ∧
      Dbl.gt (CMIM.exactScore O a (WeightedCMIM O a out).outputFeatures i w) (Dbl.fin 0) = true ∧
      (∀ j : Nat, (j : Int) < a.noOfFeatures →
        Dbl.gt (CMIM.exactScore O a (WeightedCMIM O a out).outputFeatures i j)
          (CMIM.exactScore O a (WeightedCMIM O a out).outputFeatures i w) = false) ∧
      (∀ j : Nat, j < w →
        CMIM.exactScore O a (WeightedCMIM O a out).outputFeatures i j
          ≠ CMIM.exactScore O a (WeightedCMIM O a out).outputFeatures i w) := by
  obtain ⟨sc, w, hS, hW, _⟩ := CMIM.final_round_spec O a out i hi hik
  obtain ⟨j, hj, hjpos⟩ := hpos
  cases w with
  | none =>
    exfalso
    have := hS.2 j (by omega) trivial
    rw [hjpos] at this
    exact Bool.false_ne_true this.symm
  | some w =>
    have hn := (ScanSpec.unique (CMIM.naiveRound_spec O a _ i) hS).1
    obtain ⟨hw, _, _, hb, hmax, hlow⟩ := hS
    exact ⟨w, by omega, hW w rfl, hn, hb, fun j hj => hmax j (by omega) trivial,
      fun j hj => hlow j hj trivial⟩

/-- Witness of C5: three features, `k = 2`; round 0 selects feature 1 and round 1 selects
feature 0. -/
theorem WeightedCMIM_refines_naive_witness :
    (1 ≤ 1 ∧ ((1 : Nat) : Int) < (threeFeatures 2).k ∧
      ∃ j : Nat, (j : Int) < (threeFeatures 2).noOfFeatures ∧
        Dbl.gt (CMIM.exactScore cellOracle (threeFeatures 2)
          (WeightedCMIM cellOracle (threeFeatures 2) (fun _ => Dbl.fin 0)).outputFeatures 1 j)
          (Dbl.fin 0) = true) ∧
    ∃ w : Nat, (w : Int) < (threeFeatures 2).noOfFeatures ∧
      (WeightedCMIM cellOracle (threeFeatures 2) (fun _ => Dbl.fin 0)).outputFeatures 1
        = Dbl.ofInt w ∧
      (CMIM.naiveRound cellOracle (threeFeatures 2)
        (WeightedCMIM cellOracle (threeFeatures 2) (fun _ => Dbl.fin 0)).outputFeatures 1).2
        = some w ∧
      Dbl.gt (CMIM.exactScore cellOracle (threeFeatures 2)
        (WeightedCMIM cellOracle (threeFeatures 2) (fun _ => Dbl.fin 0)).outputFeatures 1 w)
        (Dbl.fin 0) = true ∧
      (∀ j : Nat, (j : Int) < (threeFeatures 2).noOfFeatures →
        Dbl.gt (CMIM.exactScore cellOracle (threeFeatures 2)
            (WeightedCMIM cellOracle (threeFeatures 2) (fun _ => Dbl.fin 0)).outputFeatures 1 j)
          (CMIM.exactScore cellOracle (threeFeatures 2)
            (WeightedCMIM cellOracle (threeFeatures 2) (fun _ => Dbl.fin 0)).outputFeatures 1 w)
          = false) ∧
      (∀ j : Nat, j < w →
        CMIM.exactScore cellOracle (threeFeatures 2)
            (WeightedCMIM cellOracle (threeFeatures 2) (fun _ => Dbl.fin 0)).outputFeatures 1 j
          ≠ CMIM.exactScore cellOracle (threeFeatures 2)
            (WeightedCMIM cellOracle (threeFeatures 2) (fun _ => Dbl.fin 0)).outputFeatures 1 w) :=
  have hpos : ∃ j : Nat, (j : Int) < (threeFeatures 2).noOfFeatures ∧
      Dbl.gt (CMIM.exactScore cellOracle (threeFeatures 2)
        (WeightedCMIM cellOracle (threeFeatures 2) (fun _ => Dbl.fin 0)).outputFeatures 1 j)
        (Dbl.fin 0) = true := ⟨0, by decide, by decide⟩
  ⟨⟨Nat.le_refl 1, by decide, hpos⟩,
    WeightedCMIM_refines_naive cellOracle (threeFeatures 2) (fun _ => Dbl.fin 0) 1
      (Nat.le_refl 1) (by decide) hpos⟩

/-! ## The history of classMI -/

theorem CMIM.fillStep_trace (O : Oracle) (a : Args) (s : CMIMState) (i : Nat) :
    (fillStep O a s i).trace = Event.mutualInformation i :: s.trace := by
  unfold fillStep
  simp only
  split_ifs <;> rfl

/-- Round 0 records evaluations of the mutual information only. -/
theorem CMIM.round0_trace (O : Oracle) (a : Args) (out : Nat → Dbl) :
    ∀ e, e ∈ (round0 O a out).trace → ∃ j, e = Event.mutualInformation j := by
  unfold round0
  simp only
  refine foldl_range_induction (fillStep O a)
    (fun _ s => ∀ e, e ∈ s.trace → ∃ j, e = Event.mutualInformation j) _ _ ?_ ?_
  · intro e he
    simp [init] at he
  · intro i t _ ht e he
    rw [CMIM.fillStep_trace, List.mem_cons] at he
    rcases he with h | h
    · exact ⟨i, h⟩
    · exact ht e h

theorem CMIM.classMIHistory_of_fill (O : Oracle) (a : Args) (j : Nat) :
    ∀ (tr : List Event), (∀ e, e ∈ tr → ∃ j', e = Event.mutualInformation j') →
      classMIHistory O a j tr = [mi O a j]
  | [], _ => rfl
  | e :: t, h => by
    obtain ⟨j', rfl⟩ := h e (List.mem_cons_self _ _)
    unfold classMIHistory
    exact CMIM.classMIHistory_of_fill O a j t (fun e he => h e (List.mem_cons_of_mem _ he))

theorem CMIM.round0_classMI (O : Oracle) (a : Args) (out : Nat → Dbl) (j : Nat)
    (hj : j < a.noOfFeatures.toNat) : (round0 O a out).classMI j = mi O a j :=
  (CMIM.fill_spec O a out a.noOfFeatures.toNat).2.1 j hj

theorem CMIM.TraceInv_round0 (O : Oracle) (a : Args) (out : Nat → Dbl) :
    TraceInv O a (round0 O a out) := by
  have htr := CMIM.round0_trace O a out
  refine ⟨fun j hj => ?_, fun j old new hmem => ?_⟩
  · rw [CMIM.classMIHistory_of_fill O a j _ htr, CMIM.round0_classMI O a out j hj]
    exact ⟨rfl, List.chain'_singleton _⟩
  · obtain ⟨j', hj'⟩ := htr _ hmem
    cases hj'

theorem CMIM.TraceInv_whileBody (O : Oracle) (a : Args) (i j : Nat) (s : CMIMState)
    (h : TraceInv O a s) (hj : j < a.noOfFeatures.toNat) :
    TraceInv O a (whileBody O a i j s) := by
  obtain ⟨h1, h2⟩ := h
  unfold whileBody
  simp only
  by_cases hg : Dbl.gt (s.classMI j)
      (cmi O a j (Dbl.toInt (s.outputFeatures (s.lastUsedFeature j)))) = true
  · rw [if_pos hg]
    refine ⟨fun j' hj' => ?_, fun j' old new hmem => ?_⟩
    · simp only [classMIHistory]
      by_cases e : j = j'
      · subst e
        rw [if_pos rfl, Function.update_same]
        refine ⟨rfl, List.chain'_cons'.mpr ⟨fun y hy => ?_, (h1 j hj).2⟩⟩
        rw [(h1 j hj).1] at hy
        cases hy
        exact hg
      · rw [if_neg e, Function.update_noteq (Ne.symm e)]
        exact h1 j' hj'
    · simp only [List.mem_cons] at hmem
      rcases hmem with h3 | h3 | h3
      · cases h3; exact hg
      · cases h3
      · exact h2 j' old new h3
  · rw [if_neg hg]
    refine ⟨fun j' hj' => ?_, fun j' old new hmem => ?_⟩
    · simp only [classMIHistory]
      exact h1 j' hj'
    · simp only [List.mem_cons] at hmem
      rcases hmem with h3 | h3
      · cases h3
      · exact h2 j' old new h3

theorem CMIM.TraceInv_rounds (O : Oracle) (a : Args) (out : Nat → Dbl) :
    ∀ n, TraceInv O a (rounds O a out n)
  | 0 => CMIM.TraceInv_round0 O a out
  | n + 1 => by
    rw [CMIM.rounds_succ]
    exact CMIM.round_induction O a (n + 1) (fun _ t => TraceInv O a t) _
      (CMIM.TraceInv_rounds O a out n)
      (fun j t hj ht _ => CMIM.TraceInv_whileBody O a (n + 1) j t ht hj)
      (fun j t _ ht _ _ => ht)
      (fun j t _ ht _ _ => ht)

/-- C9: for every feature `j`, round 0 initialises `classMI[j]` to the mutual information of
feature `j` with the class; every later write to `classMI[j]` replaces a value `old` by a
value `new` with `old > new`; the values taken by `classMI[j]` decrease strictly with time
and the last of them is the final `classMI[j]`. -/
theorem WeightedCMIM_classMI_nonincreasing (O : Oracle) (a : Args) (out : Nat → Dbl) (j : Nat)
    (hj : (j : Int) < a.noOfFeatures) :
    (CMIM.round0 O a out).classMI j = CMIM.mi O a j ∧
    (∀ old new, Event.classMIWrite j old new ∈ (WeightedCMIM O a out).trace →
      Dbl.gt old new = true) ∧
    List.Chain' (fun newer older => Dbl.gt older newer = true)
      (CMIM.classMIHistory O a j (WeightedCMIM O a out).trace) ∧
    (CMIM.classMIHistory O a j (WeightedCMIM O a out).trace).head?
      = some ((WeightedCMIM O a out).classMI j) := by
  have hj' : j < a.noOfFeatures.toNat := by omega
  obtain ⟨h1, h2⟩ := CMIM.TraceInv_rounds O a out (a.k.toNat - 1)
  exact ⟨CMIM.round0_classMI O a out j hj', fun old new hmem => h2 j old new hmem,
    (h1 j hj').2, (h1 j hj').1⟩

/-- Witness of C9: feature 0 of the three-feature input; its `classMI` is initialised
to 2 and lowered to 1 in round 1. -/
theorem WeightedCMIM_classMI_nonincreasing_witness :
    (((0 : Nat) : Int) < (threeFeatures 2).noOfFeatures ∧
      Event.classMIWrite 0 (Dbl.fin 2) (Dbl.fin 1)
        ∈ (WeightedCMIM cellOracle (threeFeatures 2) (fun _ => Dbl.fin 0)).trace) ∧
    ((CMIM.round0 cellOracle (threeFeatures 2) (fun _ => Dbl.fin 0)).classMI 0
        = CMIM.mi cellOracle (threeFeatures 2) 0 ∧
      (∀ old new, Event.classMIWrite 0 old new
          ∈ (WeightedCMIM cellOracle (threeFeatures 2) (fun _ => Dbl.fin 0)).trace →
        Dbl.gt old new = true) ∧
      List.Chain' (fun newer older => Dbl.gt older newer = true)
        (CMIM.classMIHistory cellOracle (threeFeatures 2) 0
          (WeightedCMIM cellOracle (threeFeatures 2) (fun _ => Dbl.fin 0)).trace) ∧
      (CMIM.classMIHistory cellOracle (threeFeatures 2) 0
          (WeightedCMIM cellOracle (threeFeatures 2) (fun _ => Dbl.fin 0)).trace).head?
        = some ((WeightedCMIM cellOracle (threeFeatures 2) (fun _ => Dbl.fin 0)).classMI 0)) :=
  ⟨⟨by decide, by decide⟩,
    WeightedCMIM_classMI_nonincreasing cellOracle (threeFeatures 2) (fun _ => Dbl.fin 0) 0
      (by decide)⟩

/-! ## The rounds of WeightedDISR -/

theorem Dbl.eq_sentinel {v : Dbl} : Dbl.eq v (Dbl.fin (-1)) = true ↔ v = Dbl.fin (-1) := by
  cases v <;> simp [Dbl.eq]

theorem DISR.cellStep_featureMIMatrix (O : Oracle) (a : Args) (i j : Nat) (s : DISRState)
    (x : Nat) :
    (cellStep O a i j s x).featureMIMatrix =
      if Dbl.eq (s.featureMIMatrix (x * a.noOfFeatures.toNat + j)) (Dbl.fin (-1)) then
        Function.update s.featureMIMatrix (x * a.noOfFeatures.toNat + j)
          (relevance O a (Dbl.toInt (s.outputFeatures x)) j)
      else s.featureMIMatrix := by
  unfold cellStep
  simp only
  split_ifs <;> rfl

/-- The value that `cellStep` adds to `currentScore` is the relevance of the pair, computed
now or read from a cell that holds it. -/
theorem DISR.cellStep_currentScore (O : Oracle) (a : Args) (i j : Nat) (s : DISRState) (x : Nat)
    (h : s.featureMIMatrix (x * a.noOfFeatures.toNat + j) = Dbl.fin (-1) ∨
      s.featureMIMatrix (x * a.noOfFeatures.toNat + j)
        = relevance O a (Dbl.toInt (s.outputFeatures x)) j) :
    (cellStep O a i j s x).currentScore
      = Dbl.add s.currentScore (relevance O a (Dbl.toInt (s.outputFeatures x)) j) := by
  unfold cellStep
  simp only
  by_cases hc : Dbl.eq (s.featureMIMatrix (x * a.noOfFeatures.toNat + j)) (Dbl.fin (-1)) = true
  · rw [if_pos hc]
    simp only [Function.update_same]
  · rw [if_neg hc]
    rcases h with h | h
    · exact absurd (Dbl.eq_sentinel.mpr h) hc
    · simp only [h]

theorem DISR.cellStep_frame (O : Oracle) (a : Args) (i j : Nat) (s : DISRState) (x : Nat) :
    (cellStep O a i j s x).selectedFeatures = s.selectedFeatures ∧
    (cellStep O a i j s x).outputFeatures = s.outputFeatures ∧
    (cellStep O a i j s x).score = s.score ∧
    (cellStep O a i j s x).currentHighestFeature = s.currentHighestFeature := by
  unfold cellStep
  simp only
  split_ifs <;> exact ⟨rfl, rfl, rfl, rfl⟩

/-- Induction over the scan of one round: `P j` is what holds before feature `j` is
examined, `Q j x` what holds before the cell `(x, j)` is read. -/
theorem DISR.scan_induction (O : Oracle) (a : Args) (i : Nat) (P : Nat → DISRState → Prop)
    (Q : Nat → Nat → DISRState → Prop) (s : DISRState) (h0 : P 0 s)
    (hskip : ∀ j t, j < a.noOfFeatures.toNat → P j t → t.selectedFeatures j = true →
      P (j + 1) t)
    (henter : ∀ j t, j < a.noOfFeatures.toNat → P j t → t.selectedFeatures j = false →
      Q j 0 { t with currentScore := Dbl.fin 0 })
    (hcell : ∀ j x t, j < a.noOfFeatures.toNat → x < i → Q j x t →
      Q j (x + 1) (cellStep O a i j t x))
    (htake : ∀ j t, j < a.noOfFeatures.toNat → Q j i t →
      Dbl.gt t.currentScore t.score = true →
      P (j + 1) { t with score := t.currentScore, currentHighestFeature := j })
    (hkeep : ∀ j t, j < a.noOfFeatures.toNat → Q j i t →
      Dbl.gt t.currentScore t.score = false → P (j + 1) t) :
    P a.noOfFeatures.toNat ((List.range a.noOfFeatures.toNat).foldl (featureStep O a i) s) := by
  refine foldl_range_induction (featureStep O a i) P _ _ h0 ?_
  intro j t hj hP
  unfold featureStep
  by_cases hm : t.selectedFeatures j = false
  · rw [if_pos hm]
    have hQ : Q j i ((List.range i).foldl (cellStep O a i j) { t with currentScore := Dbl.fin 0 }) :=
      foldl_range_induction (cellStep O a i j) (Q j) i _ (henter j t hj hP hm)
        (fun x u hx hu => hcell j x u hj hx hu)
    simp only
    by_cases hg : Dbl.gt
        ((List.range i).foldl (cellStep O a i j) { t with currentScore := Dbl.fin 0 }).currentScore
        ((List.range i).foldl (cellStep O a i j) { t with currentScore := Dbl.fin 0 }).score = true
    · rw [if_pos hg]
      exact htake j _ hj hQ hg
    · rw [if_neg hg]
      exact hkeep j _ hj hQ (by simpa using hg)
  · rw [if_neg hm]
    exact hskip j t hj hP (by simpa using hm)

theorem DISR.rounds_succ_disr (O : Oracle) (a : Args) (out : Nat → Dbl) (n : Nat) :
    rounds O a out (n + 1) = round O a (rounds O a out n) (n + 1) := by
  unfold rounds
  rw [List.range'_1_concat, List.foldl_append]
  simp [Nat.add_comm]

/-- Cells of the relevance cache do not overlap. -/
theorem DISR.arrayPosition_injective {F x j x' j' : Nat} (hj : j < F) (hj' : j' < F)
    (h : x * F + j = x' * F + j') : x = x' ∧ j = j' := by
  have h1 : (x * F + j) / F = x := by
    rw [Nat.add_comm, Nat.add_mul_div_right _ _ (by omega), Nat.div_eq_of_lt hj, Nat.zero_add]
  have h2 : (x' * F + j') / F = x' := by
    rw [Nat.add_comm, Nat.add_mul_div_right _ _ (by omega), Nat.div_eq_of_lt hj', Nat.zero_add]
  have hx : x = x' := by rw [← h1, ← h2, h]
  subst hx
  exact ⟨rfl, by omega⟩

theorem DISR.summedRelevance_succ (O : Oracle) (a : Args) (out : Nat → Dbl) (i j : Nat) :
    summedRelevance O a out (i + 1) j
      = Dbl.add (summedRelevance O a out i j) (relevance O a (Dbl.toInt (out i)) j) := by
  unfold summedRelevance
  rw [List.range_succ, List.foldl_append]
  rfl

/-- The summed relevance of round `i` reads the output buffer below `i` only. -/
theorem DISR.summedRelevance_congr (O : Oracle) (a : Args) (out out' : Nat → Dbl) (j : Nat) :
    ∀ i, (∀ x, x < i → out x = out' x) →
      summedRelevance O a out i j = summedRelevance O a out' i j
  | 0, _ => rfl
  | i + 1, h => by
    rw [DISR.summedRelevance_succ, DISR.summedRelevance_succ, h i (Nat.lt_succ_self i),
      DISR.summedRelevance_congr O a out out' j i (fun x hx => h x (Nat.lt_succ_of_lt hx))]

theorem DISR.CacheInv_cellStep (O : Oracle) (a : Args) (i j : Nat) (s : DISRState) (x : Nat)
    (hj : j < a.noOfFeatures.toNat) (hx : x < i)
    (h : CacheInv O a s.outputFeatures i s.featureMIMatrix) :
    CacheInv O a s.outputFeatures i (cellStep O a i j s x).featureMIMatrix := by
  rw [DISR.cellStep_featureMIMatrix]
  by_cases hc : Dbl.eq (s.featureMIMatrix (x * a.noOfFeatures.toNat + j)) (Dbl.fin (-1)) = true
  · rw [if_pos hc]
    intro x' j' hj' hk
    by_cases e : x' * a.noOfFeatures.toNat + j' = x * a.noOfFeatures.toNat + j
    · obtain ⟨rfl, rfl⟩ := DISR.arrayPosition_injective hj' hj e
      right
      exact ⟨hx, Function.update_same _ _ _⟩
    · rw [Function.update_noteq e]
      exact h x' j' hj' hk
  · rw [if_neg hc]
    exact h

/-- The uncached round is an exact scan of the summed relevances of the features that are
not yet selected. -/
theorem DISR.uncachedRound_spec (O : Oracle) (a : Args) (out : Nat → Dbl) (i : Nat) :
    ∃ w, ScanSpec (notYetSelected out i) (summedRelevance O a out i) (Dbl.fin 0)
        a.noOfFeatures.toNat (uncachedRound O a out i).1 w ∧
      (uncachedRound O a out i).2 = w.getD 0 := by
  unfold uncachedRound
  refine foldl_range_induction _
    (fun (m : Nat) (p : Dbl × Nat) =>
      ∃ w, ScanSpec (notYetSelected out i) (summedRelevance O a out i) (Dbl.fin 0) m p.1 w ∧
        p.2 = w.getD 0)
    _ _ ⟨none, ScanSpec.init _ _ _, rfl⟩ ?_
  rintro j p _ ⟨w, hw, hp⟩
  by_cases hn : notYetSelected out i j
  · simp only [if_pos hn]
    by_cases hg : Dbl.gt (summedRelevance O a out i j) p.1 = true
    · simp only [if_pos hg]
      exact ⟨some j, hw.take hn hg, rfl⟩
    · simp only [if_neg hg]
      exact ⟨w, hw.keep (by simpa using hg), hp⟩
  · simp only [if_neg hn]
    exact ⟨w, hw.skip hn, hp⟩

/-- What the scan of round `i` does: the mask and the output buffer are left alone, the
cache stays consistent, and the final score and winner are those of an exact scan of the
summed relevances of the features that are not yet selected. -/
theorem DISR.scan_spec (O : Oracle) (a : Args) (i : Nat) (s : DISRState) (h : Inv O a i s)
    (hik : (i : Int) < a.k) (hs : s.score = Dbl.fin 0) (hc : s.currentHighestFeature = 0) :
    ((List.range a.noOfFeatures.toNat).foldl (featureStep O a i) s).selectedFeatures
      = s.selectedFeatures ∧
    ((List.range a.noOfFeatures.toNat).foldl (featureStep O a i) s).outputFeatures
      = s.outputFeatures ∧
    CacheInv O a s.outputFeatures i
      ((List.range a.noOfFeatures.toNat).foldl (featureStep O a i) s).featureMIMatrix ∧
    ∃ w, ScanSpec (notYetSelected s.outputFeatures i) (summedRelevance O a s.outputFeatures i)
        (Dbl.fin 0) a.noOfFeatures.toNat
        ((List.range a.noOfFeatures.toNat).foldl (featureStep O a i) s).score w ∧
      ((List.range a.noOfFeatures.toNat).foldl (featureStep O a i) s).currentHighestFeature
        = w.getD 0 := by
  have hmask : ∀ j, s.selectedFeatures j = false ↔ notYetSelected s.outputFeatures i j := by
    intro j
    have := h.1 j
    unfold notYetSelected
    constructor
    · intro hf x hx he
      have := this.mpr ⟨x, hx, he⟩
      rw [hf] at this
      exact Bool.false_ne_true this
    · intro hn
      cases hm : s.selectedFeatures j with
      | false => rfl
      | true =>
        obtain ⟨x, hx, he⟩ := this.mp hm
        exact absurd he (hn x hx)
  refine DISR.scan_induction O a i
    (fun j t => t.selectedFeatures = s.selectedFeatures ∧ t.outputFeatures = s.outputFeatures ∧
      CacheInv O a s.outputFeatures i t.featureMIMatrix ∧
      ∃ w, ScanSpec (notYetSelected s.outputFeatures i) (summedRelevance O a s.outputFeatures i)
          (Dbl.fin 0) j t.score w ∧ t.currentHighestFeature = w.getD 0)
    (fun j x t => t.selectedFeatures = s.selectedFeatures ∧ t.outputFeatures = s.outputFeatures ∧
      CacheInv O a s.outputFeatures i t.featureMIMatrix ∧
      (∃ w, ScanSpec (notYetSelected s.outputFeatures i) (summedRelevance O a s.outputFeatures i)
          (Dbl.fin 0) j t.score w ∧ t.currentHighestFeature = w.getD 0) ∧
      notYetSelected s.outputFeatures i j ∧
      t.currentScore = summedRelevance O a s.outputFeatures x j)
    s ?_ ?_ ?_ ?_ ?_ ?_
  · exact ⟨rfl, rfl, h.2, none, by rw [hs]; exact ScanSpec.init _ _ _, hc⟩
  · rintro j t _ ⟨h1, h2, h3, w, hw, hch⟩ hm
    refine ⟨h1, h2, h3, w, hw.skip ?_, hch⟩
    intro hn
    rw [h1, (hmask j).mpr hn] at hm
    exact Bool.false_ne_true hm
  · rintro j t _ ⟨h1, h2, h3, hw⟩ hm
    refine ⟨h1, h2, h3, hw, ?_, rfl⟩
    rw [h1] at hm
    exact (hmask j).mp hm
  · rintro j x t hj hx ⟨h1, h2, h3, hw, hn, hcs⟩
    obtain ⟨f1, f2, f3, f4⟩ := DISR.cellStep_frame O a i j t x
    have h3' : CacheInv O a t.outputFeatures i t.featureMIMatrix := by rw [h2]; exact h3
    refine ⟨f1.trans h1, f2.trans h2, ?_, ?_, hn, ?_⟩
    · have := DISR.CacheInv_cellStep O a i j t x hj hx h3'
      rw [h2] at this
      exact this
    · rw [f3, f4]; exact hw
    · have hcell : t.featureMIMatrix (x * a.noOfFeatures.toNat + j) = Dbl.fin (-1) ∨
          t.featureMIMatrix (x * a.noOfFeatures.toNat + j)
            = relevance O a (Dbl.toInt (t.outputFeatures x)) j := by
        rcases h3' x j hj (by omega) with h5 | h5
        · exact Or.inl h5
        · exact Or.inr h5.2
      rw [DISR.cellStep_currentScore O a i j t x hcell, hcs, DISR.summedRelevance_succ, h2]
  · rintro j t _ ⟨h1, h2, h3, ⟨w, hw, _⟩, hn, hcs⟩ hg
    refine ⟨h1, h2, h3, some j, ?_, rfl⟩
    show ScanSpec _ _ _ (j + 1) t.currentScore (some j)
    rw [hcs]
    exact hw.take hn (by rw [← hcs]; exact hg)
  · rintro j t _ ⟨h1, h2, h3, ⟨w, hw, hch⟩, _, hcs⟩ hg
    exact ⟨h1, h2, h3, w, hw.keep (by rw [← hcs]; exact hg), hch⟩

theorem DISR.init_blank (a : Args) (out : Nat → Dbl) (x j : Nat)
    (hj : j < a.noOfFeatures.toNat) (hx : (x : Int) < a.k) :
    (init a out).featureMIMatrix (x * a.noOfFeatures.toNat + j) = Dbl.fin (-1) := by
  have hF : ((a.noOfFeatures.toNat : Nat) : Int) = a.noOfFeatures := by omega
  have h1 : ((x : Int) + 1) * a.noOfFeatures ≤ a.k * a.noOfFeatures :=
    Int.mul_le_mul_of_nonneg_right (by omega) (by omega)
  have h2 : ((x * a.noOfFeatures.toNat + j : Nat) : Int) < a.k * a.noOfFeatures := by
    push_cast
    rw [hF]
    have : (j : Int) < a.noOfFeatures := by omega
    linarith
  unfold init
  simp only
  rw [if_pos h2]

theorem setAt_true_iff (mask : Nat → Bool) (c : Int) (j : Nat) (h : mask j = false) :
    setAt mask c true j = true ↔ c = (j : Int) := by
  unfold setAt
  by_cases hc : 0 ≤ c
  · rw [if_pos hc]
    by_cases e : j = c.toNat
    · rw [e, Function.update_same]
      constructor
      · intro _; omega
      · intro _; rfl
    · rw [Function.update_noteq e, h]
      constructor
      · intro hf; exact absurd hf Bool.false_ne_true
      · intro hf; omega
  · rw [if_neg hc, h]
    constructor
    · intro hf; exact absurd hf Bool.false_ne_true
    · intro hf; omega

theorem DISR.round0_fields (O : Oracle) (a : Args) (out : Nat → Dbl) :
    ∃ c : Int, (round0 O a out).selectedFeatures = setAt (fun _ => false) c true ∧
      (round0 O a out).outputFeatures = Function.update out 0 (Dbl.ofInt c) ∧
      (round0 O a out).featureMIMatrix = (init a out).featureMIMatrix := by
  obtain ⟨_, h2, h3, h4⟩ := DISR.fill_spec_disr O a out a.noOfFeatures.toNat
  refine ⟨((List.range a.noOfFeatures.toNat).foldl (fillStep O a) (init a out)).maxMICounter,
    ?_, ?_, ?_⟩
  · unfold round0; simp only [h2]
  · unfold round0; simp only [h4]
  · unfold round0; simp only [h3]

theorem DISR.Inv_round0_disr (O : Oracle) (a : Args) (out : Nat → Dbl) :
    Inv O a 1 (round0 O a out) := by
  obtain ⟨c, h1, h2, h3⟩ := DISR.round0_fields O a out
  refine ⟨fun j => ?_, fun x j hj hx => ?_⟩
  · rw [h1, h2, setAt_true_iff _ c j rfl]
    constructor
    · intro hc
      exact ⟨0, Nat.lt_succ_self 0, by rw [Function.update_same, hc]⟩
    · rintro ⟨x, hx, he⟩
      have hx0 : x = 0 := by omega
      subst hx0
      rw [Function.update_same] at he
      exact Dbl.ofInt_injective he
  · left
    rw [h3]
    exact DISR.init_blank a out x j hj hx

theorem DISR.scan_spec_round (O : Oracle) (a : Args) (i : Nat) (s : DISRState)
    (h : Inv O a i s) (hik : (i : Int) < a.k) :
    (scan O a s i).selectedFeatures = s.selectedFeatures ∧
    (scan O a s i).outputFeatures = s.outputFeatures ∧
    CacheInv O a s.outputFeatures i (scan O a s i).featureMIMatrix ∧
    ∃ w, ScanSpec (notYetSelected s.outputFeatures i) (summedRelevance O a s.outputFeatures i)
        (Dbl.fin 0) a.noOfFeatures.toNat (scan O a s i).score w ∧
      (scan O a s i).currentHighestFeature = w.getD 0 :=
  DISR.scan_spec O a i
    { s with score := Dbl.fin 0, currentHighestFeature := 0, currentScore := Dbl.fin 0 }
    h hik rfl rfl

theorem DISR.round_fields (O : Oracle) (a : Args) (i : Nat) (s : DISRState) :
    (round O a s i).selectedFeatures
      = Function.update (scan O a s i).selectedFeatures (scan O a s i).currentHighestFeature true ∧
    (round O a s i).outputFeatures
      = Function.update (scan O a s i).outputFeatures i
          (Dbl.ofInt (scan O a s i).currentHighestFeature) ∧
    (round O a s i).featureMIMatrix = (scan O a s i).featureMIMatrix ∧
    (round O a s i).score = (scan O a s i).score ∧
    (round O a s i).trace = (scan O a s i).trace :=
  ⟨rfl, rfl, rfl, rfl, rfl⟩

/-- What one round does: the invariant moves on to `i + 1`, only `outputFeatures[i]` changes,
and the slot `i` receives the winner of an exact scan of the summed relevances of the
features that are not yet selected, 0 if there is none. -/
theorem DISR.round_spec_disr (O : Oracle) (a : Args) (i : Nat) (s : DISRState) (h : Inv O a i s)
    (hik : (i : Int) < a.k) :
    Inv O a (i + 1) (round O a s i) ∧
    (∀ x, x ≠ i → (round O a s i).outputFeatures x = s.outputFeatures x) ∧
    ∃ w, ScanSpec (notYetSelected s.outputFeatures i) (summedRelevance O a s.outputFeatures i)
        (Dbl.fin 0) a.noOfFeatures.toNat (round O a s i).score w ∧
      (round O a s i).outputFeatures i = Dbl.ofInt ((w.getD 0 : Nat) : Int) := by
  obtain ⟨h1, h2, h3, w, hw, hch⟩ := DISR.scan_spec_round O a i s h hik
  obtain ⟨r1, r2, r3, r4, _⟩ := DISR.round_fields O a i s
  rw [h1, hch] at r1
  rw [h2, hch] at r2
  refine ⟨⟨fun j => ?_, fun x j hj hx => ?_⟩, fun x hx => ?_, w, ?_, ?_⟩
  · rw [r1, r2]
    constructor
    · intro hm
      by_cases e : j = w.getD 0
      · exact ⟨i, Nat.lt_succ_self i, by rw [Function.update_same, e]⟩
      · rw [Function.update_noteq e] at hm
        obtain ⟨x, hx, he⟩ := (h.1 j).mp hm
        exact ⟨x, Nat.lt_succ_of_lt hx, by rw [Function.update_noteq (Nat.ne_of_lt hx)]; exact he⟩
    · rintro ⟨x, hx, he⟩
      by_cases e : x = i
      · subst e
        rw [Function.update_same] at he
        have := Dbl.ofInt_injective he
        have e2 : j = w.getD 0 := by omega
        rw [e2, Function.update_same]
      · rw [Function.update_noteq e] at he
        have hm := (h.1 j).mpr ⟨x, by omega, he⟩
        by_cases e2 : j = w.getD 0
        · rw [e2, Function.update_same]
        · rw [Function.update_noteq e2]; exact hm
  · rw [r2, r3]
    rcases h3 x j hj hx with h5 | h5
    · exact Or.inl h5
    · right
      refine ⟨Nat.lt_succ_of_lt h5.1, ?_⟩
      rw [Function.update_noteq (Nat.ne_of_lt h5.1)]
      exact h5.2
  · rw [r2, Function.update_noteq hx]
  · rw [r4]; exact hw
  · rw [r2, Function.update_same]

theorem DISR.Inv_rounds_disr (O : Oracle) (a : Args) (out : Nat → Dbl) :
    ∀ n, n ≤ a.k.toNat - 1 → Inv O a (n + 1) (rounds O a out n)
  | 0, _ => DISR.Inv_round0_disr O a out
  | n + 1, hn => by
    rw [DISR.rounds_succ_disr]
    exact (DISR.round_spec_disr O a (n + 1) _ (DISR.Inv_rounds_disr O a out n (by omega)) (by omega)).1

/-- The scan of a round does not write to the output buffer. -/
theorem DISR.scan_outputFeatures (O : Oracle) (a : Args) (i : Nat) (s : DISRState) :
    (scan O a s i).outputFeatures = s.outputFeatures := by
  unfold scan
  refine DISR.scan_induction O a i (fun _ u => u.outputFeatures = s.outputFeatures)
    (fun _ _ u => u.outputFeatures = s.outputFeatures) _ rfl ?_ ?_ ?_ ?_ ?_
  · intro j u _ hu _; exact hu
  · intro j u _ hu _; exact hu
  · intro j y u _ _ hu; rw [(DISR.cellStep_frame O a i j u y).2.1]; exact hu
  · intro j u _ hu _; exact hu
  · intro j u _ hu _; exact hu

/-- A round leaves the slots of the other rounds alone. -/
theorem DISR.round_outputFeatures (O : Oracle) (a : Args) (i : Nat) (s : DISRState) (x : Nat)
    (hx : x ≠ i) : (round O a s i).outputFeatures x = s.outputFeatures x := by
  rw [(DISR.round_fields O a i s).2.1, Function.update_noteq hx, DISR.scan_outputFeatures]

theorem DISR.rounds_stable_disr (O : Oracle) (a : Args) (out : Nat → Dbl) (n x : Nat) (hx : x ≤ n) :
    ∀ d, (rounds O a out (n + d)).outputFeatures x = (rounds O a out n).outputFeatures x
  | 0 => rfl
  | d + 1 => by
    have e : n + (d + 1) = (n + d) + 1 := by omega
    rw [e, DISR.rounds_succ_disr, DISR.round_outputFeatures O a _ _ x (by omega)]
    exact DISR.rounds_stable_disr O a out n x hx d

/-- Round `i` of `WeightedDISR`, read on the final output buffer. -/
theorem DISR.final_round_spec_disr (O : Oracle) (a : Args) (out : Nat → Dbl) (i : Nat)
    (hi : 1 ≤ i) (hik : (i : Int) < a.k) :
    ∃ sc w, ScanSpec (notYetSelected (WeightedDISR O a out).outputFeatures i)
        (summedRelevance O a (WeightedDISR O a out).outputFeatures i)
        (Dbl.fin 0) a.noOfFeatures.toNat sc w ∧
      (WeightedDISR O a out).outputFeatures i = Dbl.ofInt ((w.getD 0 : Nat) : Int) := by
  obtain ⟨n, rfl⟩ : ∃ n, i = n + 1 := ⟨i - 1, by omega⟩
  obtain ⟨d, hd⟩ : ∃ d, a.k.toNat - 1 = (n + 1) + d := ⟨a.k.toNat - 1 - (n + 1), by omega⟩
  have hfin : ∀ x, x ≤ n + 1 →
      (WeightedDISR O a out).outputFeatures x = (rounds O a out (n + 1)).outputFeatures x := by
    intro x hx
    unfold WeightedDISR
    rw [hd]
    exact DISR.rounds_stable_disr O a out (n + 1) x hx d
  obtain ⟨_, hF, w, hS, hW⟩ := DISR.round_spec_disr O a (n + 1) _
    (DISR.Inv_rounds_disr O a out n (by omega)) hik
  rw [← DISR.rounds_succ_disr] at hF hS hW
  have hlow : ∀ x, x < n + 1 →
      (WeightedDISR O a out).outputFeatures x = (rounds O a out n).outputFeatures x := by
    intro x hx
    rw [hfin x (by omega), hF x (by omega)]
  have he : summedRelevance O a (WeightedDISR O a out).outputFeatures (n + 1)
      = summedRelevance O a (rounds O a out n).outputFeatures (n + 1) :=
    funext fun j => DISR.summedRelevance_congr O a _ _ j (n + 1) hlow
  have hc : notYetSelected (WeightedDISR O a out).outputFeatures (n + 1)
      = notYetSelected (rounds O a out n).outputFeatures (n + 1) := by
    funext j
    unfold notYetSelected
    exact propext ⟨fun h x hx => by rw [← hlow x hx]; exact h x hx,
      fun h x hx => by rw [hlow x hx]; exact h x hx⟩
  refine ⟨(rounds O a out (n + 1)).score, w, ?_, ?_⟩
  · rw [he, hc]; exact hS
  · rw [hfin _ (Nat.le_refl _)]; exact hW

/-- C6: in every round `i` with `1 ≤ i < k` in which some feature that is not yet selected
has a summed relevance `S_i(j) > 0`, every term of the sum computed from scratch, the cached
selector `WeightedDISR` leaves in `outputFeatures[i]` the winner of the uncached round: a
feature `w` that is not yet selected, with `S_i(w) > 0`, that no such feature exceeds and
that no such feature of lower index equals. -/
theorem WeightedDISR_refines_uncached (O : Oracle) (a : Args) (out : Nat → Dbl) (i : Nat)
    (hi : 1 ≤ i) (hik : (i : Int) < a.k)
    (hpos : ∃ j : Nat, (j : Int) < a.noOfFeatures ∧
      DISR.notYetSelected (WeightedDISR O a out).outputFeatures i j ∧
      Dbl.gt (DISR.summedRelevance O a (WeightedDISR O a out).outputFeatures i j) (Dbl.fin 0)
        = true) :
    ∃ w : Nat, (w : Int) < a.noOfFeatures ∧
      (WeightedDISR O a out).outputFeatures i = Dbl.ofInt w ∧
      (DISR.uncachedRound O a (WeightedDISR O a out).outputFeatures i).2 = w ∧
      DISR.notYetSelected (WeightedDISR O a out).outputFeatures i w ∧
      Dbl.gt (DISR.summedRelevance O a (WeightedDISR O a out).outputFeatures i w) (Dbl.fin 0)
        = true ∧
      (∀ j : Nat, (j : Int) < a.noOfFeatures →
        DISR.notYetSelected (WeightedDISR O a out).outputFeatures i j →
        Dbl.gt (DISR.summedRelevance O a (WeightedDISR O a out).outputFeatures i j)
          (DISR.summedRelevance O a (WeightedDISR O a out).outputFeatures i w) = false) ∧
      (∀ j : Nat, j < w →
        DISR.notYetSelected (WeightedDISR O a out).outputFeatures i j →
        DISR.summedRelevance O a (WeightedDISR O a out).outputFeatures i j
          ≠ DISR.summedRelevance O a (WeightedDISR O a out).outputFeatures i w) := by
  obtain ⟨sc, w, hS, hW⟩ := DISR.final_round_spec_disr O a out i hi hik
  obtain ⟨j, hj, hjn, hjpos⟩ := hpos
  cases w with
  | none =>
    exfalso
    have := hS.2 j (by omega) hjn
    rw [hjpos] at this
    exact Bool.false_ne_true this.symm
  | some w =>
    obtain ⟨u, hu, hu2⟩ := DISR.uncachedRound_spec O a (WeightedDISR O a out).outputFeatures i
    have hn := (ScanSpec.unique hu hS).1
    subst hn
    obtain ⟨hw, hcw, _, hb, hmax, hlow⟩ := hS
    exact ⟨w, by omega, hW, hu2, hcw, hb, fun j hj hjn => hmax j (by omega) hjn,
      fun j hj hjn => hlow j hj hjn⟩

/-- Witness of C6: three features, `k = 2`; round 0 selects feature 1 and round 1 selects
feature 0. -/
theorem WeightedDISR_refines_uncached_witness :
    (1 ≤ 1 ∧ ((1 : Nat) : Int) < (threeFeatures 2).k ∧
      ∃ j : Nat, (j : Int) < (threeFeatures 2).noOfFeatures ∧
        DISR.notYetSelected
          (WeightedDISR cellOracle (threeFeatures 2) (fun _ => Dbl.fin 0)).outputFeatures 1 j ∧
        Dbl.gt (DISR.summedRelevance cellOracle (threeFeatures 2)
          (WeightedDISR cellOracle (threeFeatures 2) (fun _ => Dbl.fin 0)).outputFeatures 1 j)
          (Dbl.fin 0) = true) ∧
    ∃ w : Nat, (w : Int) < (threeFeatures 2).noOfFeatures ∧
      (WeightedDISR cellOracle (threeFeatures 2) (fun _ => Dbl.fin 0)).outputFeatures 1
        = Dbl.ofInt w ∧
      (DISR.uncachedRound cellOracle (threeFeatures 2)
        (WeightedDISR cellOracle (threeFeatures 2) (fun _ => Dbl.fin 0)).outputFeatures 1).2
        = w ∧
      DISR.notYetSelected
        (WeightedDISR cellOracle (threeFeatures 2) (fun _ => Dbl.fin 0)).outputFeatures 1 w ∧
      Dbl.gt (DISR.summedRelevance cellOracle (threeFeatures 2)
        (WeightedDISR cellOracle (threeFeatures 2) (fun _ => Dbl.fin 0)).outputFeatures 1 w)
        (Dbl.fin 0) = true ∧
      (∀ j : Nat, (j : Int) < (threeFeatures 2).noOfFeatures →
        DISR.notYetSelected
          (WeightedDISR cellOracle (threeFeatures 2) (fun _ => Dbl.fin 0)).outputFeatures 1 j →
        Dbl.gt (DISR.summedRelevance cellOracle (threeFeatures 2)
            (WeightedDISR cellOracle (threeFeatures 2) (fun _ => Dbl.fin 0)).outputFeatures 1 j)
          (DISR.summedRelevance cellOracle (threeFeatures 2)
            (WeightedDISR cellOracle (threeFeatures 2) (fun _ => Dbl.fin 0)).outputFeatures 1 w)
          = false) ∧
      (∀ j : Nat, j < w →
        DISR.notYetSelected
          (WeightedDISR cellOracle (threeFeatures 2) (fun _ => Dbl.fin 0)).outputFeatures 1 j →
        DISR.summedRelevance cellOracle (threeFeatures 2)
            (WeightedDISR cellOracle (threeFeatures 2) (fun _ => Dbl.fin 0)).outputFeatures 1 j
          ≠ DISR.summedRelevance cellOracle (threeFeatures 2)
            (WeightedDISR cellOracle (threeFeatures 2) (fun _ => Dbl.fin 0)).outputFeatures 1 w) :=
  have hpos : ∃ j : Nat, (j : Int) < (threeFeatures 2).noOfFeatures ∧
      DISR.notYetSelected
        (WeightedDISR cellOracle (threeFeatures 2) (fun _ => Dbl.fin 0)).outputFeatures 1 j ∧
      Dbl.gt (DISR.summedRelevance cellOracle (threeFeatures 2)
        (WeightedDISR cellOracle (threeFeatures 2) (fun _ => Dbl.fin 0)).outputFeatures 1 j)
        (Dbl.fin 0) = true :=
    ⟨0, by decide, by with_unfolding_all decide, by with_unfolding_all decide⟩
  ⟨⟨Nat.le_refl 1, by decide, hpos⟩,
    WeightedDISR_refines_uncached cellOracle (threeFeatures 2) (fun _ => Dbl.fin 0) 1
      (Nat.le_refl 1) (by decide) hpos⟩

/-! ## WeightedDISR does not read the caller's buffer -/

theorem DISR.fillStep_withOut (O : Oracle) (a : Args) (s : DISRState) (o : Nat → Dbl) (i : Nat) :
    fillStep O a (withOut s o) i = withOut (fillStep O a s i) o := by
  unfold fillStep withOut
  simp only
  split_ifs <;> rfl

theorem DISR.fill_withOut (O : Oracle) (a : Args) (o : Nat → Dbl) :
    ∀ (l : List Nat) (s : DISRState),
      l.foldl (fillStep O a) (withOut s o) = withOut (l.foldl (fillStep O a) s) o
  | [], _ => rfl
  | i :: l, s => by
    rw [List.foldl_cons, List.foldl_cons, DISR.fillStep_withOut]
    exact DISR.fill_withOut O a o l _

theorem DISR.Sim_round0 (O : Oracle) (a : Args) (out out' : Nat → Dbl) :
    Sim 1 (round0 O a out) (round0 O a out') := by
  have h : (List.range a.noOfFeatures.toNat).foldl (fillStep O a) (init a out')
      = withOut ((List.range a.noOfFeatures.toNat).foldl (fillStep O a) (init a out)) out' :=
    DISR.fill_withOut O a out' _ (init a out)
  refine ⟨(round0 O a out').outputFeatures, ?_, fun x hx => ?_⟩
  · unfold round0
    rw [h]
    rfl
  · have hx0 : x = 0 := by omega
    subst hx0
    unfold round0
    rw [h]
    simp only [withOut, Function.update_same]

theorem DISR.cellStep_withOut (O : Oracle) (a : Args) (i j : Nat) (s : DISRState)
    (o : Nat → Dbl) (x : Nat) (h : s.outputFeatures x = o x) :
    cellStep O a i j (withOut s o) x = withOut (cellStep O a i j s x) o := by
  unfold cellStep withOut
  simp only
  rw [h]
  split_ifs <;> rfl

theorem DISR.cells_withOut (O : Oracle) (a : Args) (i j : Nat) (o : Nat → Dbl) :
    ∀ (l : List Nat) (s : DISRState), (∀ x, x ∈ l → s.outputFeatures x = o x) →
      l.foldl (cellStep O a i j) (withOut s o) = withOut (l.foldl (cellStep O a i j) s) o
  | [], _, _ => rfl
  | x :: l, s, h => by
    rw [List.foldl_cons, List.foldl_cons,
      DISR.cellStep_withOut O a i j s o x (h x (List.mem_cons_self _ _))]
    apply DISR.cells_withOut O a i j o l
    intro y hy
    rw [(DISR.cellStep_frame O a i j s x).2.1]
    exact h y (List.mem_cons_of_mem _ hy)

theorem DISR.featureStep_outputFeatures (O : Oracle) (a : Args) (i : Nat) (s : DISRState)
    (j : Nat) : (featureStep O a i s j).outputFeatures = s.outputFeatures := by
  have e : ∀ (l : List Nat) (t : DISRState),
      (l.foldl (cellStep O a i j) t).outputFeatures = t.outputFeatures := by
    intro l
    induction l with
    | nil => intro t; rfl
    | cons x l ih =>
      intro t
      rw [List.foldl_cons, ih, (DISR.cellStep_frame O a i j t x).2.1]
  unfold featureStep
  simp only
  split_ifs
  · exact e _ _
  · exact e _ _
  · rfl

theorem DISR.featureStep_withOut (O : Oracle) (a : Args) (i : Nat) (s : DISRState)
    (o : Nat → Dbl) (j : Nat) (h : ∀ x, x < i → s.outputFeatures x = o x) :
    featureStep O a i (withOut s o) j = withOut (featureStep O a i s j) o := by
  have e := DISR.cells_withOut O a i j o (List.range i) { s with currentScore := Dbl.fin 0 }
    (fun x hx => h x (List.mem_range.mp hx))
  unfold featureStep
  by_cases hm : s.selectedFeatures j = false
  · have hm' : (withOut s o).selectedFeatures j = false := hm
    rw [if_pos hm, if_pos hm']
    have e' : (List.range i).foldl (cellStep O a i j)
        { withOut s o with currentScore := Dbl.fin 0 }
        = withOut ((List.range i).foldl (cellStep O a i j) { s with currentScore := Dbl.fin 0 }) o :=
      e
    simp only [e']
    unfold withOut
    simp only
    split_ifs <;> rfl
  · have hm' : ¬ (withOut s o).selectedFeatures j = false := hm
    rw [if_neg hm, if_neg hm']

theorem DISR.features_withOut (O : Oracle) (a : Args) (i : Nat) (o : Nat → Dbl) :
    ∀ (l : List Nat) (s : DISRState), (∀ x, x < i → s.outputFeatures x = o x) →
      l.foldl (featureStep O a i) (withOut s o) = withOut (l.foldl (featureStep O a i) s) o
  | [], _, _ => rfl
  | j :: l, s, h => by
    rw [List.foldl_cons, List.foldl_cons, DISR.featureStep_withOut O a i s o j h]
    apply DISR.features_withOut O a i o l
    intro x hx
    rw [DISR.featureStep_outputFeatures]
    exact h x hx

theorem DISR.Sim_round (O : Oracle) (a : Args) (i : Nat) (s t : DISRState) (h : Sim i s t) :
    Sim (i + 1) (round O a s i) (round O a t i) := by
  obtain ⟨o, rfl, ho⟩ := h
  have e : scan O a (withOut s o) i = withOut (scan O a s i) o :=
    DISR.features_withOut O a i o _
      { s with score := Dbl.fin 0, currentHighestFeature := 0, currentScore := Dbl.fin 0 } ho
  refine ⟨Function.update o i (Dbl.ofInt (scan O a s i).currentHighestFeature), ?_,
    fun x hx => ?_⟩
  · unfold round
    simp only [e]
    rfl
  · rw [(DISR.round_fields O a i s).2.1, DISR.scan_outputFeatures]
    by_cases hxi : x = i
    · subst hxi
      rw [Function.update_same, Function.update_same]
    · rw [Function.update_noteq hxi, Function.update_noteq hxi]
      exact ho x (by omega)

theorem DISR.Sim_rounds (O : Oracle) (a : Args) (out out' : Nat → Dbl) :
    ∀ n, Sim (n + 1) (rounds O a out n) (rounds O a out' n)
  | 0 => DISR.Sim_round0 O a out out'
  | n + 1 => by
    rw [DISR.rounds_succ_disr, DISR.rounds_succ_disr]
    exact DISR.Sim_round O a (n + 1) _ _ (DISR.Sim_rounds O a out out' n)

/-- C8: for `k ≥ 1` and at least one feature, two calls of `WeightedDISR` with the same
arguments leave the same values in `outputFeatures[0..k)`, whatever the two output buffers
held before the calls. -/
theorem WeightedDISR_output_independent_of_buffer (O : Oracle) (a : Args)
    (out out' : Nat → Dbl) (hk : 1 ≤ a.k) (_hF : 1 ≤ a.noOfFeatures) (i : Nat)
    (hi : (i : Int) < a.k) :
    (WeightedDISR O a out).outputFeatures i = (WeightedDISR O a out').outputFeatures i := by
  obtain ⟨o, ho, hsame⟩ := DISR.Sim_rounds O a out out' (a.k.toNat - 1)
  unfold WeightedDISR
  rw [ho]
  exact hsame i (by omega)

/-- Witness of C8: the three-feature input with `k = 2`, called on two different buffers. -/
theorem WeightedDISR_output_independent_of_buffer_witness :
    (1 ≤ (threeFeatures 2).k ∧ 1 ≤ (threeFeatures 2).noOfFeatures ∧
      ((1 : Nat) : Int) < (threeFeatures 2).k) ∧
    (WeightedDISR cellOracle (threeFeatures 2) (fun _ => Dbl.fin 5)).outputFeatures 1
      = (WeightedDISR cellOracle (threeFeatures 2) (fun _ => Dbl.fin 7)).outputFeatures 1 :=
  ⟨⟨by decide, by decide, by decide⟩,
    WeightedDISR_output_independent_of_buffer cellOracle (threeFeatures 2)
      (fun _ => Dbl.fin 5) (fun _ => Dbl.fin 7) (by decide) (by decide) 1 (by decide)⟩

/-! ## The relevance cache is filled once -/

theorem DISR.fillStep_trace_disr (O : Oracle) (a : Args) (s : DISRState) (i : Nat) :
    (fillStep O a s i).trace = Event.mutualInformation i :: s.trace := by
  unfold fillStep
  simp only
  split_ifs <;> rfl

/-- Round 0 records evaluations of the mutual information only. -/
theorem DISR.round0_trace_disr (O : Oracle) (a : Args) (out : Nat → Dbl) :
    ∀ e, e ∈ (round0 O a out).trace → ∃ j, e = Event.mutualInformation j := by
  unfold round0
  simp only
  refine foldl_range_induction (fillStep O a)
    (fun _ s => ∀ e, e ∈ s.trace → ∃ j, e = Event.mutualInformation j) _ _ ?_ ?_
  · intro e he
    simp [init] at he
  · intro i t _ ht e he
    rw [DISR.fillStep_trace_disr, List.mem_cons] at he
    rcases he with h | h
    · exact ⟨i, h⟩
    · exact ht e h

theorem DISR.evaluatedCells_of_fill :
    ∀ (tr : List Event), (∀ e, e ∈ tr → ∃ j, e = Event.mutualInformation j) →
      evaluatedCells tr = []
  | [], _ => rfl
  | e :: t, h => by
    obtain ⟨j, rfl⟩ := h e (List.mem_cons_self _ _)
    unfold evaluatedCells
    exact DISR.evaluatedCells_of_fill t (fun e he => h e (List.mem_cons_of_mem _ he))

theorem DISR.TraceInv_round0_disr (O : Oracle) (a : Args) (out : Nat → Dbl) :
    TraceInv a 0 (round0 O a out) := by
  have htr := DISR.round0_trace_disr O a out
  have hc := DISR.evaluatedCells_of_fill _ htr
  refine ⟨fun x j hm => ?_, ?_, fun p old new hm => ?_⟩
  · rw [hc] at hm
    exact absurd hm (List.not_mem_nil _)
  · rw [hc]
    exact List.nodup_nil
  · obtain ⟨j, hj⟩ := htr _ hm
    cases hj

theorem DISR.TraceInv_mono (a : Args) (n n' : Nat) (s : DISRState) (h : TraceInv a n s)
    (hn : n ≤ n') : TraceInv a n' s :=
  ⟨fun x j hm => ⟨Nat.lt_of_lt_of_le (h.1 x j hm).1 hn, (h.1 x j hm).2⟩, h.2⟩

theorem DISR.relevance_ne_sentinel (O : Oracle) (a : Args)
    (hmi : ∀ m l w n, Dbl.ge (O.calcWeightedMutualInformation m l w n) (Dbl.fin 0) = true)
    (hje : ∀ m l w n, Dbl.ge (O.calcWeightedJointEntropy m l w n) (Dbl.fin 0) = true)
    (selected : Int) (j : Nat) :
    Dbl.eq (relevance O a selected j) (Dbl.fin (-1)) = false :=
  Dbl.div_ne_sentinel (hmi _ _ _ _) (hje _ _ _ _)

theorem DISR.cellStep_trace (O : Oracle) (a : Args) (i j : Nat) (s : DISRState) (x : Nat) :
    (cellStep O a i j s x).trace =
      if Dbl.eq (s.featureMIMatrix (x * a.noOfFeatures.toNat + j)) (Dbl.fin (-1)) then
        Event.cacheWrite (x * a.noOfFeatures.toNat + j)
            (s.featureMIMatrix (x * a.noOfFeatures.toNat + j))
            (relevance O a (Dbl.toInt (s.outputFeatures x)) j)
          :: Event.relevance i x j (Dbl.toInt (s.outputFeatures x)) :: s.trace
      else s.trace := by
  unfold cellStep
  simp only
  split_ifs <;> rfl

theorem DISR.TraceInv_cellStep (O : Oracle) (a : Args)
    (hmi : ∀ m l w n, Dbl.ge (O.calcWeightedMutualInformation m l w n) (Dbl.fin 0) = true)
    (hje : ∀ m l w n, Dbl.ge (O.calcWeightedJointEntropy m l w n) (Dbl.fin 0) = true)
    (i j : Nat) (s : DISRState) (x : Nat) (hj : j < a.noOfFeatures.toNat) (hx : x < i)
    (h : TraceInv a i s) : TraceInv a i (cellStep O a i j s x) := by
  obtain ⟨h1, h2, h3⟩ := h
  unfold TraceInv
  rw [DISR.cellStep_featureMIMatrix, DISR.cellStep_trace]
  by_cases hc : Dbl.eq (s.featureMIMatrix (x * a.noOfFeatures.toNat + j)) (Dbl.fin (-1)) = true
  · rw [if_pos hc, if_pos hc]
    simp only [evaluatedCells]
    have hnew : (x, j) ∉ evaluatedCells s.trace := by
      intro hm
      have := (h1 x j hm).2.2
      rw [hc] at this
      exact Bool.false_ne_true this.symm
    refine ⟨fun x' j' hm => ?_, List.nodup_cons.mpr ⟨hnew, h2⟩, fun p old new hm => ?_⟩
    · rw [List.mem_cons] at hm
      rcases hm with hm | hm
      · cases hm
        exact ⟨hx, hj, by
          rw [Function.update_same]
          exact DISR.relevance_ne_sentinel O a hmi hje _ _⟩
      · obtain ⟨g1, g2, g3⟩ := h1 x' j' hm
        refine ⟨g1, g2, ?_⟩
        have e : x' * a.noOfFeatures.toNat + j' ≠ x * a.noOfFeatures.toNat + j := by
          intro e
          obtain ⟨rfl, rfl⟩ := DISR.arrayPosition_injective g2 hj e
          exact hnew hm
        rw [Function.update_noteq e]
        exact g3
    · simp only [List.mem_cons] at hm
      rcases hm with hm | hm | hm
      · cases hm
        exact ⟨Dbl.eq_sentinel.mp hc, DISR.relevance_ne_sentinel O a hmi hje _ _⟩
      · cases hm
      · exact h3 p old new hm
  · rw [if_neg hc, if_neg hc]
    exact ⟨h1, h2, h3⟩

theorem DISR.TraceInv_round (O : Oracle) (a : Args)
    (hmi : ∀ m l w n, Dbl.ge (O.calcWeightedMutualInformation m l w n) (Dbl.fin 0) = true)
    (hje : ∀ m l w n, Dbl.ge (O.calcWeightedJointEntropy m l w n) (Dbl.fin 0) = true)
    (i : Nat) (s : DISRState) (h : TraceInv a i s) : TraceInv a i (round O a s i) := by
  have hs : TraceInv a i (scan O a s i) := by
    unfold scan
    exact DISR.scan_induction O a i (fun _ t => TraceInv a i t) (fun _ _ t => TraceInv a i t) _ h
      (fun j t _ ht _ => ht) (fun j t _ ht _ => ht)
      (fun j x t hj hx ht => DISR.TraceInv_cellStep O a hmi hje i j t x hj hx ht)
      (fun j t _ ht _ => ht) (fun j t _ ht _ => ht)
  exact hs

theorem DISR.TraceInv_rounds_disr (O : Oracle) (a : Args)
    (hmi : ∀ m l w n, Dbl.ge (O.calcWeightedMutualInformation m l w n) (Dbl.fin 0) = true)
    (hje : ∀ m l w n, Dbl.ge (O.calcWeightedJointEntropy m l w n) (Dbl.fin 0) = true)
    (out : Nat → Dbl) : ∀ n, TraceInv a n (rounds O a out n)
  | 0 => DISR.TraceInv_round0_disr O a out
  | n + 1 => by
    rw [DISR.rounds_succ_disr]
    exact DISR.TraceInv_round O a hmi hje (n + 1) _
      (DISR.TraceInv_mono a n (n + 1) _ (DISR.TraceInv_rounds_disr O a hmi hje out n) (Nat.le_succ n))

/-- A duplicate-free list of cells of an `n × m` grid has at most `n * m` entries. -/
theorem DISR.cells_length_le (l : List (Nat × Nat)) (n m : Nat) (hl : l.Nodup)
    (h : ∀ x j, (x, j) ∈ l → x < n ∧ j < m) : l.length ≤ n * m := by
  have hsub : l.toFinset ⊆ Finset.range n ×ˢ Finset.range m := by
    intro c hc
    rw [List.mem_toFinset] at hc
    obtain ⟨h1, h2⟩ := h c.1 c.2 hc
    rw [Finset.mem_product, Finset.mem_range, Finset.mem_range]
    exact ⟨h1, h2⟩
  have hcard := Finset.card_le_card hsub
  rw [List.toFinset_card_of_nodup hl, Finset.card_product, Finset.card_range,
    Finset.card_range] at hcard
  exact hcard

/-- C10: with non-negative oracles (and `k ≥ 1`, at least one feature), no cache cell
`(x, j)` is evaluated twice in a call of `WeightedDISR`, every write to the cache replaces the
blank `-1` by a value other than `-1`, so that no computed value is overwritten, and the number
of runs of merge + mutual information + joint entropy is at most `k * noOfFeatures`. -/
theorem WeightedDISR_cache_write_once (O : Oracle) (a : Args) (out : Nat → Dbl)
    (hmi : ∀ m l w n, Dbl.ge (O.calcWeightedMutualInformation m l w n) (Dbl.fin 0) = true)
    (hje : ∀ m l w n, Dbl.ge (O.calcWeightedJointEntropy m l w n) (Dbl.fin 0) = true)
    (hk : 1 ≤ a.k) (hF : 1 ≤ a.noOfFeatures) :
    (DISR.evaluatedCells (WeightedDISR O a out).trace).Nodup ∧
    (∀ p old new, Event.cacheWrite p old new ∈ (WeightedDISR O a out).trace →
      old = Dbl.fin (-1) ∧ new ≠ Dbl.fin (-1)) ∧
    ((DISR.evaluatedCells (WeightedDISR O a out).trace).length : Int)
      ≤ a.k * a.noOfFeatures := by
  obtain ⟨h1, h2, h3⟩ := DISR.TraceInv_rounds_disr O a hmi hje out (a.k.toNat - 1)
  refine ⟨h2, fun p old new hm => ?_, ?_⟩
  · obtain ⟨g1, g2⟩ := h3 p old new hm
    refine ⟨g1, fun e => ?_⟩
    rw [Dbl.eq_sentinel.mpr e] at g2
    exact Bool.false_ne_true g2.symm
  · have hlen := DISR.cells_length_le _ (a.k.toNat - 1) a.noOfFeatures.toNat h2
      (fun x j hm => ⟨(h1 x j hm).1, (h1 x j hm).2.1⟩)
    have e1 : ((a.k.toNat - 1 : Nat) : Int) = a.k - 1 := by omega
    have e2 : ((a.noOfFeatures.toNat : Nat) : Int) = a.noOfFeatures := by omega
    have hcast : ((DISR.evaluatedCells (WeightedDISR O a out).trace).length : Int)
        ≤ (((a.k.toNat - 1) * a.noOfFeatures.toNat : Nat) : Int) := by
      exact_mod_cast hlen
    rw [Nat.cast_mul, e1, e2] at hcast
    have : (a.k - 1) * a.noOfFeatures ≤ a.k * a.noOfFeatures :=
      Int.mul_le_mul_of_nonneg_right (by omega) (by omega)
    exact le_trans hcast this

/-- Witness of C10: three features with equal statistics and `k = 3`; the cells `(0, 1)`,
`(0, 2)` and `(1, 2)` are evaluated, once each. -/
theorem WeightedDISR_cache_write_once_witness :
    ((∀ (m l : List Int) (w : List Dbl) (n : Int),
        Dbl.ge ((constantOracle (Dbl.fin 1) (Dbl.fin 0) (Dbl.fin 1)
          (Dbl.fin 2)).calcWeightedMutualInformation m l w n) (Dbl.fin 0) = true) ∧
      (∀ (m l : List Int) (w : List Dbl) (n : Int),
        Dbl.ge ((constantOracle (Dbl.fin 1) (Dbl.fin 0) (Dbl.fin 1)
          (Dbl.fin 2)).calcWeightedJointEntropy m l w n) (Dbl.fin 0) = true) ∧
      1 ≤ (threeFeatures 3).k ∧ 1 ≤ (threeFeatures 3).noOfFeatures ∧
      DISR.evaluatedCells (WeightedDISR (constantOracle (Dbl.fin 1) (Dbl.fin 0) (Dbl.fin 1)
        (Dbl.fin 2)) (threeFeatures 3) (fun _ => Dbl.fin 0)).trace = [(1, 2), (0, 2), (0, 1)]) ∧
    ((DISR.evaluatedCells (WeightedDISR (constantOracle (Dbl.fin 1) (Dbl.fin 0) (Dbl.fin 1)
        (Dbl.fin 2)) (threeFeatures 3) (fun _ => Dbl.fin 0)).trace).Nodup ∧
      (∀ p old new, Event.cacheWrite p old new ∈
          (WeightedDISR (constantOracle (Dbl.fin 1) (Dbl.fin 0) (Dbl.fin 1) (Dbl.fin 2))
            (threeFeatures 3) (fun _ => Dbl.fin 0)).trace →
        old = Dbl.fin (-1) ∧ new ≠ Dbl.fin (-1)) ∧
      ((DISR.evaluatedCells (WeightedDISR (constantOracle (Dbl.fin 1) (Dbl.fin 0) (Dbl.fin 1)
          (Dbl.fin 2)) (threeFeatures 3) (fun _ => Dbl.fin 0)).trace).length : Int)
        ≤ (threeFeatures 3).k * (threeFeatures 3).noOfFeatures) :=
  have hmi : Dbl.ge (Dbl.fin 1) (Dbl.fin 0) = true := by decide
  have hje : Dbl.ge (Dbl.fin 2) (Dbl.fin 0) = true := by decide
  ⟨⟨fun _ _ _ _ => hmi, fun _ _ _ _ => hje, by decide, by decide,
      by with_unfolding_all decide⟩,
    WeightedDISR_cache_write_once (constantOracle (Dbl.fin 1) (Dbl.fin 0) (Dbl.fin 1) (Dbl.fin 2))
      (threeFeatures 3) (fun _ => Dbl.fin 0) (fun _ _ _ _ => hmi)
      (fun _ _ _ _ => hje) (by decide) (by decide)⟩

/-! ## The default winner and the mask of WeightedDISR -/

/-- C16: in every round `i` with `1 ≤ i < k` in which no feature that is not yet selected
has a summed relevance above 0, `WeightedDISR` writes the index 0 to `outputFeatures[i]`;
every earlier slot that holds 0 then holds the same value as slot `i`. -/
theorem WeightedDISR_default_winner (O : Oracle) (a : Args) (out : Nat → Dbl) (i : Nat)
    (hi : 1 ≤ i) (hik : (i : Int) < a.k)
    (hnone : ∀ j : Nat, (j : Int) < a.noOfFeatures →
      DISR.notYetSelected (WeightedDISR O a out).outputFeatures i j →
      Dbl.gt (DISR.summedRelevance O a (WeightedDISR O a out).outputFeatures i j) (Dbl.fin 0)
        = false) :
    (WeightedDISR O a out).outputFeatures i = Dbl.ofInt 0 ∧
    ∀ x, x < i → (WeightedDISR O a out).outputFeatures x = Dbl.ofInt 0 →
      (WeightedDISR O a out).outputFeatures x = (WeightedDISR O a out).outputFeatures i := by
  obtain ⟨sc, w, hS, hW⟩ := DISR.final_round_spec_disr O a out i hi hik
  have h0 : (WeightedDISR O a out).outputFeatures i = Dbl.ofInt 0 := by
    cases w with
    | none => exact hW
    | some w =>
      exfalso
      obtain ⟨hw, hcw, _, hb, _, _⟩ := hS
      have := hnone w (by omega) hcw
      rw [hb] at this
      exact Bool.false_ne_true this.symm
  exact ⟨h0, fun x _ hx => hx.trans h0.symm⟩

/-- Witness of C16: two features, a constant class and `k = 2`; round 0 selects feature 0
and round 1, in which feature 1 has the summed relevance 0, selects feature 0 again. -/
theorem WeightedDISR_default_winner_witness :
    (1 ≤ 1 ∧ ((1 : Nat) : Int) < (twoFeatures 2).k ∧
      (∀ j : Nat, (j : Int) < (twoFeatures 2).noOfFeatures →
        DISR.notYetSelected (WeightedDISR (constantOracle (Dbl.fin 0) (Dbl.fin 0) (Dbl.fin 0)
          (Dbl.fin 1)) (twoFeatures 2) (fun _ => Dbl.fin 9)).outputFeatures 1 j →
        Dbl.gt (DISR.summedRelevance (constantOracle (Dbl.fin 0) (Dbl.fin 0) (Dbl.fin 0)
            (Dbl.fin 1)) (twoFeatures 2)
          (WeightedDISR (constantOracle (Dbl.fin 0) (Dbl.fin 0) (Dbl.fin 0) (Dbl.fin 1))
            (twoFeatures 2) (fun _ => Dbl.fin 9)).outputFeatures 1 j) (Dbl.fin 0) = false) ∧
      (WeightedDISR (constantOracle (Dbl.fin 0) (Dbl.fin 0) (Dbl.fin 0) (Dbl.fin 1))
        (twoFeatures 2) (fun _ => Dbl.fin 9)).outputFeatures 0 = Dbl.ofInt 0) ∧
    ((WeightedDISR (constantOracle (Dbl.fin 0) (Dbl.fin 0) (Dbl.fin 0) (Dbl.fin 1))
        (twoFeatures 2) (fun _ => Dbl.fin 9)).outputFeatures 1 = Dbl.ofInt 0 ∧
      ∀ x, x < 1 →
        (WeightedDISR (constantOracle (Dbl.fin 0) (Dbl.fin 0) (Dbl.fin 0) (Dbl.fin 1))
          (twoFeatures 2) (fun _ => Dbl.fin 9)).outputFeatures x = Dbl.ofInt 0 →
        (WeightedDISR (constantOracle (Dbl.fin 0) (Dbl.fin 0) (Dbl.fin 0) (Dbl.fin 1))
          (twoFeatures 2) (fun _ => Dbl.fin 9)).outputFeatures x
          = (WeightedDISR (constantOracle (Dbl.fin 0) (Dbl.fin 0) (Dbl.fin 0) (Dbl.fin 1))
            (twoFeatures 2) (fun _ => Dbl.fin 9)).outputFeatures 1) := by
  have hnone : ∀ j : Nat, (j : Int) < (twoFeatures 2).noOfFeatures →
      DISR.notYetSelected (WeightedDISR (constantOracle (Dbl.fin 0) (Dbl.fin 0) (Dbl.fin 0)
        (Dbl.fin 1)) (twoFeatures 2) (fun _ => Dbl.fin 9)).outputFeatures 1 j →
      Dbl.gt (DISR.summedRelevance (constantOracle (Dbl.fin 0) (Dbl.fin 0) (Dbl.fin 0)
          (Dbl.fin 1)) (twoFeatures 2)
        (WeightedDISR (constantOracle (Dbl.fin 0) (Dbl.fin 0) (Dbl.fin 0) (Dbl.fin 1))
          (twoFeatures 2) (fun _ => Dbl.fin 9)).outputFeatures 1 j) (Dbl.fin 0) = false := by
    intro j hj _
    have h2 : j = 0 ∨ j = 1 := by
      have : (j : Int) < 2 := hj
      omega
    rcases h2 with h | h <;> subst h <;> with_unfolding_all decide
  exact ⟨⟨Nat.le_refl 1, by decide, hnone, by with_unfolding_all decide⟩,
    WeightedDISR_default_winner (constantOracle (Dbl.fin 0) (Dbl.fin 0) (Dbl.fin 0) (Dbl.fin 1))
      (twoFeatures 2) (fun _ => Dbl.fin 9) 1 (Nat.le_refl 1) (by decide) hnone⟩

/-- The scan of a round does not write to the mask. -/
theorem DISR.scan_selectedFeatures (O : Oracle) (a : Args) (i : Nat) (s : DISRState) :
    (scan O a s i).selectedFeatures = s.selectedFeatures := by
  unfold scan
  refine DISR.scan_induction O a i (fun _ u => u.selectedFeatures = s.selectedFeatures)
    (fun _ _ u => u.selectedFeatures = s.selectedFeatures) _ rfl ?_ ?_ ?_ ?_ ?_
  · intro j u _ hu _; exact hu
  · intro j u _ hu _; exact hu
  · intro j y u _ _ hu; rw [(DISR.cellStep_frame O a i j u y).1]; exact hu
  · intro j u _ hu _; exact hu
  · intro j u _ hu _; exact hu

/-- A round sets one entry of the mask and clears none. -/
theorem DISR.round_selectedFeatures_mono (O : Oracle) (a : Args) (i : Nat) (s : DISRState)
    (j : Nat) (h : s.selectedFeatures j = true) : (round O a s i).selectedFeatures j = true := by
  rw [(DISR.round_fields O a i s).1, DISR.scan_selectedFeatures]
  by_cases e : j = (scan O a s i).currentHighestFeature
  · rw [e, Function.update_same]
  · rw [Function.update_noteq e]; exact h

theorem DISR.rounds_selectedFeatures_mono (O : Oracle) (a : Args) (out : Nat → Dbl) (n j : Nat)
    (h : (rounds O a out n).selectedFeatures j = true) :
    ∀ d, (rounds O a out (n + d)).selectedFeatures j = true
  | 0 => h
  | d + 1 => by
    have e : n + (d + 1) = (n + d) + 1 := by omega
    rw [e, DISR.rounds_succ_disr]
    exact DISR.round_selectedFeatures_mono O a _ _ j
      (DISR.rounds_selectedFeatures_mono O a out n j h d)

/-- C17: with at least one feature and a non-negative mutual information, at the end of
round 0 and of every later round `n < k`, `selectedFeatures[j]` is set if and only if `j` is
the value of `outputFeatures[m]` for some `m ≤ n`; an entry that is set at the end of a
round is set at the end of every later round, and the scan inside a round leaves the mask
unchanged. -/
theorem WeightedDISR_selected_mask (O : Oracle) (a : Args) (out : Nat → Dbl)
    (_hF : 1 ≤ a.noOfFeatures)
    (_hpos : ∀ j : Nat, (j : Int) < a.noOfFeatures →
      Dbl.ge (DISR.mi O a j) (Dbl.fin 0) = true)
    (n : Nat) (hn : n = 0 ∨ (n : Int) < a.k) (j : Nat) :
    ((DISR.rounds O a out n).selectedFeatures j = true ↔
      ∃ m, m ≤ n ∧ (DISR.rounds O a out n).outputFeatures m = Dbl.ofInt j) ∧
    (∀ d, (DISR.rounds O a out n).selectedFeatures j = true →
      (DISR.rounds O a out (n + d)).selectedFeatures j = true) ∧
    (DISR.scan O a (DISR.rounds O a out n) (n + 1)).selectedFeatures
      = (DISR.rounds O a out n).selectedFeatures := by
  have hI := (DISR.Inv_rounds_disr O a out n (by omega)).1 j
  refine ⟨?_, fun d h => DISR.rounds_selectedFeatures_mono O a out n j h d,
    DISR.scan_selectedFeatures O a _ _⟩
  rw [hI]
  constructor
  · rintro ⟨x, hx, he⟩; exact ⟨x, by omega, he⟩
  · rintro ⟨m, hm, he⟩; exact ⟨m, by omega, he⟩

/-- Witness of C17: the three-feature input with `k = 2`, at the end of round 1, for the
feature 0 selected in that round. -/
theorem WeightedDISR_selected_mask_witness :
    (1 ≤ (threeFeatures 2).noOfFeatures ∧
      (∀ j : Nat, (j : Int) < (threeFeatures 2).noOfFeatures →
        Dbl.ge (DISR.mi cellOracle (threeFeatures 2) j) (Dbl.fin 0) = true) ∧
      ((1 : Nat) = 0 ∨ ((1 : Nat) : Int) < (threeFeatures 2).k) ∧
      (DISR.rounds cellOracle (threeFeatures 2) (fun _ => Dbl.fin 0) 1).selectedFeatures 0
        = true) ∧
    (((DISR.rounds cellOracle (threeFeatures 2) (fun _ => Dbl.fin 0) 1).selectedFeatures 0
          = true ↔
        ∃ m, m ≤ 1 ∧ (DISR.rounds cellOracle (threeFeatures 2) (fun _ => Dbl.fin 0)
          1).outputFeatures m = Dbl.ofInt ((0 : Nat) : Int)) ∧
      (∀ d, (DISR.rounds cellOracle (threeFeatures 2) (fun _ => Dbl.fin 0) 1).selectedFeatures 0
          = true →
        (DISR.rounds cellOracle (threeFeatures 2) (fun _ => Dbl.fin 0)
          (1 + d)).selectedFeatures 0 = true) ∧
      (DISR.scan cellOracle (threeFeatures 2)
          (DISR.rounds cellOracle (threeFeatures 2) (fun _ => Dbl.fin 0) 1) (1 + 1)).selectedFeatures
        = (DISR.rounds cellOracle (threeFeatures 2) (fun _ => Dbl.fin 0) 1).selectedFeatures) := by
  have hpos : ∀ j : Nat, (j : Int) < (threeFeatures 2).noOfFeatures →
      Dbl.ge (DISR.mi cellOracle (threeFeatures 2) j) (Dbl.fin 0) = true := by
    intro j hj
    have h3 : j = 0 ∨ j = 1 ∨ j = 2 := by
      have : (j : Int) < 3 := hj
      omega
    rcases h3 with h | h | h <;> subst h <;> decide
  exact ⟨⟨by decide, hpos, Or.inr (by decide), by with_unfolding_all decide⟩,
    WeightedDISR_selected_mask cellOracle (threeFeatures 2) (fun _ => Dbl.fin 0) (by decide) hpos
      1 (Or.inr (by decide)) 0⟩

/-- C20: with at least one feature and a non-negative mutual information, if two slots
`x < b < k` of the output of `WeightedDISR` hold the same value, then that value is the
index 0, and in round `b` no feature that was not yet selected had a summed relevance
above 0. -/
theorem WeightedDISR_only_zero_repeats (O : Oracle) (a : Args) (out : Nat → Dbl)
    (_hF : 1 ≤ a.noOfFeatures)
    (_hpos : ∀ j : Nat, (j : Int) < a.noOfFeatures →
      Dbl.ge (DISR.mi O a j) (Dbl.fin 0) = true)
    (x b : Nat) (hxb : x < b) (hbk : (b : Int) < a.k)
    (heq : (WeightedDISR O a out).outputFeatures x = (WeightedDISR O a out).outputFeatures b) :
    (WeightedDISR O a out).outputFeatures b = Dbl.ofInt 0 ∧
    ∀ j : Nat, (j : Int) < a.noOfFeatures →
      DISR.notYetSelected (WeightedDISR O a out).outputFeatures b j →
      Dbl.gt (DISR.summedRelevance O a (WeightedDISR O a out).outputFeatures b j) (Dbl.fin 0)
        = false := by
  obtain ⟨sc, w, hS, hW⟩ := DISR.final_round_spec_disr O a out b (by omega) hbk
  cases w with
  | some w =>
    exfalso
    obtain ⟨_, hcw, _, _, _, _⟩ := hS
    exact hcw x hxb (heq.trans hW)
  | none =>
    exact ⟨hW, fun j hj hn => hS.2 j (by omega) hn⟩

/-- Witness of C20: two features, a constant class and `k = 2`; the output is `[0, 0]`. -/
theorem WeightedDISR_only_zero_repeats_witness :
    (1 ≤ (twoFeatures 2).noOfFeatures ∧
      (∀ j : Nat, (j : Int) < (twoFeatures 2).noOfFeatures →
        Dbl.ge (DISR.mi (constantOracle (Dbl.fin 0) (Dbl.fin 0) (Dbl.fin 0) (Dbl.fin 1))
          (twoFeatures 2) j) (Dbl.fin 0) = true) ∧
      0 < 1 ∧ ((1 : Nat) : Int) < (twoFeatures 2).k ∧
      (WeightedDISR (constantOracle (Dbl.fin 0) (Dbl.fin 0) (Dbl.fin 0) (Dbl.fin 1))
          (twoFeatures 2) (fun _ => Dbl.fin 9)).outputFeatures 0
        = (WeightedDISR (constantOracle (Dbl.fin 0) (Dbl.fin 0) (Dbl.fin 0) (Dbl.fin 1))
          (twoFeatures 2) (fun _ => Dbl.fin 9)).outputFeatures 1) ∧
    ((WeightedDISR (constantOracle (Dbl.fin 0) (Dbl.fin 0) (Dbl.fin 0) (Dbl.fin 1))
        (twoFeatures 2) (fun _ => Dbl.fin 9)).outputFeatures 1 = Dbl.ofInt 0 ∧
      ∀ j : Nat, (j : Int) < (twoFeatures 2).noOfFeatures →
        DISR.notYetSelected (WeightedDISR (constantOracle (Dbl.fin 0) (Dbl.fin 0) (Dbl.fin 0)
          (Dbl.fin 1)) (twoFeatures 2) (fun _ => Dbl.fin 9)).outputFeatures 1 j →
        Dbl.gt (DISR.summedRelevance (constantOracle (Dbl.fin 0) (Dbl.fin 0) (Dbl.fin 0)
            (Dbl.fin 1)) (twoFeatures 2)
          (WeightedDISR (constantOracle (Dbl.fin 0) (Dbl.fin 0) (Dbl.fin 0) (Dbl.fin 1))
            (twoFeatures 2) (fun _ => Dbl.fin 9)).outputFeatures 1 j) (Dbl.fin 0) = false) := by
  have hge : Dbl.ge (Dbl.fin 0) (Dbl.fin 0) = true := by decide
  have heq : (WeightedDISR (constantOracle (Dbl.fin 0) (Dbl.fin 0) (Dbl.fin 0) (Dbl.fin 1))
        (twoFeatures 2) (fun _ => Dbl.fin 9)).outputFeatures 0
      = (WeightedDISR (constantOracle (Dbl.fin 0) (Dbl.fin 0) (Dbl.fin 0) (Dbl.fin 1))
        (twoFeatures 2) (fun _ => Dbl.fin 9)).outputFeatures 1 := by
    with_unfolding_all decide
  exact ⟨⟨by decide, fun _ _ => hge, by decide, by decide, heq⟩,
    WeightedDISR_only_zero_repeats (constantOracle (Dbl.fin 0) (Dbl.fin 0) (Dbl.fin 0)
      (Dbl.fin 1)) (twoFeatures 2) (fun _ => Dbl.fin 9) (by decide) (fun _ _ => hge) 0 1
      (by decide) (by decide) heq⟩

/-! ## Degenerate statistics and invalid arguments -/

/-- C12, counterexample: two constant features, a constant class and `k = 2`. The joint
entropy of the pair (feature 0, feature 1) with the label is 0, and the value that
`WeightedDISR` stores in the cache cell `(0, 1)` is NaN, not 0. -/
theorem WeightedDISR_zero_entropy_not_zero :
    (constantOracle (Dbl.fin 0) (Dbl.fin 0) (Dbl.fin 0) (Dbl.fin 0)).calcWeightedJointEntropy
        (DISR.mergedVector (constantOracle (Dbl.fin 0) (Dbl.fin 0) (Dbl.fin 0) (Dbl.fin 0))
          (constantFeatures 2) 0 1)
        (DISR.labelColumn (constantOracle (Dbl.fin 0) (Dbl.fin 0) (Dbl.fin 0) (Dbl.fin 0))
          (constantFeatures 2))
        (constantFeatures 2).weightVector (constantFeatures 2).noOfSamples = Dbl.fin 0 ∧
    Event.cacheWrite 1 (Dbl.fin (-1)) Dbl.nan ∈
      (WeightedDISR (constantOracle (Dbl.fin 0) (Dbl.fin 0) (Dbl.fin 0) (Dbl.fin 0))
        (constantFeatures 2) (fun _ => Dbl.fin 9)).trace ∧
    (WeightedDISR (constantOracle (Dbl.fin 0) (Dbl.fin 0) (Dbl.fin 0) (Dbl.fin 0))
      (constantFeatures 2) (fun _ => Dbl.fin 9)).featureMIMatrix (0 * 2 + 1) = Dbl.nan ∧
    (WeightedDISR (constantOracle (Dbl.fin 0) (Dbl.fin 0) (Dbl.fin 0) (Dbl.fin 0))
      (constantFeatures 2) (fun _ => Dbl.fin 9)).featureMIMatrix (0 * 2 + 1) ≠ Dbl.fin 0 := by
  refine ⟨rfl, by with_unfolding_all decide, by with_unfolding_all decide,
    by with_unfolding_all decide⟩

/-- The quotient of a value by 0 is NaN or an infinity: NaN for `0 / 0` and for a NaN
dividend, an infinity otherwise. The sign of the infinity is not stated: it is that of the
dividend in `Dbl`, which has one zero, and also depends on the sign of the zero in C. -/
theorem Dbl.div_zero (m : Dbl) :
    (Dbl.div m (Dbl.fin 0) = Dbl.nan ∨ Dbl.div m (Dbl.fin 0) = Dbl.pinf ∨
      Dbl.div m (Dbl.fin 0) = Dbl.ninf) ∧
    (m = Dbl.fin 0 → Dbl.div m (Dbl.fin 0) = Dbl.nan) ∧
    (m ≠ Dbl.fin 0 → m ≠ Dbl.nan →
      Dbl.div m (Dbl.fin 0) = Dbl.pinf ∨ Dbl.div m (Dbl.fin 0) = Dbl.ninf) := by
  cases m with
  | nan => simp [Dbl.div]
  | ninf => simp [Dbl.div]
  | pinf => simp [Dbl.div]
  | fin q =>
    simp only [Dbl.div, if_true]
    refine ⟨?_, ?_, ?_⟩
    · by_cases h0 : q = 0
      · left; simp [h0]
      · by_cases hp : 0 < q
        · right; left; simp [h0, hp]
        · right; right; simp [h0, hp]
    · intro h
      have : q = 0 := by injection h
      simp [this]
    · intro h _
      have h0 : q ≠ 0 := fun e => h (by rw [e])
      by_cases hp : 0 < q
      · left; simp [h0, hp]
      · right; simp [h0, hp]

/-- A sum with a NaN or an infinity is a NaN or an infinity. -/
theorem Dbl.add_not_finite (c v : Dbl) (hv : v = Dbl.nan ∨ v = Dbl.pinf ∨ v = Dbl.ninf) :
    Dbl.add c v = Dbl.nan ∨ Dbl.add c v = Dbl.pinf ∨ Dbl.add c v = Dbl.ninf := by
  rcases hv with h | h | h <;> subst h <;> cases c <;> simp [Dbl.add]

/-- C12, as amended: when `cellStep` finds the cell `(x, j)` blank and the joint entropy of
the pair is 0, the value that it stores in the cell is the one it adds to `currentScore`, and
this value is never 0 nor any other finite number: it is NaN when `mi` is 0, an infinity when
`mi` is neither 0 nor NaN, and in every case NaN or an infinity; `currentScore` is then NaN
or an infinity as well. The sign of the infinity is not part of the statement. -/
theorem WeightedDISR_zero_entropy_quotient (O : Oracle) (a : Args) (i j : Nat) (s : DISRState)
    (x : Nat)
    (hblank : Dbl.eq (s.featureMIMatrix (x * a.noOfFeatures.toNat + j)) (Dbl.fin (-1)) = true)
    (hzero : O.calcWeightedJointEntropy
      (DISR.mergedVector O a (Dbl.toInt (s.outputFeatures x)) j) (DISR.labelColumn O a)
      a.weightVector a.noOfSamples = Dbl.fin 0) :
    (DISR.cellStep O a i j s x).currentScore
      = Dbl.add s.currentScore
          ((DISR.cellStep O a i j s x).featureMIMatrix (x * a.noOfFeatures.toNat + j)) ∧
    ((DISR.cellStep O a i j s x).featureMIMatrix (x * a.noOfFeatures.toNat + j) = Dbl.nan ∨
      (DISR.cellStep O a i j s x).featureMIMatrix (x * a.noOfFeatures.toNat + j) = Dbl.pinf ∨
      (DISR.cellStep O a i j s x).featureMIMatrix (x * a.noOfFeatures.toNat + j) = Dbl.ninf) ∧
    (∀ q : ℚ,
      (DISR.cellStep O a i j s x).featureMIMatrix (x * a.noOfFeatures.toNat + j) ≠ Dbl.fin q) ∧
    (O.calcWeightedMutualInformation
        (DISR.mergedVector O a (Dbl.toInt (s.outputFeatures x)) j) (DISR.labelColumn O a)
        a.weightVector a.noOfSamples = Dbl.fin 0 →
      (DISR.cellStep O a i j s x).featureMIMatrix (x * a.noOfFeatures.toNat + j) = Dbl.nan) ∧
    (O.calcWeightedMutualInformation
        (DISR.mergedVector O a (Dbl.toInt (s.outputFeatures x)) j) (DISR.labelColumn O a)
        a.weightVector a.noOfSamples ≠ Dbl.fin 0 →
      O.calcWeightedMutualInformation
        (DISR.mergedVector O a (Dbl.toInt (s.outputFeatures x)) j) (DISR.labelColumn O a)
        a.weightVector a.noOfSamples ≠ Dbl.nan →
      (DISR.cellStep O a i j s x).featureMIMatrix (x * a.noOfFeatures.toNat + j) = Dbl.pinf ∨
        (DISR.cellStep O a i j s x).featureMIMatrix (x * a.noOfFeatures.toNat + j)
          = Dbl.ninf) ∧
    ((DISR.cellStep O a i j s x).currentScore = Dbl.nan ∨
      (DISR.cellStep O a i j s x).currentScore = Dbl.pinf ∨
      (DISR.cellStep O a i j s x).currentScore = Dbl.ninf) := by
  have hcell : (DISR.cellStep O a i j s x).featureMIMatrix (x * a.noOfFeatures.toNat + j)
      = Dbl.div (O.calcWeightedMutualInformation
          (DISR.mergedVector O a (Dbl.toInt (s.outputFeatures x)) j) (DISR.labelColumn O a)
          a.weightVector a.noOfSamples) (Dbl.fin 0) := by
    rw [DISR.cellStep_featureMIMatrix, if_pos hblank, Function.update_same]
    unfold DISR.relevance
    simp only
    rw [hzero]
  have hscore : (DISR.cellStep O a i j s x).currentScore
      = Dbl.add s.currentScore (Dbl.div (O.calcWeightedMutualInformation
          (DISR.mergedVector O a (Dbl.toInt (s.outputFeatures x)) j) (DISR.labelColumn O a)
          a.weightVector a.noOfSamples) (Dbl.fin 0)) := by
    rw [DISR.cellStep_currentScore O a i j s x (Or.inl (Dbl.eq_sentinel.mp hblank))]
    unfold DISR.relevance
    simp only
    rw [hzero]
  obtain ⟨h1, h2, h3⟩ := Dbl.div_zero (O.calcWeightedMutualInformation
    (DISR.mergedVector O a (Dbl.toInt (s.outputFeatures x)) j) (DISR.labelColumn O a)
    a.weightVector a.noOfSamples)
  refine ⟨?_, ?_, ?_, ?_, ?_, ?_⟩
  · rw [hcell]; exact hscore
  · rw [hcell]; exact h1
  · intro q hq
    rw [hcell] at hq
    rw [hq] at h1
    rcases h1 with h | h | h <;> exact Dbl.noConfusion h
  · intro h; rw [hcell]; exact h2 h
  · intro h h'; rw [hcell]; exact h3 h h'
  · rw [hscore]; exact Dbl.add_not_finite _ _ h1

/-- Witness of C12 as amended: the state of `WeightedDISR` after round 0 on two constant
features, at the cell `(0, 1)` read in round 1. -/
theorem WeightedDISR_zero_entropy_quotient_witness :
    (Dbl.eq ((DISR.round0 (constantOracle (Dbl.fin 0) (Dbl.fin 0) (Dbl.fin 0) (Dbl.fin 0))
        (constantFeatures 2) (fun _ => Dbl.fin 9)).featureMIMatrix
        (0 * (constantFeatures 2).noOfFeatures.toNat + 1)) (Dbl.fin (-1)) = true ∧
      (constantOracle (Dbl.fin 0) (Dbl.fin 0) (Dbl.fin 0) (Dbl.fin 0)).calcWeightedJointEntropy
        (DISR.mergedVector (constantOracle (Dbl.fin 0) (Dbl.fin 0) (Dbl.fin 0) (Dbl.fin 0))
          (constantFeatures 2)
          (Dbl.toInt ((DISR.round0 (constantOracle (Dbl.fin 0) (Dbl.fin 0) (Dbl.fin 0)
            (Dbl.fin 0)) (constantFeatures 2) (fun _ => Dbl.fin 9)).outputFeatures 0)) 1)
        (DISR.labelColumn (constantOracle (Dbl.fin 0) (Dbl.fin 0) (Dbl.fin 0) (Dbl.fin 0))
          (constantFeatures 2))
        (constantFeatures 2).weightVector (constantFeatures 2).noOfSamples = Dbl.fin 0) ∧
    (DISR.cellStep (constantOracle (Dbl.fin 0) (Dbl.fin 0) (Dbl.fin 0) (Dbl.fin 0))
        (constantFeatures 2) 1 1
        (DISR.round0 (constantOracle (Dbl.fin 0) (Dbl.fin 0) (Dbl.fin 0) (Dbl.fin 0))
          (constantFeatures 2) (fun _ => Dbl.fin 9)) 0).featureMIMatrix
        (0 * (constantFeatures 2).noOfFeatures.toNat + 1) = Dbl.nan :=
  have hblank : Dbl.eq ((DISR.round0 (constantOracle (Dbl.fin 0) (Dbl.fin 0) (Dbl.fin 0)
      (Dbl.fin 0)) (constantFeatures 2) (fun _ => Dbl.fin 9)).featureMIMatrix
      (0 * (constantFeatures 2).noOfFeatures.toNat + 1)) (Dbl.fin (-1)) = true := by
    with_unfolding_all decide
  ⟨⟨hblank, rfl⟩,
    (WeightedDISR_zero_entropy_quotient (constantOracle (Dbl.fin 0) (Dbl.fin 0) (Dbl.fin 0)
      (Dbl.fin 0)) (constantFeatures 2) 1 1
      (DISR.round0 (constantOracle (Dbl.fin 0) (Dbl.fin 0) (Dbl.fin 0) (Dbl.fin 0))
        (constantFeatures 2) (fun _ => Dbl.fin 9)) 0 hblank rfl).2.2.2.1 rfl⟩

theorem miEvaluations_map (l : List Nat) :
    miEvaluations (l.map Event.mutualInformation) = l := by
  induction l with
  | nil => rfl
  | cons j l ih => simp only [List.map_cons, miEvaluations, ih]

theorem CMIM.round0_trace_eq (O : Oracle) (a : Args) (out : Nat → Dbl) :
    (round0 O a out).trace
      = (List.range a.noOfFeatures.toNat).reverse.map Event.mutualInformation := by
  unfold round0
  simp only
  refine foldl_range_induction (fillStep O a)
    (fun m s => s.trace = (List.range m).reverse.map Event.mutualInformation) _ _ rfl ?_
  intro i t _ ht
  rw [CMIM.fillStep_trace, ht, List.range_succ, List.reverse_append]
  rfl

theorem CMIM.whileBody_trace (O : Oracle) (a : Args) (i j : Nat) (s : CMIMState) :
    (whileBody O a i j s).trace =
      if Dbl.gt (s.classMI j) (cmi O a j (Dbl.toInt (s.outputFeatures (s.lastUsedFeature j))))
      then
        Event.classMIWrite j (s.classMI j)
            (cmi O a j (Dbl.toInt (s.outputFeatures (s.lastUsedFeature j))))
          :: Event.conditionalMI i j (s.lastUsedFeature j)
              (Dbl.toInt (s.outputFeatures (s.lastUsedFeature j))) :: s.trace
      else
        Event.conditionalMI i j (s.lastUsedFeature j)
          (Dbl.toInt (s.outputFeatures (s.lastUsedFeature j))) :: s.trace := by
  unfold whileBody
  simp only
  split_ifs <;> rfl

/-- The rounds of `WeightedCMIM` record no evaluation of the mutual information with the
class. -/
theorem CMIM.rounds_miEvaluations (O : Oracle) (a : Args) (out : Nat → Dbl) :
    ∀ n, miEvaluations (rounds O a out n).trace = (List.range a.noOfFeatures.toNat).reverse
  | 0 => by
    rw [CMIM.rounds_zero, CMIM.round0_trace_eq, miEvaluations_map]
  | n + 1 => by
    rw [CMIM.rounds_succ]
    refine CMIM.round_induction O a (n + 1)
      (fun _ t => miEvaluations t.trace = (List.range a.noOfFeatures.toNat).reverse) _
      (CMIM.rounds_miEvaluations O a out n) ?_ (fun j t _ ht _ _ => ht) (fun j t _ ht _ _ => ht)
    intro j t _ ht _
    rw [CMIM.whileBody_trace]
    split_ifs
    · simp only [miEvaluations]; exact ht
    · simp only [miEvaluations]; exact ht

theorem CMIM.cmiPairs_map (l : List Nat) :
    cmiPairs (l.map Event.mutualInformation) = [] := by
  induction l with
  | nil => rfl
  | cons j l ih => simp only [List.map_cons, cmiPairs, ih]

theorem CMIM.round0_outputFeatures (O : Oracle) (a : Args) (out : Nat → Dbl) :
    (round0 O a out).outputFeatures
      = Function.update out 0 (Dbl.ofInt (round0 O a out).maxMICounter) := by
  obtain ⟨_, _, _, h4⟩ := CMIM.fill_spec O a out a.noOfFeatures.toNat
  unfold round0
  simp only [h4]

/-- Induction over the first `m` features of one round: `P j` is what holds before
feature `j` is examined. -/
theorem CMIM.features_induction (O : Oracle) (a : Args) (i : Nat) (P : Nat → CMIMState → Prop)
    (s : CMIMState) (m : Nat) (hm : m ≤ a.noOfFeatures.toNat) (h0 : P 0 s)
    (hbody : ∀ j t, j < a.noOfFeatures.toNat → P j t → whileCond i j t = true →
      P j (whileBody O a i j t))
    (hsel : ∀ j t, j < a.noOfFeatures.toNat → P j t → whileCond i j t = false →
      Dbl.gt (t.classMI j) t.score = true →
      P (j + 1) { t with score := t.classMI j
                         outputFeatures := Function.update t.outputFeatures i (Dbl.ofInt j) })
    (hkeep : ∀ j t, j < a.noOfFeatures.toNat → P j t → whileCond i j t = false →
      Dbl.gt (t.classMI j) t.score = false → P (j + 1) t) :
    P m ((List.range m).foldl (featureStep O a i) s) := by
  refine foldl_range_induction (featureStep O a i) P _ _ h0 ?_
  intro j t hj hP
  have hjF : j < a.noOfFeatures.toNat := by omega
  have h1 : P j (whileLoop O a i j i t) :=
    CMIM.whileLoop_induction O a i j (P j) (fun u hu hc => hbody j u hjF hu hc) i t hP
  have h2 : whileCond i j (whileLoop O a i j i t) = false :=
    CMIM.whileLoop_exit O a i j i t (by omega)
  unfold featureStep
  simp only
  by_cases hg : Dbl.gt ((whileLoop O a i j i t).classMI j) (whileLoop O a i j i t).score = true
  · rw [if_pos hg]
    exact hsel j _ hjF h1 h2 hg
  · rw [if_neg hg]
    exact hkeep j _ hjF h1 h2 (by simpa using hg)

/-- Induction over the points of round `i`. -/
theorem CMIM.point_induction (O : Oracle) (a : Args) (out : Nat → Dbl) (i : Nat)
    (P : Nat → CMIMState → Prop) (m f : Nat) (hm : m < a.noOfFeatures.toNat)
    (h0 : P 0 { rounds O a out (i - 1) with score := Dbl.fin 0 })
    (hbody : ∀ j t, j < a.noOfFeatures.toNat → P j t → whileCond i j t = true →
      P j (whileBody O a i j t))
    (hsel : ∀ j t, j < a.noOfFeatures.toNat → P j t → whileCond i j t = false →
      Dbl.gt (t.classMI j) t.score = true →
      P (j + 1) { t with score := t.classMI j
                         outputFeatures := Function.update t.outputFeatures i (Dbl.ofInt j) })
    (hkeep : ∀ j t, j < a.noOfFeatures.toNat → P j t → whileCond i j t = false →
      Dbl.gt (t.classMI j) t.score = false → P (j + 1) t) :
    P m (point O a out i m f) := by
  unfold point
  exact CMIM.whileLoop_induction O a i m (P m) (fun u hu hc => hbody m u hm hu hc) f _
    (CMIM.features_induction O a i P _ m (Nat.le_of_lt hm) h0 hbody hsel hkeep)

/-- The invariant holds at every point of round `i`. -/
theorem CMIM.Inv_point (O : Oracle) (a : Args) (out : Nat → Dbl) (i m f : Nat) (hi : 1 ≤ i)
    (hm : m < a.noOfFeatures.toNat) : Inv O a i (point O a out i m f) := by
  have hI : Inv O a i (rounds O a out (i - 1)) :=
    CMIM.Inv_mono O a (i - 1) i _ (CMIM.Inv_rounds O a out (i - 1)) (by omega)
  exact CMIM.point_induction O a out i (fun _ t => Inv O a i t) m f hm ⟨hI.1, hI.2⟩
    (fun j t hj ht hc => CMIM.Inv_whileBody O a i j t ht hj hc)
    (fun j t _ ht _ _ => CMIM.Inv_select O a i t _ _ ht)
    (fun j t _ ht _ _ => ht)

/-- In a state that satisfies the invariant of round `i`, `classMI[j]` is an upper bound of
the exact score of round `i` and is that score when `lastUsedFeature[j] = i`. -/
theorem CMIM.Inv_bound (O : Oracle) (a : Args) (i : Nat) (s : CMIMState) (j : Nat)
    (h : Inv O a i s) (hj : j < a.noOfFeatures.toNat) :
    s.classMI j = partialScore O a s.outputFeatures j (s.lastUsedFeature j) ∧
    (exactScore O a s.outputFeatures i j = s.classMI j ∨
      Dbl.gt (s.classMI j) (exactScore O a s.outputFeatures i j) = true) ∧
    (s.lastUsedFeature j = i → s.classMI j = exactScore O a s.outputFeatures i j) := by
  have hle := h.1 j
  have hcl := h.2 j hj
  have hmono := CMIM.partialScore_mono O a s.outputFeatures j (s.lastUsedFeature j)
    (i - s.lastUsedFeature j)
  have e : s.lastUsedFeature j + (i - s.lastUsedFeature j) = i := by omega
  rw [e, ← hcl] at hmono
  refine ⟨hcl, hmono, fun hl => ?_⟩
  rw [hcl, hl]
  rfl

/-- C14: once `classMI[j]` is initialised (in round 0, after the first `n > j` iterations of
the loop of lines 81-90), at the end of every round and at every point of every round `i`,
`classMI[j]` is the mutual information of feature `j` with the class tightened by the
conditional mutual information given the features in the first `lastUsedFeature[j]` slots of
`outputFeatures`; at a point of round `i` it is an upper bound of the exact score `s_i(j)`,
and it is `s_i(j)` when `lastUsedFeature[j] = i`, which holds when the feature passes the
test of line 118. -/
theorem WeightedCMIM_classMI_is_partial_score (O : Oracle) (a : Args) (out : Nat → Dbl)
    (j : Nat) (hj : (j : Int) < a.noOfFeatures) :
    (∀ n, j < n →
      ((List.range n).foldl (CMIM.fillStep O a) (CMIM.init out)).classMI j
        = CMIM.partialScore O a
            ((List.range n).foldl (CMIM.fillStep O a) (CMIM.init out)).outputFeatures j
            (((List.range n).foldl (CMIM.fillStep O a) (CMIM.init out)).lastUsedFeature j)) ∧
    (∀ n, (CMIM.rounds O a out n).classMI j
      = CMIM.partialScore O a (CMIM.rounds O a out n).outputFeatures j
          ((CMIM.rounds O a out n).lastUsedFeature j)) ∧
    (∀ i m f : Nat, 1 ≤ i → (m : Int) < a.noOfFeatures →
      (CMIM.point O a out i m f).classMI j
        = CMIM.partialScore O a (CMIM.point O a out i m f).outputFeatures j
            ((CMIM.point O a out i m f).lastUsedFeature j) ∧
      (CMIM.exactScore O a (CMIM.point O a out i m f).outputFeatures i j
          = (CMIM.point O a out i m f).classMI j ∨
        Dbl.gt ((CMIM.point O a out i m f).classMI j)
          (CMIM.exactScore O a (CMIM.point O a out i m f).outputFeatures i j) = true) ∧
      ((CMIM.point O a out i m f).lastUsedFeature j = i →
        (CMIM.point O a out i m f).classMI j
          = CMIM.exactScore O a (CMIM.point O a out i m f).outputFeatures i j)) ∧
    (∀ i, 1 ≤ i →
      Dbl.gt ((CMIM.point O a out i j i).classMI j) (CMIM.point O a out i j i).score = true →
      (CMIM.point O a out i j i).lastUsedFeature j = i) := by
  have hj' : j < a.noOfFeatures.toNat := by omega
  refine ⟨fun n hn => ?_, fun n => (CMIM.Inv_rounds O a out n).2 j hj',
    fun i m f hi hm => ?_, fun i hi hg => ?_⟩
  · obtain ⟨_, h2, h3, _⟩ := CMIM.fill_spec O a out n
    rw [h2 j hn, h3]
    rfl
  · exact CMIM.Inv_bound O a i _ j (CMIM.Inv_point O a out i m f hi (by omega)) hj'
  · have hexit : CMIM.whileCond i j (CMIM.point O a out i j i) = false := by
      unfold CMIM.point
      exact CMIM.whileLoop_exit O a i j i _ (by omega)
    have hle := (CMIM.Inv_point O a out i j i hi hj').1 j
    unfold CMIM.whileCond at hexit
    rw [hg] at hexit
    simp at hexit
    omega

/-- Witness of C14: feature 0 of the three-feature input, whose `classMI` is lowered from
2 to 1 in round 1 and is then the exact score of round 1. -/
theorem WeightedCMIM_classMI_is_partial_score_witness :
    (((0 : Nat) : Int) < (threeFeatures 2).noOfFeatures ∧
      (CMIM.point cellOracle (threeFeatures 2) (fun _ => Dbl.fin 0) 1 0 1).classMI 0
        = Dbl.fin 1) ∧
    (CMIM.point cellOracle (threeFeatures 2) (fun _ => Dbl.fin 0) 1 0 1).classMI 0
      = CMIM.partialScore cellOracle (threeFeatures 2)
          (CMIM.point cellOracle (threeFeatures 2) (fun _ => Dbl.fin 0) 1 0 1).outputFeatures 0
          ((CMIM.point cellOracle (threeFeatures 2) (fun _ => Dbl.fin 0) 1 0 1).lastUsedFeature
            0) :=
  ⟨⟨by decide, by decide⟩,
    ((WeightedCMIM_classMI_is_partial_score cellOracle (threeFeatures 2) (fun _ => Dbl.fin 0) 0
      (by decide)).2.2.1 1 0 1 (Nat.le_refl 1) (by decide)).1⟩

/-- One more iteration of the `while` loop, seen from the end of the loop. -/
theorem CMIM.whileLoop_succ (O : Oracle) (a : Args) (i j : Nat) :
    ∀ (f : Nat) (s : CMIMState),
      whileLoop O a i j (f + 1) s =
        if whileCond i j (whileLoop O a i j f s) then whileBody O a i j (whileLoop O a i j f s)
        else whileLoop O a i j f s
  | 0, s => by
    simp only [whileLoop]
  | f + 1, s => by
    by_cases hc : whileCond i j s = true
    · have h1 : whileLoop O a i j (f + 1 + 1) s = whileLoop O a i j (f + 1) (whileBody O a i j s) := by
        rw [whileLoop, if_pos hc]
      have h2 : whileLoop O a i j (f + 1) s = whileLoop O a i j f (whileBody O a i j s) := by
        rw [whileLoop, if_pos hc]
      rw [h1, h2]
      exact CMIM.whileLoop_succ O a i j f _
    · have h1 : whileLoop O a i j (f + 1 + 1) s = s := by
        rw [whileLoop, if_neg hc]
      have h2 : whileLoop O a i j (f + 1) s = s := by
        rw [whileLoop, if_neg hc]
      rw [h1, h2, if_neg hc]

/-- From a point of round `i` to the next iteration of the same `while` loop. -/
theorem CMIM.point_succ (O : Oracle) (a : Args) (out : Nat → Dbl) (i m f : Nat) :
    point O a out i m (f + 1) =
      if whileCond i m (point O a out i m f) then whileBody O a i m (point O a out i m f)
      else point O a out i m f := by
  unfold point
  exact CMIM.whileLoop_succ O a i m f _

/-- From the end of the `while` loop of feature `m` to line 106 for feature `m + 1`. -/
theorem CMIM.point_next (O : Oracle) (a : Args) (out : Nat → Dbl) (i m : Nat) :
    point O a out i (m + 1) 0 =
      if Dbl.gt ((point O a out i m i).classMI m) (point O a out i m i).score then
        { point O a out i m i with
            score := (point O a out i m i).classMI m
            outputFeatures :=
              Function.update (point O a out i m i).outputFeatures i (Dbl.ofInt m) }
      else point O a out i m i := by
  unfold point
  rw [List.range_succ, List.foldl_append]
  rfl

/-- The end of round `n + 1` is the point after its last feature. -/
theorem CMIM.rounds_eq_point (O : Oracle) (a : Args) (out : Nat → Dbl) (n : Nat) :
    rounds O a out (n + 1) = point O a out (n + 1) a.noOfFeatures.toNat 0 := by
  rw [CMIM.rounds_succ]
  rfl

theorem CMIM.round0_lastUsedFeature (O : Oracle) (a : Args) (out : Nat → Dbl) (j : Nat) :
    (round0 O a out).lastUsedFeature j = 0 := by
  have h := (CMIM.fill_spec O a out a.noOfFeatures.toNat).2.2.1
  unfold round0
  simp only [h]

/-- C15: for `k ≥ 1` and every feature `j`, `lastUsedFeature[j]` is 0 when it is allocated,
throughout round 0 and at the end of round 0,
is at most `n` at the end of round `n` and at most `i` at every point of round `i`; an
iteration of a `while` loop leaves it as it is or adds 1 to it, and the other statements
(reset of `score`, selection of a feature) leave it as it is; it is at most `k - 1` when the
call returns. -/
theorem WeightedCMIM_lastUsedFeature_bounded (O : Oracle) (a : Args) (out : Nat → Dbl)
    (hk : 1 ≤ a.k) (j : Nat) :
    (∀ n, ((List.range n).foldl (CMIM.fillStep O a) (CMIM.init out)).lastUsedFeature j = 0) ∧
    (CMIM.rounds O a out 0).lastUsedFeature j = 0 ∧
    (∀ n, (CMIM.rounds O a out n).lastUsedFeature j ≤ n) ∧
    (∀ i m f : Nat, 1 ≤ i → (m : Int) < a.noOfFeatures →
      (CMIM.point O a out i m f).lastUsedFeature j ≤ i) ∧
    (∀ i m f : Nat,
      (CMIM.point O a out i m (f + 1)).lastUsedFeature j
          = (CMIM.point O a out i m f).lastUsedFeature j ∨
        (CMIM.point O a out i m (f + 1)).lastUsedFeature j
          = (CMIM.point O a out i m f).lastUsedFeature j + 1) ∧
    (∀ i m : Nat, (CMIM.point O a out i (m + 1) 0).lastUsedFeature j
      = (CMIM.point O a out i m i).lastUsedFeature j) ∧
    (∀ i : Nat, (CMIM.point O a out i 0 0).lastUsedFeature j
      = (CMIM.rounds O a out (i - 1)).lastUsedFeature j) ∧
    (∀ n : Nat, CMIM.rounds O a out (n + 1)
      = CMIM.point O a out (n + 1) a.noOfFeatures.toNat 0) ∧
    ((WeightedCMIM O a out).lastUsedFeature j : Int) ≤ a.k - 1 := by
  refine ⟨fun n => by rw [(CMIM.fill_spec O a out n).2.2.1],
    CMIM.round0_lastUsedFeature O a out j, fun n => (CMIM.Inv_rounds O a out n).1 j,
    fun i m f hi hm => (CMIM.Inv_point O a out i m f hi (by omega)).1 j, fun i m f => ?_,
    fun i m => ?_, fun i => rfl, fun n => CMIM.rounds_eq_point O a out n, ?_⟩
  · rw [CMIM.point_succ]
    by_cases hc : CMIM.whileCond i m (CMIM.point O a out i m f) = true
    · rw [if_pos hc, CMIM.whileBody_lastUsedFeature]
      by_cases e : j = m
      · right; rw [e, Function.update_same]
      · left; rw [Function.update_noteq e]
    · rw [if_neg hc]
      exact Or.inl rfl
  · rw [CMIM.point_next]
    split_ifs <;> rfl
  · have h := (CMIM.Inv_rounds O a out (a.k.toNat - 1)).1 j
    unfold WeightedCMIM
    omega

/-- Witness of C15: feature 0 of the three-feature input with `k = 2`, whose counter is
1 when the call returns. -/
theorem WeightedCMIM_lastUsedFeature_bounded_witness :
    (1 ≤ (threeFeatures 2).k ∧
      (WeightedCMIM cellOracle (threeFeatures 2) (fun _ => Dbl.fin 0)).lastUsedFeature 0 = 1) ∧
    ((WeightedCMIM cellOracle (threeFeatures 2) (fun _ => Dbl.fin 0)).lastUsedFeature 0 : Int)
      ≤ (threeFeatures 2).k - 1 :=
  ⟨⟨by decide, by decide⟩,
    (WeightedCMIM_lastUsedFeature_bounded cellOracle (threeFeatures 2) (fun _ => Dbl.fin 0)
      (by decide) 0).2.2.2.2.2.2.2.2⟩

/-! ## The number of oracle evaluations of WeightedCMIM -/

theorem CMIM.whileBody_cmiPairs (O : Oracle) (a : Args) (i j : Nat) (s : CMIMState) :
    cmiPairs (whileBody O a i j s).trace = (j, s.lastUsedFeature j) :: cmiPairs s.trace := by
  rw [CMIM.whileBody_trace]
  split_ifs <;> rfl

theorem CMIM.PairInv_round0 (O : Oracle) (a : Args) (out : Nat → Dbl) :
    PairInv a (round0 O a out) := by
  have h : cmiPairs (round0 O a out).trace = [] := by
    rw [CMIM.round0_trace_eq, CMIM.cmiPairs_map]
  unfold PairInv
  rw [h]
  refine ⟨fun j m hm => absurd hm (List.not_mem_nil _), List.nodup_nil, fun j => ?_⟩
  rw [CMIM.round0_lastUsedFeature]
  rfl

theorem CMIM.PairInv_whileBody (O : Oracle) (a : Args) (i j : Nat) (s : CMIMState)
    (h : PairInv a s) (hj : j < a.noOfFeatures.toNat) : PairInv a (whileBody O a i j s) := by
  obtain ⟨h1, h2, h3⟩ := h
  unfold PairInv
  rw [CMIM.whileBody_cmiPairs, CMIM.whileBody_lastUsedFeature]
  have hnew : (j, s.lastUsedFeature j) ∉ cmiPairs s.trace := by
    intro hm
    have := (h1 j _ hm).2
    omega
  refine ⟨fun j' m hm => ?_, List.nodup_cons.mpr ⟨hnew, h2⟩, fun j' => ?_⟩
  · rw [List.mem_cons] at hm
    rcases hm with hm | hm
    · cases hm
      rw [Function.update_same]
      exact ⟨hj, Nat.lt_succ_self _⟩
    · obtain ⟨g1, g2⟩ := h1 j' m hm
      refine ⟨g1, ?_⟩
      by_cases e : j' = j
      · rw [e, Function.update_same]
        rw [e] at g2
        omega
      · rw [Function.update_noteq e]
        exact g2
  · rw [List.countP_cons, h3 j']
    by_cases e : j' = j
    · rw [e, Function.update_same]
      simp
    · rw [Function.update_noteq e]
      have : ¬ j = j' := fun h => e h.symm
      simp [this]

theorem CMIM.PairInv_rounds (O : Oracle) (a : Args) (out : Nat → Dbl) :
    ∀ n, PairInv a (rounds O a out n)
  | 0 => CMIM.PairInv_round0 O a out
  | n + 1 => by
    rw [CMIM.rounds_succ]
    exact CMIM.round_induction O a (n + 1) (fun _ t => PairInv a t) _
      (CMIM.PairInv_rounds O a out n)
      (fun j t hj ht _ => CMIM.PairInv_whileBody O a (n + 1) j t ht hj)
      (fun j t _ ht _ _ => ht)
      (fun j t _ ht _ _ => ht)

/-- C11: for `k ≥ 1`, no pair (feature `j`, slot `m`) has its conditional mutual information
evaluated twice in a call of `WeightedCMIM`; the evaluated pairs have `j < noOfFeatures` and
`m < k - 1`; the number of evaluations made for feature `j` is the final
`lastUsedFeature[j]`; the call makes at most `(k - 1) * noOfFeatures` such evaluations and
evaluates the mutual information with the class once for each feature; and the `while` loop
of line 106 is left, with its condition false, after at most `i` iterations. -/
theorem WeightedCMIM_evaluation_count (O : Oracle) (a : Args) (out : Nat → Dbl)
    (hk : 1 ≤ a.k) (hF : 0 ≤ a.noOfFeatures) :
    (CMIM.cmiPairs (WeightedCMIM O a out).trace).Nodup ∧
    (∀ j m : Nat, (j, m) ∈ CMIM.cmiPairs (WeightedCMIM O a out).trace →
      (j : Int) < a.noOfFeatures ∧ (m : Int) < a.k - 1) ∧
    (∀ j : Nat, (CMIM.cmiPairs (WeightedCMIM O a out).trace).countP (fun p => decide (p.1 = j))
      = (WeightedCMIM O a out).lastUsedFeature j) ∧
    ((CMIM.cmiPairs (WeightedCMIM O a out).trace).length : Int)
      ≤ (a.k - 1) * a.noOfFeatures ∧
    miEvaluations (WeightedCMIM O a out).trace = (List.range a.noOfFeatures.toNat).reverse ∧
    (miEvaluations (WeightedCMIM O a out).trace).length = a.noOfFeatures.toNat ∧
    (∀ (i j : Nat) (s : CMIMState),
      CMIM.whileCond i j (CMIM.whileLoop O a i j i s) = false) := by
  obtain ⟨h1, h2, h3⟩ := CMIM.PairInv_rounds O a out (a.k.toNat - 1)
  have hlu : ∀ j, (CMIM.rounds O a out (a.k.toNat - 1)).lastUsedFeature j ≤ a.k.toNat - 1 :=
    (CMIM.Inv_rounds O a out (a.k.toNat - 1)).1
  have hmi := CMIM.rounds_miEvaluations O a out (a.k.toNat - 1)
  have hbound : ∀ j m : Nat, (j, m) ∈ CMIM.cmiPairs (WeightedCMIM O a out).trace →
      j < a.noOfFeatures.toNat ∧ m < a.k.toNat - 1 := by
    intro j m hm
    obtain ⟨g1, g2⟩ := h1 j m hm
    exact ⟨g1, Nat.lt_of_lt_of_le g2 (hlu j)⟩
  refine ⟨h2, fun j m hm => ?_, h3, ?_, hmi, ?_,
    fun i j s => CMIM.whileLoop_exit O a i j i s (by omega)⟩
  · obtain ⟨g1, g2⟩ := hbound j m hm
    constructor <;> omega
  · have hlen := DISR.cells_length_le _ a.noOfFeatures.toNat (a.k.toNat - 1) h2 hbound
    have e1 : ((a.k.toNat - 1 : Nat) : Int) = a.k - 1 := by omega
    have e2 : ((a.noOfFeatures.toNat : Nat) : Int) = a.noOfFeatures := by omega
    have hcast : ((CMIM.cmiPairs (WeightedCMIM O a out).trace).length : Int)
        ≤ ((a.noOfFeatures.toNat * (a.k.toNat - 1) : Nat) : Int) := by
      exact_mod_cast hlen
    rw [Nat.cast_mul, e1, e2, mul_comm] at hcast
    exact hcast
  · unfold WeightedCMIM
    rw [hmi, List.length_reverse, List.length_range]

/-- Witness of C11: the three-feature input with `k = 2`; round 1 evaluates the conditional
mutual information of the features 0 and 1 given the feature of slot 0, and leaves feature 2
alone, whose bound does not exceed the score reached. -/
theorem WeightedCMIM_evaluation_count_witness :
    (1 ≤ (threeFeatures 2).k ∧ 0 ≤ (threeFeatures 2).noOfFeatures ∧
      CMIM.cmiPairs (WeightedCMIM cellOracle (threeFeatures 2) (fun _ => Dbl.fin 0)).trace
        = [(1, 0), (0, 0)]) ∧
    ((CMIM.cmiPairs (WeightedCMIM cellOracle (threeFeatures 2) (fun _ => Dbl.fin 0)).trace).length
        : Int) ≤ ((threeFeatures 2).k - 1) * (threeFeatures 2).noOfFeatures :=
  ⟨⟨by decide, by decide, by decide⟩,
    (WeightedCMIM_evaluation_count cellOracle (threeFeatures 2) (fun _ => Dbl.fin 0)
      (by decide) (by decide)).2.2.2.1⟩

/-! ## The slots read by WeightedCMIM -/

theorem CMIM.SafeInv_round0 (O : Oracle) (a : Args) (out : Nat → Dbl) :
    SafeInv a (slotWritten O a out) 0 1 (round0 O a out) := by
  refine ⟨fun i' j m c hm => ?_, fun hal x hx => ?_⟩
  · obtain ⟨j', hj'⟩ := CMIM.round0_trace O a out _ hm
    cases hj'
  · have hx0 : x = 0 := by omega
    subst hx0
    obtain ⟨j, hj, hg⟩ := hal
    rw [CMIM.round0_classMI O a out j hj] at hg
    obtain ⟨⟨w, hw, hc⟩, _, _, _⟩ := CMIM.fill_spec O a out a.noOfFeatures.toNat
    refine ⟨?_, Or.inl ⟨rfl, j, hj, hg⟩⟩
    cases w with
    | none =>
      exfalso
      have := hw.2 j hj trivial
      rw [hg] at this
      exact Bool.false_ne_true this.symm
    | some v =>
      refine ⟨v, hw.1, ?_⟩
      rw [CMIM.round0_outputFeatures, Function.update_same]
      show Dbl.ofInt ((List.range a.noOfFeatures.toNat).foldl (fillStep O a) (init out)).maxMICounter
        = Dbl.ofInt v
      rw [hc]
      rfl

/-- A bound that exceeds the running score of a round exceeds 0. -/
theorem Dbl.gt_zero_of_gt_score {v score : Dbl}
    (hs : score = Dbl.fin 0 ∨ Dbl.gt score (Dbl.fin 0) = true) (hv : Dbl.gt v score = true) :
    Dbl.gt v (Dbl.fin 0) = true := by
  rcases hs with h | h
  · rw [← h]; exact hv
  · exact Dbl.gt_trans hv h

/-- What one round does to the invariant on the reads: it holds at the end of round `i`
with the slot `i` settled, provided that a round ending with `score > 0` counts as having
stored its slot. -/
theorem CMIM.SafeInv_round (O : Oracle) (a : Args) (W : Nat → Prop) (i : Nat) (s : CMIMState)
    (h : SafeInv a W i i s)
    (hW : Dbl.gt (round O a s i).score (Dbl.fin 0) = true → W i) :
    SafeInv a W i (i + 1) (round O a s i) := by
  have hP := CMIM.round_induction O a i
    (fun j t => SafeInv a W i i t ∧
      ((Dbl.gt t.score (Dbl.fin 0) = true ∧ Good a t i) ∨
        (t.score = Dbl.fin 0 ∧ ∀ j', j' < j → Dbl.gt (t.classMI j') (Dbl.fin 0) = false)))
    s ⟨⟨h.1, h.2⟩, Or.inr ⟨rfl, fun _ hj' => absurd hj' (Nat.not_lt_zero _)⟩⟩ ?_ ?_ ?_
  · obtain ⟨⟨hE, hA⟩, hD⟩ := hP
    refine ⟨hE, fun hal x hx => ?_⟩
    rcases Nat.lt_succ_iff_lt_or_eq.mp hx with hlt | heq
    · exact hA hal x hlt
    · subst heq
      rcases hD with ⟨hg, hgood⟩ | ⟨_, hdead⟩
      · exact ⟨hgood, hW hg⟩
      · exfalso
        obtain ⟨j, hj, hgj⟩ := hal
        rw [hdead j hj] at hgj
        exact Bool.false_ne_true hgj
  · rintro j t hj ⟨⟨hE, hA⟩, hD⟩ hc
    obtain ⟨f1, f2⟩ := CMIM.whileBody_frame O a i j t
    have hcond : Dbl.gt (t.classMI j) t.score = true ∧ t.lastUsedFeature j < i := by
      unfold whileCond at hc
      simpa using hc
    have hscore : t.score = Dbl.fin 0 ∨ Dbl.gt t.score (Dbl.fin 0) = true := by
      rcases hD with ⟨hg, _⟩ | ⟨h0, _⟩
      · exact Or.inr hg
      · exact Or.inl h0
    have hal : Alive a t := ⟨j, hj, Dbl.gt_zero_of_gt_score hscore hcond.1⟩
    obtain ⟨⟨c, hcF, hout⟩, hWm⟩ := hA hal (t.lastUsedFeature j) hcond.2
    have hread : Dbl.toInt (t.outputFeatures (t.lastUsedFeature j)) = (c : Int) := by
      rw [hout, Dbl.toInt_ofInt]
    have hAlive' : Alive a (whileBody O a i j t) → Alive a t := by
      rintro ⟨j', hj', hg'⟩
      rw [CMIM.whileBody_classMI] at hg'
      by_cases e : j' = j
      · rw [e, Function.update_same] at hg'
        refine ⟨j, hj, ?_⟩
        rcases Dbl.min_le (t.classMI j)
          (cmi O a j (Dbl.toInt (t.outputFeatures (t.lastUsedFeature j)))) with h1 | h1
        · rw [h1] at hg'; exact hg'
        · exact Dbl.gt_trans h1 hg'
      · rw [Function.update_noteq e] at hg'
        exact ⟨j', hj', hg'⟩
    refine ⟨⟨fun i' j' m c' hm => ?_, fun hal' x hx => ?_⟩, ?_⟩
    · rw [f1]
      rw [CMIM.whileBody_trace] at hm
      have hmem : Event.conditionalMI i' j' m c' =
          Event.conditionalMI i j (t.lastUsedFeature j)
            (Dbl.toInt (t.outputFeatures (t.lastUsedFeature j))) ∨
          Event.conditionalMI i' j' m c' ∈ t.trace := by
        split_ifs at hm
        · simp only [List.mem_cons] at hm
          rcases hm with h1 | h1 | h1
          · cases h1
          · exact Or.inl h1
          · exact Or.inr h1
        · simp only [List.mem_cons] at hm
          exact hm
      rcases hmem with h1 | h1
      · cases h1
        rw [hread]
        exact ⟨hcond.2, Nat.le_refl _, by omega, by omega, hout, hWm⟩
      · exact hE i' j' m c' h1
    · obtain ⟨⟨c2, hc2, hout2⟩, hW2⟩ := hA (hAlive' hal') x hx
      exact ⟨⟨c2, hc2, by rw [f1]; exact hout2⟩, hW2⟩
    · rcases hD with ⟨hg, ⟨c2, hc2, hout2⟩⟩ | ⟨h0, hdead⟩
      · left
        exact ⟨by rw [f2]; exact hg, ⟨c2, hc2, by rw [f1]; exact hout2⟩⟩
      · right
        refine ⟨by rw [f2]; exact h0, fun j' hj' => ?_⟩
        rw [CMIM.whileBody_classMI, Function.update_noteq (Nat.ne_of_lt hj')]
        exact hdead j' hj'
  · rintro j t hj ⟨⟨hE, hA⟩, hD⟩ _ hg
    have hscore : t.score = Dbl.fin 0 ∨ Dbl.gt t.score (Dbl.fin 0) = true := by
      rcases hD with ⟨hg', _⟩ | ⟨h0, _⟩
      · exact Or.inr hg'
      · exact Or.inl h0
    refine ⟨⟨fun i' j' m c' hm => ?_, fun hal x hx => ?_⟩, Or.inl ⟨?_, j, hj, ?_⟩⟩
    · obtain ⟨g1, g2, g3, g4, g5, g6⟩ := hE i' j' m c' hm
      refine ⟨g1, g2, g3, g4, ?_, g6⟩
      show Function.update t.outputFeatures i (Dbl.ofInt j) m = Dbl.ofInt c'
      rw [Function.update_noteq (by omega)]
      exact g5
    · obtain ⟨⟨c2, hc2, hout2⟩, hW2⟩ := hA hal x hx
      refine ⟨⟨c2, hc2, ?_⟩, hW2⟩
      show Function.update t.outputFeatures i (Dbl.ofInt j) x = Dbl.ofInt c2
      rw [Function.update_noteq (Nat.ne_of_lt hx)]
      exact hout2
    · exact Dbl.gt_zero_of_gt_score hscore hg
    · show Function.update t.outputFeatures i (Dbl.ofInt j) i = Dbl.ofInt j
      exact Function.update_same _ _ _
  · rintro j t _ ⟨hS, hD⟩ _ hg
    refine ⟨hS, ?_⟩
    rcases hD with hD | ⟨h0, hdead⟩
    · exact Or.inl hD
    · right
      refine ⟨h0, fun j' hj' => ?_⟩
      rcases Nat.lt_succ_iff_lt_or_eq.mp hj' with h1 | h1
      · exact hdead j' h1
      · subst h1
        rw [← h0]
        exact hg

theorem CMIM.SafeInv_rounds (O : Oracle) (a : Args) (out : Nat → Dbl) :
    ∀ n, SafeInv a (slotWritten O a out) n (n + 1) (rounds O a out n)
  | 0 => CMIM.SafeInv_round0 O a out
  | n + 1 => by
    have h := CMIM.SafeInv_rounds O a out n
    have h' : SafeInv a (slotWritten O a out) (n + 1) (n + 1) (rounds O a out n) :=
      ⟨fun i' j m c hm => by
        obtain ⟨g1, g2, g3⟩ := h.1 i' j m c hm
        exact ⟨g1, Nat.le_succ_of_le g2, g3⟩, h.2⟩
    rw [CMIM.rounds_succ]
    refine CMIM.SafeInv_round O a _ (n + 1) _ h' (fun hg => Or.inr ⟨Nat.succ_pos n, ?_⟩)
    rw [CMIM.rounds_succ]
    exact hg

/-- C18: with at least one feature and whatever the oracle returns, every evaluation of the
conditional mutual information made by `WeightedCMIM`, in a round `i` for the slot `m`, has
`m < i < k`; the index `c` read from `outputFeatures[m]` lies in `[0, noOfFeatures)`, so it is
not `-1`; the slot `m` was stored by round `m` of the same call (round 0 found a feature with
a mutual information above 0, a later round had a winner) and still holds `c` when the call
returns. -/
theorem WeightedCMIM_conditioning_index_valid (O : Oracle) (a : Args) (out : Nat → Dbl)
    (_hF : 1 ≤ a.noOfFeatures) (i j m : Nat) (c : Int)
    (hev : Event.conditionalMI i j m c ∈ (WeightedCMIM O a out).trace) :
    m < i ∧ (i : Int) < a.k ∧ 0 ≤ c ∧ c < a.noOfFeatures ∧ c ≠ -1 ∧
    CMIM.slotWritten O a out m ∧
    (WeightedCMIM O a out).outputFeatures m = Dbl.ofInt c := by
  obtain ⟨g1, g2, g3, g4, g5, g6⟩ := (CMIM.SafeInv_rounds O a out (a.k.toNat - 1)).1 i j m c hev
  exact ⟨g1, by omega, g3, g4, by omega, g6, g5⟩

/-- Witness of C18: in round 1 on the three-feature input, the conditional mutual
information of feature 0 is evaluated given the feature 1 read from slot 0. -/
theorem WeightedCMIM_conditioning_index_valid_witness :
    (1 ≤ (threeFeatures 2).noOfFeatures ∧
      Event.conditionalMI 1 0 0 1
        ∈ (WeightedCMIM cellOracle (threeFeatures 2) (fun _ => Dbl.fin 0)).trace) ∧
    (0 < 1 ∧ ((1 : Nat) : Int) < (threeFeatures 2).k ∧ (0 : Int) ≤ 1 ∧
      (1 : Int) < (threeFeatures 2).noOfFeatures ∧ (1 : Int) ≠ -1 ∧
      CMIM.slotWritten cellOracle (threeFeatures 2) (fun _ => Dbl.fin 0) 0 ∧
      (WeightedCMIM cellOracle (threeFeatures 2) (fun _ => Dbl.fin 0)).outputFeatures 0
        = Dbl.ofInt 1) :=
  ⟨⟨by decide, by decide⟩,
    WeightedCMIM_conditioning_index_valid cellOracle (threeFeatures 2) (fun _ => Dbl.fin 0)
      (by decide) 1 0 0 1 (by decide)⟩

/-! ## Self-suppression in WeightedCMIM -/

/-- Tightening a bound by a value that is at most 0 leaves no bound above 0. -/
theorem Dbl.min_nonpos (p c : Dbl) (hc : Dbl.ge (Dbl.fin 0) c = true) :
    Dbl.gt (Dbl.min p c) (Dbl.fin 0) = false := by
  have hc0 : Dbl.gt c (Dbl.fin 0) = false := by
    cases c <;> simp_all [Dbl.ge, Dbl.gt, Dbl.eq]
    rcases hc with h | h
    · exact le_of_lt h
    · rw [← h]
  unfold Dbl.min
  by_cases hg : Dbl.gt p c = true
  · rw [if_pos hg]; exact hc0
  · rw [if_neg hg]
    cases hp : Dbl.gt p (Dbl.fin 0) with
    | false => rfl
    | true =>
      exfalso
      apply hg
      cases p <;> cases c <;> simp_all [Dbl.ge, Dbl.gt, Dbl.eq]
      rcases hc with h | h
      · exact lt_trans h hp
      · rw [← h]; exact hp

/-- Once a slot below `m` holds a feature given which the conditional mutual information
of feature `j` is at most 0, the partial score of `j` over `m` slots is not above 0. -/
theorem CMIM.partialScore_suppressed (O : Oracle) (a : Args) (out : Nat → Dbl) (j x m : Nat)
    (hx : x < m) (hc : Dbl.ge (Dbl.fin 0) (cmi O a j (Dbl.toInt (out x))) = true) :
    Dbl.gt (partialScore O a out j m) (Dbl.fin 0) = false := by
  have h1 : Dbl.gt (partialScore O a out j (x + 1)) (Dbl.fin 0) = false := by
    rw [CMIM.partialScore_succ]
    exact Dbl.min_nonpos _ _ hc
  have hmono := CMIM.partialScore_mono O a out j (x + 1) (m - (x + 1))
  have e : x + 1 + (m - (x + 1)) = m := by omega
  rw [e] at hmono
  rcases hmono with h2 | h2
  · rw [h2]; exact h1
  · cases hg : Dbl.gt (partialScore O a out j m) (Dbl.fin 0) with
    | false => rfl
    | true =>
      have := Dbl.gt_trans h2 hg
      rw [h1] at this
      exact absurd this Bool.false_ne_true

/-- A round that stored its slot stored there a feature index; from round 1 on, the exact
score of that feature in that round is above 0. -/
theorem CMIM.slotWritten_spec (O : Oracle) (a : Args) (out : Nat → Dbl) (m : Nat)
    (h : slotWritten O a out m) :
    ∃ w, w < a.noOfFeatures.toNat ∧ (rounds O a out m).outputFeatures m = Dbl.ofInt w ∧
      (1 ≤ m →
        Dbl.gt (exactScore O a (rounds O a out (m - 1)).outputFeatures m w) (Dbl.fin 0)
          = true) := by
  rcases h with ⟨rfl, j, hj, hg⟩ | ⟨hm, hg⟩
  · obtain ⟨⟨c, hcF, hout⟩, _⟩ := (CMIM.SafeInv_round0 O a out).2
      ⟨j, hj, by rw [CMIM.round0_classMI O a out j hj]; exact hg⟩ 0 (Nat.lt_succ_self 0)
    exact ⟨c, hcF, hout, fun h1 => absurd h1 (by omega)⟩
  · obtain ⟨n, rfl⟩ : ∃ n, m = n + 1 := ⟨m - 1, by omega⟩
    have hI := CMIM.Inv_mono O a n (n + 1) _ (CMIM.Inv_rounds O a out n) (Nat.le_succ n)
    obtain ⟨_, _, w, hS, hW, _⟩ := CMIM.round_spec O a (n + 1) _ hI
    rw [← CMIM.rounds_succ] at hS hW
    cases w with
    | none =>
      exfalso
      rw [hS.1, Dbl.gt_irrefl] at hg
      exact Bool.false_ne_true hg
    | some v =>
      obtain ⟨hv, _, _, hb, _, _⟩ := hS
      exact ⟨v, hv, hW v rfl, fun _ => hb⟩

/-- C19: if the conditional mutual information of every feature given itself is at most 0,
then for two rounds `x < b < k` that both stored their slot (round 0 with some mutual
information above 0, a later round with a feature passing the test of line 118), the slots
`outputFeatures[x]` and `outputFeatures[b]` hold two different feature indices. -/
theorem WeightedCMIM_self_suppression (O : Oracle) (a : Args) (out : Nat → Dbl)
    (hself : ∀ j : Nat, (j : Int) < a.noOfFeatures →
      Dbl.ge (Dbl.fin 0) (CMIM.cmi O a j j) = true)
    (x b : Nat) (hxb : x < b) (hbk : (b : Int) < a.k)
    (hx : CMIM.slotWritten O a out x) (hb : CMIM.slotWritten O a out b) :
    (∃ wx wb : Nat, (wx : Int) < a.noOfFeatures ∧ (wb : Int) < a.noOfFeatures ∧ wx ≠ wb ∧
      (WeightedCMIM O a out).outputFeatures x = Dbl.ofInt wx ∧
      (WeightedCMIM O a out).outputFeatures b = Dbl.ofInt wb) ∧
    (WeightedCMIM O a out).outputFeatures x ≠ (WeightedCMIM O a out).outputFeatures b := by
  obtain ⟨wx, hwx, houtx, _⟩ := CMIM.slotWritten_spec O a out x hx
  obtain ⟨wb, hwb, houtb, hposb⟩ := CMIM.slotWritten_spec O a out b hb
  have hfin : ∀ y, y ≤ a.k.toNat - 1 →
      (WeightedCMIM O a out).outputFeatures y = (CMIM.rounds O a out y).outputFeatures y := by
    intro y hy
    obtain ⟨d, hd⟩ : ∃ d, a.k.toNat - 1 = y + d := ⟨a.k.toNat - 1 - y, by omega⟩
    unfold WeightedCMIM
    rw [hd]
    exact CMIM.rounds_stable O a out y y (Nat.le_refl y) d
  have hprev : (CMIM.rounds O a out (b - 1)).outputFeatures x = Dbl.ofInt wx := by
    obtain ⟨d, hd⟩ : ∃ d, b - 1 = x + d := ⟨b - 1 - x, by omega⟩
    rw [hd, CMIM.rounds_stable O a out x x (Nat.le_refl x) d]
    exact houtx
  have hne : wx ≠ wb := by
    intro e
    have hsup := CMIM.partialScore_suppressed O a (CMIM.rounds O a out (b - 1)).outputFeatures
      wb x b hxb (by
        rw [hprev, Dbl.toInt_ofInt, e]
        exact hself wb (by omega))
    have := hposb (by omega)
    unfold CMIM.exactScore at this
    rw [hsup] at this
    exact Bool.false_ne_true this
  have hx' := (hfin x (by omega)).trans houtx
  have hb' := (hfin b (by omega)).trans houtb
  refine ⟨⟨wx, wb, by omega, by omega, hne, hx', hb'⟩, ?_⟩
  rw [hx', hb']
  intro e
  have := Dbl.ofInt_injective e
  omega

/-- Witness of C19: the three-feature input with `k = 2`, whose oracle gives every feature
a conditional mutual information 0 given itself; round 0 stores 1 and round 1 stores 0. -/
theorem WeightedCMIM_self_suppression_witness :
    ((∀ j : Nat, (j : Int) < (threeFeatures 2).noOfFeatures →
        Dbl.ge (Dbl.fin 0) (CMIM.cmi cellOracle (threeFeatures 2) j j) = true) ∧
      0 < 1 ∧ ((1 : Nat) : Int) < (threeFeatures 2).k ∧
      CMIM.slotWritten cellOracle (threeFeatures 2) (fun _ => Dbl.fin 0) 0 ∧
      CMIM.slotWritten cellOracle (threeFeatures 2) (fun _ => Dbl.fin 0) 1) ∧
    (WeightedCMIM cellOracle (threeFeatures 2) (fun _ => Dbl.fin 0)).outputFeatures 0
      ≠ (WeightedCMIM cellOracle (threeFeatures 2) (fun _ => Dbl.fin 0)).outputFeatures 1 := by
  have hself : ∀ j : Nat, (j : Int) < (threeFeatures 2).noOfFeatures →
      Dbl.ge (Dbl.fin 0) (CMIM.cmi cellOracle (threeFeatures 2) j j) = true := by
    intro j hj
    have h3 : j = 0 ∨ j = 1 ∨ j = 2 := by
      have : (j : Int) < 3 := hj
      omega
    rcases h3 with h | h | h <;> subst h <;> decide
  have h0 : CMIM.slotWritten cellOracle (threeFeatures 2) (fun _ => Dbl.fin 0) 0 :=
    Or.inl ⟨rfl, 0, by decide, by decide⟩
  have h1 : CMIM.slotWritten cellOracle (threeFeatures 2) (fun _ => Dbl.fin 0) 1 :=
    Or.inr ⟨Nat.le_refl 1, by decide⟩
  exact ⟨⟨hself, by decide, by decide, h0, h1⟩,
    (WeightedCMIM_self_suppression cellOracle (threeFeatures 2) (fun _ => Dbl.fin 0) hself 0 1
      (by decide) (by decide) h0 h1).2⟩
